import Mathlib

/-! # Triangle-mesh adjacency (`manifold.h`, `manifold.cpp`)

A shallow embedding of the `Manifold` class: the adjacency builder
`Manifold::build` and the traversal primitives built on the links it stores.

Conventions of the embedding.

* Vertex indices are `uint32_t` in the source; they are natural numbers here and
  the one arithmetic operation applied to them, `vertex + 1`, is taken modulo
  `2^32`.
* A `std::vector` is a `List`.  `operator[]` past the end of a vector is undefined
  in the source; every such read or write is checked here and stops the run with
  `Fault.outOfBounds`.
* Loops whose termination depends on the data (the walk along a vertex ring, the
  visiting loops) take a step budget and stop with `Fault.outOfFuel` when it is
  used up.
* The visitor callback of the `visit*` functions is modelled by the sequence of
  links it is called with.
* Triangle indices and index counts are natural numbers: the embedding covers
  meshes of at most `2^30` triangles, whose indices the 30-bit `index` field of
  `Link` stores unchanged, given by fewer than `2^32 - 1` indices, for which the
  `uint32_t` loop counter of the loading loop does not wrap.
-/

namespace GeomLib

/-- Reasons for which a run of the model stops without a result. -/
inductive Fault where
  | outOfBounds
  | outOfFuel
  deriving DecidableEq, Repr

namespace Manifold

/-- The nested struct `Manifold::Link`: one side of one triangle
(`index : 30`, `side : 2` in the source). -/
structure Link where
  index : Nat
  side : Nat
  deriving DecidableEq, Repr

/-- The nested struct `Manifold::Triangle`: `vertex[3]` and `link[3]`,
one field per array slot. -/
structure Triangle where
  v0 : Nat
  v1 : Nat
  v2 : Nat
  l0 : Link
  l1 : Link
  l2 : Link
  deriving DecidableEq, Repr

/-- The read `t.vertex[j]`, for `j` in `0, 1, 2` (slot 2 stands for any other `j`;
the builder and the walks only use sides reduced modulo 3). -/
def Triangle.vertex (t : Triangle) (j : Nat) : Nat :=
  match j with
  | 0 => t.v0
  | 1 => t.v1
  | _ => t.v2

/-- The read `t.link[j]`, for `j` in `0, 1, 2`. -/
def Triangle.link (t : Triangle) (j : Nat) : Link :=
  match j with
  | 0 => t.l0
  | 1 => t.l1
  | _ => t.l2

/-- The write `t.link[j] = l`, for `j` in `0, 1, 2`. -/
def Triangle.setLink (t : Triangle) (j : Nat) (l : Link) : Triangle :=
  match j with
  | 0 => { t with l0 := l }
  | 1 => { t with l1 := l }
  | _ => { t with l2 := l }

/-- The nested struct `Manifold::TriangleVertexRings`: `next[3]`. -/
structure TriangleVertexRings where
  n0 : Link
  n1 : Link
  n2 : Link
  deriving DecidableEq, Repr

/-- The read `tvr.next[j]`, for `j` in `0, 1, 2`. -/
def TriangleVertexRings.next (r : TriangleVertexRings) (j : Nat) : Link :=
  match j with
  | 0 => r.n0
  | 1 => r.n1
  | _ => r.n2

/-- The write `tvr.next[j] = l`, for `j` in `0, 1, 2`. -/
def TriangleVertexRings.setNext (r : TriangleVertexRings) (j : Nat) (l : Link) :
    TriangleVertexRings :=
  match j with
  | 0 => { r with n0 := l }
  | 1 => { r with n1 := l }
  | _ => { r with n2 := l }

/-- The nested struct `Manifold::BuildWorkspace`. -/
structure BuildWorkspace where
  vertexRings : List Link
  triangleVertexRings : List TriangleVertexRings
  adjList : List Link
  deriving DecidableEq, Repr

end Manifold

/-- The class `Manifold`: its two data members. -/
structure Manifold where
  m_triangles : List Manifold.Triangle
  m_maxVertexCount : Nat
  deriving DecidableEq, Repr

/-- The constant `InvalidLink = {0, 3}`. -/
def InvalidLink : Manifold.Link := ⟨0, 3⟩

/-- The value a `Link` takes when a vector is grown by `resize`: all bits zero. -/
def zeroLink : Manifold.Link := ⟨0, 0⟩

/-- The method `std::vector::clear`. -/
def vecClear {α : Type} (_ : List α) : List α := []

/-- The method `std::vector::resize(n)`: keeps the first `n` elements and appends
value-initialised ones (`d`) up to length `n`. -/
def vecResize {α : Type} (xs : List α) (n : Nat) (d : α) : List α :=
  xs.take n ++ List.replicate (n - xs.length) d

namespace Manifold

/-- The constructor `Manifold::Manifold()`. -/
def empty : Manifold := ⟨[], 0⟩

/-- The loop of `build(wks, triangleIndices, triangleIndexCount)` (manifold.cpp
lines 42-55): `for (i = 2; i < count; i += 3)` reads the indices `i-2, i-1, i`, that
is, it consumes the sequence three at a time and stops at a remainder of fewer than
three. `max(m, v + 1)` is computed in `uint32_t`. -/
def loadTriangles : List Nat → Manifold → Manifold
  | a :: b :: c :: rest, m =>
    loadTriangles rest
      { m_triangles := m.m_triangles ++ [⟨a, b, c, InvalidLink, InvalidLink, InvalidLink⟩],
        m_maxVertexCount :=
          max (max (max m.m_maxVertexCount ((a + 1) % 4294967296)) ((b + 1) % 4294967296))
            ((c + 1) % 4294967296) }
  | _, m => m

/-- The loop `for (i = 0; i < m_maxVertexCount; ++i) vertexRings[i] = InvalidLink`
(lines 80-82), over the list of the values of `i`. -/
def fillInvalid : List Nat → List Link → Except Fault (List Link)
  | [], vertexRings => .ok vertexRings
  | i :: rest, vertexRings =>
    if i < vertexRings.length then fillInvalid rest (vertexRings.set i InvalidLink)
    else .error .outOfBounds

/-- The state the ring-threading loop works on. -/
structure RingState where
  vertexRings : List Link
  triangleVertexRings : List TriangleVertexRings
  triangles : List Triangle
  deriving DecidableEq, Repr

/-- The body of the loop over `j` (lines 87-91) for triangle `i`:
`vi = t.vertex[j]; tvr.next[j] = vertexRings[vi]; vertexRings[vi] = {i, j};
t.link[j] = InvalidLink`. -/
def threadCorner (i j : Nat) (s : RingState) : Except Fault RingState :=
  match s.triangles[i]?, s.triangleVertexRings[i]? with
  | some t, some tvr =>
    let vi := t.vertex j
    match s.vertexRings[vi]? with
    | none => .error .outOfBounds
    | some vr =>
      .ok { vertexRings := s.vertexRings.set vi ⟨i, j⟩,
            triangleVertexRings := s.triangleVertexRings.set i (tvr.setNext j vr),
            triangles := s.triangles.set i (t.setLink j InvalidLink) }
  | _, _ => .error .outOfBounds

/-- The loop `for (j = 0; j < 3; ++j)` (lines 86-92) for triangle `i`. -/
def threadTriangle (i : Nat) (s : RingState) : Except Fault RingState :=
  match threadCorner i 0 s with
  | .error e => .error e
  | .ok s0 =>
    match threadCorner i 1 s0 with
    | .error e => .error e
    | .ok s1 => threadCorner i 2 s1

/-- The loop `for (i = 0; i < triangleCount; ++i)` (lines 83-93), over the list of
the values of `i`. -/
def threadRings : List Nat → RingState → Except Fault RingState
  | [], s => .ok s
  | i :: rest, s =>
    match threadTriangle i s with
    | .error e => .error e
    | .ok s1 => threadRings rest s1

/-- The loop `for (; vr != InvalidLink; vr = triangleVertexRings[vr.index].next[vr.side])
adjList.push_back(vr)` (lines 100-101), with a step budget. -/
def collectRing (triangleVertexRings : List TriangleVertexRings) :
    Nat → Link → List Link → Except Fault (List Link)
  | 0, vr, adjList => if vr = InvalidLink then .ok adjList else .error .outOfFuel
  | fuel + 1, vr, adjList =>
    if vr = InvalidLink then .ok adjList
    else
      match triangleVertexRings[vr.index]? with
      | none => .error .outOfBounds
      | some r => collectRing triangleVertexRings fuel (r.next vr.side) (adjList ++ [vr])

/-- The write `m_triangles[i].link[s] = l` through a reference. -/
def writeLink (ts : List Triangle) (i s : Nat) (l : Link) : List Triangle :=
  match ts[i]? with
  | some t => ts.set i (t.setLink s l)
  | none => ts

/-- The loop over `k2` (lines 110-129) for a fixed `k1`: the list holds
`adjList[k2], adjList[k2+1], ...`. The result carries `false` when the body executed
`return false`. -/
def matchInner (vr1 : Link) (k1 v1 s1 : Nat) :
    Nat → List Link → List Triangle → Except Fault (Bool × List Triangle)
  | _, [], ts => .ok (true, ts)
  | k2, vr2 :: rest, ts =>
    if k1 = k2 then matchInner vr1 k1 v1 s1 (k2 + 1) rest ts
    else if vr1.index > vr2.index then matchInner vr1 k1 v1 s1 (k2 + 1) rest ts
    else
      match ts[vr1.index]?, ts[vr2.index]? with
      | some t1, some t2 =>
        let s2 := (vr2.side + 2) % 3
        let v2 := t2.vertex s2
        if v1 = v2 then
          if t1.link s1 ≠ InvalidLink ∨ t2.link s2 ≠ InvalidLink then .ok (false, ts)
          else
            matchInner vr1 k1 v1 s1 (k2 + 1) rest
              (writeLink (writeLink ts vr1.index s1 ⟨vr2.index, s2⟩) vr2.index s2
                ⟨vr1.index, s1⟩)
        else matchInner vr1 k1 v1 s1 (k2 + 1) rest ts
      | _, _ => .error .outOfBounds

/-- The loop over `k1` (lines 105-130): the second list holds
`adjList[k1], adjList[k1+1], ...`, the first one is the whole `adjList`; the bound
`adjList.count()` of both loops is read as the number of elements of `adjList`. -/
def matchOuter (adjList : List Link) :
    Nat → List Link → List Triangle → Except Fault (Bool × List Triangle)
  | _, [], ts => .ok (true, ts)
  | k1, vr1 :: rest, ts =>
    match ts[vr1.index]? with
    | none => .error .outOfBounds
    | some t1 =>
      let v1 := t1.vertex ((vr1.side + 1) % 3)
      let s1 := vr1.side
      match matchInner vr1 k1 v1 s1 0 adjList ts with
      | .error e => .error e
      | .ok (false, ts1) => .ok (false, ts1)
      | .ok (true, ts1) => matchOuter adjList (k1 + 1) rest ts1

/-- The loop `for (i = 0; i < m_maxVertexCount; ++i)` (lines 95-131), over the list
of the values of `i`. The result carries the return value decided so far, the
triangles and `adjList`. -/
def matchVertices (vertexRings : List Link) (triangleVertexRings : List TriangleVertexRings)
    (fuel : Nat) :
    List Nat → List Triangle → List Link → Except Fault (Bool × List Triangle × List Link)
  | [], ts, adjList => .ok (true, ts, adjList)
  | i :: rest, ts, adjList =>
    match vertexRings[i]? with
    | none => .error .outOfBounds
    | some vr =>
      if vr = InvalidLink then
        matchVertices vertexRings triangleVertexRings fuel rest ts adjList
      else
        match collectRing triangleVertexRings fuel vr (vecClear adjList) with
        | .error e => .error e
        | .ok adj =>
          match matchOuter adj 0 adj ts with
          | .error e => .error e
          | .ok (false, ts1) => .ok (false, ts1, adj)
          | .ok (true, ts1) =>
            matchVertices vertexRings triangleVertexRings fuel rest ts1 adj

/-- The method `bool Manifold::build(BuildWorkspace& wks)` (lines 65-133). The result
is the return value with the manifold and the workspace as the call leaves them. The
ring walk is given one step per triangle corner. -/
def buildWks (m : Manifold) (wks : BuildWorkspace) :
    Except Fault (Bool × Manifold × BuildWorkspace) :=
  let triangleCount := m.m_triangles.length
  if triangleCount = 0 then .ok (true, m, wks)
  else
    let vertexRings := vecResize (vecClear wks.vertexRings) m.m_maxVertexCount zeroLink
    let triangleVertexRings :=
      vecResize (vecClear wks.triangleVertexRings) triangleCount ⟨zeroLink, zeroLink, zeroLink⟩
    match fillInvalid (List.range m.m_maxVertexCount) vertexRings with
    | .error e => .error e
    | .ok vertexRings1 =>
      match threadRings (List.range triangleCount)
          ⟨vertexRings1, triangleVertexRings, m.m_triangles⟩ with
      | .error e => .error e
      | .ok s =>
        match matchVertices s.vertexRings s.triangleVertexRings (3 * triangleCount)
            (List.range m.m_maxVertexCount) s.triangles wks.adjList with
        | .error e => .error e
        | .ok (r, ts, adj) =>
          .ok (r, { m with m_triangles := ts }, ⟨s.vertexRings, s.triangleVertexRings, adj⟩)

/-- The method `bool Manifold::build(BuildWorkspace& wks, const std::vector<uint32_t>&
triangleIndices)` (lines 38-63): clears the manifold, loads the triangles and
calls `build(wks)`. -/
def build (m : Manifold) (wks : BuildWorkspace) (triangleIndices : List Nat) :
    Except Fault (Bool × Manifold × BuildWorkspace) :=
  buildWks (loadTriangles triangleIndices ⟨vecClear m.m_triangles, 0⟩) wks

/-- The way a visiting loop ends: its condition became false (`done`), its body
executed `return b`, or the run stopped on a fault. -/
inductive LoopExit where
  | done
  | returned (b : Bool)
  | fault (f : Fault)
  deriving DecidableEq, Repr

/-- The outcome of a `visit*` call: the value it returns, or the fault that
stopped the run. -/
inductive Outcome where
  | returned (b : Bool)
  | fault (f : Fault)
  deriving DecidableEq, Repr

/-- The assignment `it.side = (it.side + k) % 3` applied to a copy of `it`. -/
def rotate (it : Link) (k : Nat) : Link := ⟨it.index, (it.side + k) % 3⟩

/-- The method `getEdgeKey` (manifold.h lines 88-95). -/
def getEdgeKey (m : Manifold) (link : Link) : Option Nat :=
  match m.m_triangles[link.index]? with
  | none => none
  | some t =>
    if link.side < 3 then
      let otlink := t.link link.side
      if otlink = InvalidLink ∨ otlink.index > link.index then
        some (link.index * 3 + link.side)
      else some (otlink.index * 3 + otlink.side)
    else none

/-- The method `nextAnticlockwise` (manifold.h lines 97-106); `none` when
`link.index` is not the index of a triangle. -/
def nextAnticlockwise (m : Manifold) (link : Link) : Option Link :=
  match m.m_triangles[link.index]? with
  | none => none
  | some t => some (t.link ((link.side + 1) % 3))

/-- The method `nextClockwise` (manifold.h lines 108-117); `none` when `link.index`
is not the index of a triangle. -/
def nextClockwise (m : Manifold) (link : Link) : Option Link :=
  match m.m_triangles[link.index]? with
  | none => none
  | some t => some (t.link ((link.side + 2) % 3))

/-- The first loop of `visitTrianglesClockwise` (lines 137-145), started at `it`:
the links passed to `visitFunc`, in order, and the way the loop ends. -/
def trianglesClockwiseWalk (m : Manifold) (stop : Link) : Nat → Link → List Link × LoopExit
  | 0, it => if it = InvalidLink then ([], .done) else ([], .fault .outOfFuel)
  | fuel + 1, it =>
    if it = InvalidLink then ([], .done)
    else
      let it1 := rotate it 2
      if it1 = stop then ([it], .returned true)
      else
        match m.m_triangles[it1.index]? with
        | none => ([it], .fault .outOfBounds)
        | some t =>
          let r := trianglesClockwiseWalk m stop fuel (t.link it1.side)
          (it :: r.1, r.2)

/-- The second loop of `visitTrianglesClockwise` (lines 148-155) and of
`visitEdgesClockwise` (lines 230-237), started at `it`. -/
def clockwiseTail (m : Manifold) : Nat → Link → List Link × LoopExit
  | 0, it => if it = InvalidLink then ([], .done) else ([], .fault .outOfFuel)
  | fuel + 1, it =>
    if it = InvalidLink then ([], .done)
    else
      let it1 := rotate it 1
      match m.m_triangles[it1.index]? with
      | none => ([it1], .fault .outOfBounds)
      | some t =>
        let r := clockwiseTail m fuel (t.link it1.side)
        (it1 :: r.1, r.2)

/-- The first loop of `visitTrianglesAnticlockwise` (lines 176-185), started
at `it`. -/
def trianglesAnticlockwiseWalk (m : Manifold) (stop : Link) :
    Nat → Link → List Link × LoopExit
  | 0, it => if it = InvalidLink then ([], .done) else ([], .fault .outOfFuel)
  | fuel + 1, it =>
    if it = InvalidLink then ([], .done)
    else
      let it1 := rotate it 1
      if it1 = stop then ([it1], .returned true)
      else
        match m.m_triangles[it1.index]? with
        | none => ([it1], .fault .outOfBounds)
        | some t =>
          let r := trianglesAnticlockwiseWalk m stop fuel (t.link it1.side)
          (it1 :: r.1, r.2)

/-- The second loop of `visitTrianglesAnticlockwise` (lines 188-194), started
at `it`. -/
def trianglesAnticlockwiseTail (m : Manifold) : Nat → Link → List Link × LoopExit
  | 0, it => if it = InvalidLink then ([], .done) else ([], .fault .outOfFuel)
  | fuel + 1, it =>
    if it = InvalidLink then ([], .done)
    else
      let it1 := rotate it 2
      match m.m_triangles[it1.index]? with
      | none => ([it], .fault .outOfBounds)
      | some t =>
        let r := trianglesAnticlockwiseTail m fuel (t.link it1.side)
        (it :: r.1, r.2)

/-- The `do ... while (it != InvalidLink)` loop of `visitEdgesClockwise`
(lines 218-226) for `k = 2` and of `visitEdgesAnticlockwise` (lines 261-269) for
`k = 1`, entered with `it`. -/
def edgesWalk (m : Manifold) (k : Nat) (stop : Link) : Nat → Link → List Link × LoopExit
  | 0, _ => ([], .fault .outOfFuel)
  | fuel + 1, it =>
    let it1 := rotate it k
    if it1 = stop then ([], .returned true)
    else
      match m.m_triangles[it1.index]? with
      | none => ([it1], .fault .outOfBounds)
      | some t =>
        let next := t.link it1.side
        if next = InvalidLink then ([it1], .done)
        else
          let r := edgesWalk m k stop fuel next
          (it1 :: r.1, r.2)

/-- The second loop of `visitEdgesAnticlockwise` (lines 273-280), started at `it`. -/
def edgesAnticlockwiseTail (m : Manifold) : Nat → Link → List Link × LoopExit
  | 0, it => if it = InvalidLink then ([], .done) else ([], .fault .outOfFuel)
  | fuel + 1, it =>
    if it = InvalidLink then ([], .done)
    else
      let it1 := rotate it 2
      match m.m_triangles[it1.index]? with
      | none => ([it1], .fault .outOfBounds)
      | some t =>
        let r := edgesAnticlockwiseTail m fuel (t.link it1.side)
        (it1 :: r.1, r.2)

/-- The two loops of a `visit*` function in sequence: the second loop runs when the
first one is left through its condition, and the function then returns `false`. -/
def visitTwoPhase (first second : List Link × LoopExit) : List Link × Outcome :=
  match first.2 with
  | .returned b => (first.1, .returned b)
  | .fault f => (first.1, .fault f)
  | .done =>
    match second.2 with
    | .returned b => (first.1 ++ second.1, .returned b)
    | .fault f => (first.1 ++ second.1, .fault f)
    | .done => (first.1 ++ second.1, .returned false)

/-- The method `visitTrianglesClockwise` (manifold.h lines 121-157): the links
passed to `visitFunc`, in order, and the outcome. Each loop may take `fuel` steps. -/
def visitTrianglesClockwise (m : Manifold) (start stop : Link) (fuel : Nat) :
    List Link × Outcome :=
  visitTwoPhase (trianglesClockwiseWalk m stop fuel start) (clockwiseTail m fuel stop)

/-- The method `visitTrianglesAnticlockwise` (manifold.h lines 161-196). -/
def visitTrianglesAnticlockwise (m : Manifold) (start stop : Link) (fuel : Nat) :
    List Link × Outcome :=
  visitTwoPhase (trianglesAnticlockwiseWalk m stop fuel start)
    (trianglesAnticlockwiseTail m fuel stop)

/-- The first part of `visitEdgesClockwise` and `visitEdgesAnticlockwise`
(lines 214-227, 257-270): `if (it != InvalidLink) { visitFunc(it); do ... while }`. -/
def edgesHead (m : Manifold) (k : Nat) (start stop : Link) (fuel : Nat) :
    List Link × LoopExit :=
  if start = InvalidLink then ([], .done)
  else
    let r := edgesWalk m k stop fuel start
    (start :: r.1, r.2)

/-- The method `visitEdgesClockwise` (manifold.h lines 200-239). -/
def visitEdgesClockwise (m : Manifold) (start stop : Link) (fuel : Nat) :
    List Link × Outcome :=
  visitTwoPhase (edgesHead m 2 start stop fuel) (clockwiseTail m fuel stop)

/-- The method `visitEdgesAnticlockwise` (manifold.h lines 243-282). -/
def visitEdgesAnticlockwise (m : Manifold) (start stop : Link) (fuel : Nat) :
    List Link × Outcome :=
  visitTwoPhase (edgesHead m 1 start stop fuel) (edgesAnticlockwiseTail m fuel stop)

/-! ## Reading the triangle table -/

/-- The link stored at side `s` of triangle `t`; the sentinel when there is no
triangle `t`. -/
def linkAt (ts : List Triangle) (t s : Nat) : Link :=
  match ts[t]? with
  | some tri => tri.link s
  | none => InvalidLink

/-- The vertex at corner `s` of triangle `t`; `0` when there is no triangle `t`. -/
def vertexAt (ts : List Triangle) (t s : Nat) : Nat :=
  match ts[t]? with
  | some tri => tri.vertex s
  | none => 0

/-- Half-edge `(t2, s2)` runs along the same two vertices as half-edge `(t1, s1)`, in
the opposite direction. -/
def Opposite (ts : List Triangle) (t1 s1 t2 s2 : Nat) : Prop :=
  vertexAt ts t1 s1 = vertexAt ts t2 ((s2 + 1) % 3) ∧
  vertexAt ts t1 ((s1 + 1) % 3) = vertexAt ts t2 s2

/-- What the matching loops keep true of the triangle table: its size, its
vertices (`V`), and that every stored link names the side of a triangle that links
back and runs along the same two vertices in the opposite direction. -/
structure MatchInv (n : Nat) (V : Nat → Nat → Nat) (ts : List Triangle) : Prop where
  len : ts.length = n
  vert : ∀ t s, vertexAt ts t s = if t < n then V t s else 0
  links : ∀ t s, t < n → s < 3 → linkAt ts t s ≠ InvalidLink →
    (linkAt ts t s).index < n ∧ (linkAt ts t s).side < 3 ∧
    linkAt ts (linkAt ts t s).index (linkAt ts t s).side = ⟨t, s⟩ ∧
    V (linkAt ts t s).index (linkAt ts t s).side = V t ((s + 1) % 3) ∧
    V (linkAt ts t s).index (((linkAt ts t s).side + 1) % 3) = V t s

/-- The table `ts1` keeps every link that `ts` stores. -/
def KeepsLinks (ts ts1 : List Triangle) : Prop :=
  ∀ t s, s < 3 → linkAt ts t s ≠ InvalidLink → linkAt ts1 t s = linkAt ts t s

/-- A corner of one of the first `n` triangles. -/
def ValidCorner (n : Nat) (c : Link) : Prop := c.index < n ∧ c.side < 3

/-- The list threaded through `triangleVertexRings`: the corners met from `c` on,
following `next` until the sentinel. -/
inductive Chain (tvr : List TriangleVertexRings) : Link → List Link → Prop where
  | nil : Chain tvr InvalidLink []
  | cons {c : Link} {r : TriangleVertexRings} {ring : List Link} :
      c ≠ InvalidLink → tvr[c.index]? = some r → Chain tvr (r.next c.side) ring →
      Chain tvr c (c :: ring)

/-- The corners of the triangles `is`, in the order in which the threading loop
meets them. -/
def cornersOf : List Nat → List Link
  | [] => []
  | i :: rest => ⟨i, 0⟩ :: ⟨i, 1⟩ :: ⟨i, 2⟩ :: cornersOf rest

/-- The corners among `done` that lie at vertex `v`, the most recent first. -/
def ringOf (V : Nat → Nat → Nat) (done : List Link) (v : Nat) : List Link :=
  (done.filter (fun c => decide (V c.index c.side = v))).reverse

/-- What the threading loop keeps true after the corners `done`: the sizes of the
tables, the vertices, the list of each vertex, and the links reset so far. -/
structure RingInv (n mvc : Nat) (V : Nat → Nat → Nat) (done : List Link) (s : RingState) :
    Prop where
  lenV : s.vertexRings.length = mvc
  lenT : s.triangleVertexRings.length = n
  lenTri : s.triangles.length = n
  vert : ∀ t j, vertexAt s.triangles t j = if t < n then V t j else 0
  chain : ∀ v, v < mvc →
    ∃ vr, s.vertexRings[v]? = some vr ∧ Chain s.triangleVertexRings vr (ringOf V done v)
  reset : ∀ c ∈ done, linkAt s.triangles c.index c.side = InvalidLink

/-- The corners of the first `n` triangles that lie at vertex `v`, in the order in
which the matching loop finds them in `adjList`. -/
def ringAt (n : Nat) (V : Nat → Nat → Nat) (v : Nat) : List Link :=
  ringOf V (cornersOf (List.range n)) v

/-- The state of the workspace when the matching loop starts: every vertex has its
list of corners threaded, and the step budget covers every list. -/
structure RingsReady (n mvc : Nat) (V : Nat → Nat → Nat) (fuel : Nat)
    (vertexRings : List Link) (tvr : List TriangleVertexRings) : Prop where
  chain : ∀ v, v < mvc → ∃ vr, vertexRings[v]? = some vr ∧ Chain tvr vr (ringAt n V v)
  budget : 3 * n ≤ fuel

/-- The triangles that the complete triples of a flat index sequence stand for, all
links absent. -/
def triplesOf : List Nat → List Triangle
  | a :: b :: c :: rest => ⟨a, b, c, InvalidLink, InvalidLink, InvalidLink⟩ :: triplesOf rest
  | _ => []

/-- The vertex indices that occur in the complete triples of a flat index sequence:
all but the one or two left over at the end. -/
def usedIndices (xs : List Nat) : List Nat := xs.take (3 * (xs.length / 3))

/-! ## Example meshes -/

/-- Two triangles `(0,1,2)` and `(1,0,3)` that share the edge `0-1`, followed by one
index left over. -/
def pairInput : List Nat := [0, 1, 2, 1, 0, 3, 7]

/-- The manifold that `build` leaves for `pairInput`. -/
def pairManifold : Manifold :=
  ⟨[⟨0, 1, 2, ⟨1, 0⟩, InvalidLink, InvalidLink⟩, ⟨1, 0, 3, ⟨0, 0⟩, InvalidLink, InvalidLink⟩], 4⟩

/-- The workspace that `build` leaves for `pairInput`. -/
def pairWorkspace : BuildWorkspace :=
  ⟨[⟨1, 1⟩, ⟨1, 0⟩, ⟨0, 2⟩, ⟨1, 2⟩],
   [⟨InvalidLink, InvalidLink, InvalidLink⟩, ⟨⟨0, 1⟩, ⟨0, 0⟩, InvalidLink⟩],
   [⟨1, 2⟩]⟩

/-- The 12-triangle grid of `visitRingTest` (manifoldTest.cpp lines 40-43). -/
def gridInput : List Nat :=
  [0, 4, 3, 0, 1, 4, 1, 5, 4, 1, 2, 5, 2, 6, 5, 3, 4, 7, 4, 8, 7, 4, 5, 8, 5, 9, 8, 5, 6, 9,
   2, 10, 6, 6, 11, 9]

/-- The manifold that `build` leaves for `gridInput`. -/
def gridManifold : Manifold :=
  ⟨[⟨0, 4, 3, ⟨1, 2⟩, ⟨5, 0⟩, InvalidLink⟩, ⟨0, 1, 4, InvalidLink, ⟨2, 2⟩, ⟨0, 0⟩⟩,
    ⟨1, 5, 4, ⟨3, 2⟩, ⟨7, 0⟩, ⟨1, 1⟩⟩, ⟨1, 2, 5, InvalidLink, ⟨4, 2⟩, ⟨2, 0⟩⟩,
    ⟨2, 6, 5, ⟨10, 2⟩, ⟨9, 0⟩, ⟨3, 1⟩⟩, ⟨3, 4, 7, ⟨0, 1⟩, ⟨6, 2⟩, InvalidLink⟩,
    ⟨4, 8, 7, ⟨7, 2⟩, InvalidLink, ⟨5, 1⟩⟩, ⟨4, 5, 8, ⟨2, 1⟩, ⟨8, 2⟩, ⟨6, 0⟩⟩,
    ⟨5, 9, 8, ⟨9, 2⟩, InvalidLink, ⟨7, 1⟩⟩, ⟨5, 6, 9, ⟨4, 1⟩, ⟨11, 2⟩, ⟨8, 0⟩⟩,
    ⟨2, 10, 6, InvalidLink, InvalidLink, ⟨4, 0⟩⟩, ⟨6, 11, 9, InvalidLink, InvalidLink, ⟨9, 1⟩⟩],
   12⟩

/-- The workspace that `build` leaves for `gridInput`. -/
def gridWorkspace : BuildWorkspace :=
  ⟨[⟨1, 0⟩, ⟨3, 0⟩, ⟨10, 0⟩, ⟨5, 0⟩, ⟨7, 0⟩, ⟨9, 0⟩, ⟨11, 0⟩, ⟨6, 2⟩, ⟨8, 2⟩, ⟨11, 2⟩, ⟨10, 1⟩,
    ⟨11, 1⟩],
   [⟨InvalidLink, InvalidLink, InvalidLink⟩, ⟨⟨0, 0⟩, InvalidLink, ⟨0, 1⟩⟩,
    ⟨⟨1, 1⟩, InvalidLink, ⟨1, 2⟩⟩, ⟨⟨2, 0⟩, InvalidLink, ⟨2, 1⟩⟩, ⟨⟨3, 1⟩, InvalidLink, ⟨3, 2⟩⟩,
    ⟨⟨0, 2⟩, ⟨2, 2⟩, InvalidLink⟩, ⟨⟨5, 1⟩, InvalidLink, ⟨5, 2⟩⟩, ⟨⟨6, 0⟩, ⟨4, 2⟩, ⟨6, 1⟩⟩,
    ⟨⟨7, 1⟩, InvalidLink, ⟨7, 2⟩⟩, ⟨⟨8, 0⟩, ⟨4, 1⟩, ⟨8, 1⟩⟩, ⟨⟨4, 0⟩, InvalidLink, ⟨9, 1⟩⟩,
    ⟨⟨10, 2⟩, InvalidLink, ⟨9, 2⟩⟩],
   [⟨11, 1⟩]⟩

/-- The corners around vertex 4 of the grid, clockwise from `(7, 0)`; the sentinel
beyond the sixth. -/
def gridRing (i : Nat) : Link :=
  [(⟨7, 0⟩ : Link), ⟨6, 0⟩, ⟨5, 1⟩, ⟨0, 1⟩, ⟨1, 2⟩, ⟨2, 2⟩].getD i InvalidLink

/-- The 11-triangle double fan of `visitEdgesTest` (manifoldTest.cpp lines 124-126). -/
def fanInput : List Nat :=
  [0, 6, 5, 0, 1, 6, 1, 2, 6, 2, 3, 6, 3, 4, 6, 4, 7, 6, 6, 9, 8, 6, 10, 9, 6, 11, 10,
   6, 12, 11, 6, 7, 12]

/-- The manifold that `build` leaves for `fanInput`. -/
def fanManifold : Manifold :=
  ⟨[⟨0, 6, 5, ⟨1, 2⟩, InvalidLink, InvalidLink⟩, ⟨0, 1, 6, InvalidLink, ⟨2, 2⟩, ⟨0, 0⟩⟩,
    ⟨1, 2, 6, InvalidLink, ⟨3, 2⟩, ⟨1, 1⟩⟩, ⟨2, 3, 6, InvalidLink, ⟨4, 2⟩, ⟨2, 1⟩⟩,
    ⟨3, 4, 6, InvalidLink, ⟨5, 2⟩, ⟨3, 1⟩⟩, ⟨4, 7, 6, InvalidLink, ⟨10, 0⟩, ⟨4, 1⟩⟩,
    ⟨6, 9, 8, ⟨7, 2⟩, InvalidLink, InvalidLink⟩, ⟨6, 10, 9, ⟨8, 2⟩, InvalidLink, ⟨6, 0⟩⟩,
    ⟨6, 11, 10, ⟨9, 2⟩, InvalidLink, ⟨7, 0⟩⟩, ⟨6, 12, 11, ⟨10, 2⟩, InvalidLink, ⟨8, 0⟩⟩,
    ⟨6, 7, 12, ⟨5, 1⟩, InvalidLink, ⟨9, 0⟩⟩],
   13⟩

/-- The workspace that `build` leaves for `fanInput`. -/
def fanWorkspace : BuildWorkspace :=
  ⟨[⟨1, 0⟩, ⟨2, 0⟩, ⟨3, 0⟩, ⟨4, 0⟩, ⟨5, 0⟩, ⟨0, 2⟩, ⟨10, 0⟩, ⟨10, 1⟩, ⟨6, 2⟩, ⟨7, 2⟩, ⟨8, 2⟩,
    ⟨9, 2⟩, ⟨10, 2⟩],
   [⟨InvalidLink, InvalidLink, InvalidLink⟩, ⟨⟨0, 0⟩, InvalidLink, ⟨0, 1⟩⟩,
    ⟨⟨1, 1⟩, InvalidLink, ⟨1, 2⟩⟩, ⟨⟨2, 1⟩, InvalidLink, ⟨2, 2⟩⟩, ⟨⟨3, 1⟩, InvalidLink, ⟨3, 2⟩⟩,
    ⟨⟨4, 1⟩, InvalidLink, ⟨4, 2⟩⟩, ⟨⟨5, 2⟩, InvalidLink, InvalidLink⟩,
    ⟨⟨6, 0⟩, InvalidLink, ⟨6, 1⟩⟩, ⟨⟨7, 0⟩, InvalidLink, ⟨7, 1⟩⟩, ⟨⟨8, 0⟩, InvalidLink, ⟨8, 1⟩⟩,
    ⟨⟨9, 0⟩, ⟨5, 1⟩, ⟨9, 1⟩⟩],
   [⟨10, 2⟩, ⟨9, 1⟩]⟩

/-- A single triangle `(0, 0, 1)`, whose first two vertices coincide. -/
def foldInput : List Nat := [0, 0, 1]

/-- The manifold that `build` leaves for `foldInput`: side 0 is linked to itself, sides
1 and 2 to each other. -/
def foldManifold : Manifold := ⟨[⟨0, 0, 1, ⟨0, 0⟩, ⟨0, 2⟩, ⟨0, 1⟩⟩], 2⟩

/-- The workspace that `build` leaves for `foldInput`. -/
def foldWorkspace : BuildWorkspace :=
  ⟨[⟨0, 1⟩, ⟨0, 2⟩], [⟨InvalidLink, ⟨0, 0⟩, InvalidLink⟩], [⟨0, 2⟩]⟩

/-! ## The visiting loops, abstractly -/

/-- The way a visiting loop ends that starts at `it` and in each round turns `it` by `k`
sides, returns `true` when the turned link is `stop`, and moves on to the link stored
at the turned side. -/
def walkExit (m : Manifold) (k : Nat) (stop : Link) : Nat → Link → LoopExit
  | 0, it => if it = InvalidLink then .done else .fault .outOfFuel
  | fuel + 1, it =>
    if it = InvalidLink then .done
    else if rotate it k = stop then .returned true
    else
      match m.m_triangles[(rotate it k).index]? with
      | none => .fault .outOfBounds
      | some t => walkExit m k stop fuel (t.link (rotate it k).side)

/-! ## The exact condition of failure -/

/-- Every link of the table was written when the matching loops met a pair of
corners of which `D` holds: the link from side `(t, s)` to side `l` is written either
for the corner `(t, s)` with the corner that follows side `l`, or for the corner `l`
with the corner that follows side `(t, s)`. -/
def LinkedBy (n : Nat) (D : Link → Link → Prop) (ts : List Triangle) : Prop :=
  ∀ t s, t < n → s < 3 → linkAt ts t s ≠ InvalidLink →
    D ⟨t, s⟩ ⟨(linkAt ts t s).index, ((linkAt ts t s).side + 1) % 3⟩ ∨
    D (linkAt ts t s) ⟨t, (s + 1) % 3⟩

/-- Some side of the first `n` triangles has two distinct sides that run along the
same two vertices in the opposite direction; `V t j` is the vertex at corner `j` of
triangle `t`. -/
def TwoOpposites (n : Nat) (V : Nat → Nat → Nat) : Prop :=
  ∃ a b c : Link, ValidCorner n a ∧ ValidCorner n b ∧ ValidCorner n c ∧ b ≠ c ∧
    (V a.index a.side = V b.index ((b.side + 1) % 3) ∧
      V a.index ((a.side + 1) % 3) = V b.index b.side) ∧
    (V a.index a.side = V c.index ((c.side + 1) % 3) ∧
      V a.index ((a.side + 1) % 3) = V c.index c.side)

/-! ## Rings of triangles -/

/-- One step of a visiting loop that turns by `k` sides: the link stored at side
`(it.side + k) % 3` of triangle `it.index`, and the sentinel when `it` is the sentinel.
For a corner of the mesh this is `nextClockwise it` when `k = 2` and
`nextAnticlockwise it` when `k = 1`. -/
def ringStep (m : Manifold) (k : Nat) (it : Link) : Link :=
  if it = InvalidLink then InvalidLink else linkAt m.m_triangles it.index ((it.side + k) % 3)

/-- The triangles met from `c` on by steps that turn by `k` sides form a closed
ring: some positive number of steps leads from `c` back to `c`. -/
def ClosedRing (m : Manifold) (k : Nat) (c : Link) : Prop :=
  c ≠ InvalidLink ∧ ∃ d, 0 < d ∧ (ringStep m k)^[d] c = c

/-- The steps from `start` that turn by `k` sides meet `stop`: some link reached
from `start`, not the sentinel, is `stop` when turned by `k` sides. -/
def MeetsEnd (m : Manifold) (k : Nat) (start stop : Link) : Prop :=
  ∃ i, (ringStep m k)^[i] start ≠ InvalidLink ∧ rotate ((ringStep m k)^[i] start) k = stop

/-- The condition under which a visit returns whose first loop turns by `k1` sides
and whose second loop turns by `k2` sides: the steps from `start` meet `stop`, or
neither the ring at `start` nor the ring at `stop` is closed. -/
def VisitEnds (m : Manifold) (k1 k2 : Nat) (start stop : Link) : Prop :=
  MeetsEnd m k1 start stop ∨ (¬ ClosedRing m k1 start ∧ ¬ ClosedRing m k2 stop)

/-! ## Basic facts -/

theorem link_ne_invalid (t s : Nat) (hs : s < 3) : (⟨t, s⟩ : Link) ≠ InvalidLink := by
  intro h
  have := congrArg Link.side h
  simp [InvalidLink] at this
  omega

theorem Triangle.vertex_setLink (t : Triangle) (j : Nat) (l : Link) (s : Nat) :
    (t.setLink j l).vertex s = t.vertex s := by
  unfold Triangle.setLink
  split <;> (unfold Triangle.vertex; split <;> rfl)

theorem Triangle.link_setLink (t : Triangle) (j s : Nat) (l : Link) (hj : j < 3) (hs : s < 3) :
    (t.setLink j l).link s = if s = j then l else t.link s := by
  have hj' : j = 0 ∨ j = 1 ∨ j = 2 := by omega
  have hs' : s = 0 ∨ s = 1 ∨ s = 2 := by omega
  rcases hj' with rfl | rfl | rfl <;> rcases hs' with rfl | rfl | rfl <;> rfl

theorem length_writeLink (ts : List Triangle) (i s : Nat) (l : Link) :
    (writeLink ts i s l).length = ts.length := by
  unfold writeLink
  split <;> simp

theorem vertexAt_writeLink (ts : List Triangle) (i s : Nat) (l : Link) (t j : Nat) :
    vertexAt (writeLink ts i s l) t j = vertexAt ts t j := by
  unfold writeLink vertexAt
  cases h : ts[i]? with
  | none => simp
  | some tri =>
    simp only [List.getElem?_set]
    by_cases hit : i = t
    · subst hit
      have hlt : i < ts.length := by
        rcases List.getElem?_eq_some.mp h with ⟨hlt, _⟩
        exact hlt
      simp [hlt, h, Triangle.vertex_setLink]
    · simp [hit]

theorem linkAt_writeLink (ts : List Triangle) (i s : Nat) (l : Link) (t j : Nat)
    (hs : s < 3) (hj : j < 3) :
    linkAt (writeLink ts i s l) t j =
      if t = i ∧ j = s ∧ i < ts.length then l else linkAt ts t j := by
  unfold writeLink linkAt
  cases h : ts[i]? with
  | none =>
    have hle : ts.length ≤ i := List.getElem?_eq_none_iff.mp h
    have : ¬ (t = i ∧ j = s ∧ i < ts.length) := by omega
    simp [this]
  | some tri =>
    have hlt : i < ts.length := by
      rcases List.getElem?_eq_some.mp h with ⟨hlt, _⟩
      exact hlt
    simp only [List.getElem?_set]
    by_cases hit : i = t
    · subst hit
      simp only [hlt, if_true, true_and, and_true, h, Triangle.link_setLink _ _ _ _ hs hj]
    · have : ¬ (t = i ∧ j = s ∧ i < ts.length) := by
        intro hh; exact hit hh.1.symm
      simp [hit, this]

theorem linkAt_of_getElem? {ts : List Triangle} {t : Nat} {tri : Triangle}
    (h : ts[t]? = some tri) (s : Nat) : linkAt ts t s = tri.link s := by
  simp [linkAt, h]

theorem vertexAt_of_getElem? {ts : List Triangle} {t : Nat} {tri : Triangle}
    (h : ts[t]? = some tri) (s : Nat) : vertexAt ts t s = tri.vertex s := by
  simp [vertexAt, h]

theorem lt_of_getElem? {α : Type} {xs : List α} {i : Nat} {a : α} (h : xs[i]? = some a) :
    i < xs.length := by
  rcases List.getElem?_eq_some.mp h with ⟨hlt, _⟩
  exact hlt

theorem KeepsLinks.refl (ts : List Triangle) : KeepsLinks ts ts := fun _ _ _ _ => rfl

theorem KeepsLinks.trans {a b c : List Triangle} (h1 : KeepsLinks a b) (h2 : KeepsLinks b c) :
    KeepsLinks a c := by
  intro t s hs hne
  have e1 := h1 t s hs hne
  have e2 := h2 t s hs (by rw [e1]; exact hne)
  rw [e2, e1]

/-- Linking two free sides that run along the same vertices in opposite directions
keeps the invariant of the matching loops. -/
theorem MatchInv.link_pair {n : Nat} {V : Nat → Nat → Nat} {ts : List Triangle}
    (h : MatchInv n V ts) (i1 s1 i2 s2 : Nat) (hi1 : i1 < n) (hs1 : s1 < 3) (hi2 : i2 < n)
    (hs2 : s2 < 3) (hA : linkAt ts i1 s1 = InvalidLink) (hB : linkAt ts i2 s2 = InvalidLink)
    (hv1 : V i1 ((s1 + 1) % 3) = V i2 s2) (hv2 : V i1 s1 = V i2 ((s2 + 1) % 3)) :
    MatchInv n V (writeLink (writeLink ts i1 s1 ⟨i2, s2⟩) i2 s2 ⟨i1, s1⟩) := by
  have hlen := h.len
  have hread : ∀ t s, s < 3 →
      linkAt (writeLink (writeLink ts i1 s1 ⟨i2, s2⟩) i2 s2 ⟨i1, s1⟩) t s =
        if t = i2 ∧ s = s2 then ⟨i1, s1⟩
        else if t = i1 ∧ s = s1 then ⟨i2, s2⟩ else linkAt ts t s := by
    intro t s hs
    rw [linkAt_writeLink _ _ _ _ _ _ hs2 hs, length_writeLink,
      linkAt_writeLink _ _ _ _ _ _ hs1 hs]
    have e1 : i1 < ts.length := by omega
    have e2 : i2 < ts.length := by omega
    simp only [e1, e2, and_true]
  refine ⟨by simp [length_writeLink, hlen], ?_, ?_⟩
  · intro t s
    rw [vertexAt_writeLink, vertexAt_writeLink]
    exact h.vert t s
  · intro t s ht hs hne
    rw [hread t s hs] at hne ⊢
    by_cases c2 : t = i2 ∧ s = s2
    · obtain ⟨rfl, rfl⟩ := c2
      simp only [and_self, if_true]
      refine ⟨hi1, hs1, ?_, hv2, hv1⟩
      rw [hread i1 s1 hs1]
      by_cases c : i1 = t ∧ s1 = s
      · obtain ⟨rfl, rfl⟩ := c
        simp
      · simp [c]
    · simp only [c2, if_false] at hne ⊢
      by_cases c1 : t = i1 ∧ s = s1
      · obtain ⟨rfl, rfl⟩ := c1
        simp only [and_self, if_true]
        refine ⟨hi2, hs2, ?_, hv1.symm, hv2.symm⟩
        rw [hread i2 s2 hs2]
        simp
      · simp only [c1, if_false] at hne ⊢
        obtain ⟨q1, q2, q3, q4, q5⟩ := h.links t s ht hs hne
        refine ⟨q1, q2, ?_, q4, q5⟩
        rw [hread _ _ q2]
        have hts : (⟨t, s⟩ : Link) ≠ InvalidLink := link_ne_invalid t s hs
        have n2 : ¬ ((linkAt ts t s).index = i2 ∧ (linkAt ts t s).side = s2) := by
          intro hh
          rw [hh.1, hh.2, hB] at q3
          exact hts q3.symm
        have n1 : ¬ ((linkAt ts t s).index = i1 ∧ (linkAt ts t s).side = s1) := by
          intro hh
          rw [hh.1, hh.2, hA] at q3
          exact hts q3.symm
        simp only [n1, n2, if_false]
        exact q3

/-- Linking two free sides keeps every link stored before. -/
theorem keepsLinks_link_pair (ts : List Triangle) (i1 s1 i2 s2 : Nat) (l1 l2 : Link)
    (hs1 : s1 < 3) (hs2 : s2 < 3)
    (hA : linkAt ts i1 s1 = InvalidLink) (hB : linkAt ts i2 s2 = InvalidLink) :
    KeepsLinks ts (writeLink (writeLink ts i1 s1 l1) i2 s2 l2) := by
  intro t s hs hne
  rw [linkAt_writeLink _ _ _ _ _ _ hs2 hs, linkAt_writeLink _ _ _ _ _ _ hs1 hs]
  have n2 : ¬ (t = i2 ∧ s = s2 ∧ i2 < (writeLink ts i1 s1 l1).length) := by
    intro hh
    rw [hh.1, hh.2.1] at hne
    exact hne hB
  have n1 : ¬ (t = i1 ∧ s = s1 ∧ i1 < ts.length) := by
    intro hh
    rw [hh.1, hh.2.1] at hne
    exact hne hA
  simp only [n1, n2, if_false]

/-! ## The matching loops -/

/-- One step of the loop over `k2`, with the two triangle reads resolved. -/
theorem matchInner_cons (vr1 : Link) (k1 v1 s1 k2 : Nat) (vr2 : Link) (rest : List Link)
    (ts : List Triangle) (h1 : vr1.index < ts.length) (h2 : vr2.index < ts.length) :
    matchInner vr1 k1 v1 s1 k2 (vr2 :: rest) ts =
      if k1 ≠ k2 ∧ vr1.index ≤ vr2.index ∧ v1 = vertexAt ts vr2.index ((vr2.side + 2) % 3) then
        if linkAt ts vr1.index s1 = InvalidLink ∧
            linkAt ts vr2.index ((vr2.side + 2) % 3) = InvalidLink then
          matchInner vr1 k1 v1 s1 (k2 + 1) rest
            (writeLink (writeLink ts vr1.index s1 ⟨vr2.index, (vr2.side + 2) % 3⟩) vr2.index
              ((vr2.side + 2) % 3) ⟨vr1.index, s1⟩)
        else .ok (false, ts)
      else matchInner vr1 k1 v1 s1 (k2 + 1) rest ts := by
  have e1 : ts[vr1.index]? = some ts[vr1.index] := List.getElem?_eq_getElem h1
  have e2 : ts[vr2.index]? = some ts[vr2.index] := List.getElem?_eq_getElem h2
  rw [matchInner]
  simp only [e1, e2, linkAt, vertexAt]
  by_cases c1 : k1 = k2
  · simp [c1]
  · by_cases c2 : vr1.index > vr2.index
    · have : ¬ vr1.index ≤ vr2.index := by omega
      simp [c1, c2, this]
    · have c2' : vr1.index ≤ vr2.index := by omega
      simp only [c1, c2, c2', if_false, ne_eq, not_false_eq_true, true_and]
      by_cases c3 : v1 = ts[vr2.index].vertex ((vr2.side + 2) % 3)
      · simp only [c3, if_true]
        by_cases c4 : ts[vr1.index].link s1 = InvalidLink
        · by_cases c5 : ts[vr2.index].link ((vr2.side + 2) % 3) = InvalidLink
          · simp [c4, c5]
          · simp [c4, c5]
        · simp [c4]
      · simp [c3]

/-- The loop over `k2` keeps the invariant and every link stored before. -/
theorem matchInner_inv {n : Nat} {V : Nat → Nat → Nat} (vr1 : Link) (k1 : Nat)
    (h1 : ValidCorner n vr1) :
    ∀ (adj : List Link) (k2 : Nat) (ts : List Triangle) (r : Bool) (ts1 : List Triangle),
      (∀ c ∈ adj, ValidCorner n c ∧ V c.index c.side = V vr1.index vr1.side) →
      MatchInv n V ts →
      matchInner vr1 k1 (V vr1.index ((vr1.side + 1) % 3)) vr1.side k2 adj ts = .ok (r, ts1) →
      MatchInv n V ts1 ∧ KeepsLinks ts ts1 := by
  intro adj
  induction adj with
  | nil =>
    intro k2 ts r ts1 _ hinv h
    simp only [matchInner, Except.ok.injEq, Prod.mk.injEq] at h
    rw [← h.2]
    exact ⟨hinv, KeepsLinks.refl ts⟩
  | cons vr2 rest ih =>
    intro k2 ts r ts1 hadj hinv h
    have hv2 := (hadj vr2 (List.mem_cons_self _ _)).1
    have hvv := (hadj vr2 (List.mem_cons_self _ _)).2
    have hrest : ∀ c ∈ rest, ValidCorner n c ∧ V c.index c.side = V vr1.index vr1.side :=
      fun c hc => hadj c (List.mem_cons_of_mem _ hc)
    have hlen := hinv.len
    rw [matchInner_cons _ _ _ _ _ _ _ _ (by rw [hlen]; exact h1.1) (by rw [hlen]; exact hv2.1)] at h
    split at h
    · rename_i hm
      split at h
      · rename_i hfree
        have hs2 : (vr2.side + 2) % 3 < 3 := Nat.mod_lt _ (by decide)
        have hve : V vr1.index ((vr1.side + 1) % 3) = V vr2.index ((vr2.side + 2) % 3) := by
          have := hm.2.2
          rw [hinv.vert] at this
          simpa [hv2.1] using this
        have hvs : V vr1.index vr1.side = V vr2.index (((vr2.side + 2) % 3 + 1) % 3) := by
          have e : ((vr2.side + 2) % 3 + 1) % 3 = vr2.side := by
            have := hv2.2
            omega
          rw [e]
          exact hvv.symm
        have hinv1 := hinv.link_pair vr1.index vr1.side vr2.index ((vr2.side + 2) % 3)
          h1.1 h1.2 hv2.1 hs2 hfree.1 hfree.2 hve hvs
        have hk := keepsLinks_link_pair ts vr1.index vr1.side vr2.index ((vr2.side + 2) % 3)
          ⟨vr2.index, (vr2.side + 2) % 3⟩ ⟨vr1.index, vr1.side⟩ h1.2 hs2 hfree.1 hfree.2
        obtain ⟨r1, r2⟩ := ih _ _ _ _ hrest hinv1 h
        exact ⟨r1, hk.trans r2⟩
      · simp only [Except.ok.injEq, Prod.mk.injEq] at h
        rw [← h.2]
        exact ⟨hinv, KeepsLinks.refl ts⟩
    · exact ih _ _ _ _ hrest hinv h

/-- The two links written by a match, read back. -/
theorem linkAt_link_pair (ts : List Triangle) (i1 s1 i2 s2 : Nat) (hi1 : i1 < ts.length)
    (hi2 : i2 < ts.length) (hs1 : s1 < 3) (hs2 : s2 < 3) :
    linkAt (writeLink (writeLink ts i1 s1 ⟨i2, s2⟩) i2 s2 ⟨i1, s1⟩) i1 s1 = ⟨i2, s2⟩ ∧
    linkAt (writeLink (writeLink ts i1 s1 ⟨i2, s2⟩) i2 s2 ⟨i1, s1⟩) i2 s2 = ⟨i1, s1⟩ := by
  constructor
  · rw [linkAt_writeLink _ _ _ _ _ _ hs2 hs1, length_writeLink,
      linkAt_writeLink _ _ _ _ _ _ hs1 hs1]
    by_cases c : i1 = i2 ∧ s1 = s2
    · obtain ⟨rfl, rfl⟩ := c
      simp [hi1]
    · have : ¬ (i1 = i2 ∧ s1 = s2 ∧ i2 < ts.length) := fun hh => c ⟨hh.1, hh.2.1⟩
      simp [this, hi1]
  · rw [linkAt_writeLink _ _ _ _ _ _ hs2 hs2, length_writeLink]
    simp [hi2]

/-- The loop over `k2` runs to its end without a fault when the corners it is given
are corners of the table. -/
theorem matchInner_total {n : Nat} (vr1 : Link) (k1 v1 s1 : Nat) (h1 : vr1.index < n) :
    ∀ (adj : List Link) (k2 : Nat) (ts : List Triangle),
      (∀ c ∈ adj, c.index < n) → ts.length = n →
      ∃ r ts1, matchInner vr1 k1 v1 s1 k2 adj ts = .ok (r, ts1) ∧ ts1.length = n := by
  intro adj
  induction adj with
  | nil =>
    intro k2 ts _ hlen
    exact ⟨true, ts, by simp [matchInner], hlen⟩
  | cons vr2 rest ih =>
    intro k2 ts hadj hlen
    have hv2 := hadj vr2 (List.mem_cons_self _ _)
    have hrest : ∀ c ∈ rest, c.index < n := fun c hc => hadj c (List.mem_cons_of_mem _ hc)
    rw [matchInner_cons _ _ _ _ _ _ _ _ (by omega) (by omega)]
    split
    · split
      · exact ih _ _ hrest (by simp [length_writeLink, hlen])
      · exact ⟨false, ts, rfl, hlen⟩
    · exact ih _ _ hrest hlen

/-- When the loop over `k2` is left without `return false`, every corner of the list
that matches `vr1` has been linked with it. -/
theorem matchInner_complete {n : Nat} {V : Nat → Nat → Nat} (vr1 : Link) (k1 : Nat)
    (h1 : ValidCorner n vr1) :
    ∀ (adj : List Link) (k2 : Nat) (ts : List Triangle) (ts1 : List Triangle),
      (∀ c ∈ adj, ValidCorner n c ∧ V c.index c.side = V vr1.index vr1.side) →
      MatchInv n V ts →
      matchInner vr1 k1 (V vr1.index ((vr1.side + 1) % 3)) vr1.side k2 adj ts = .ok (true, ts1) →
      ∀ j vr2, adj[j]? = some vr2 → k1 ≠ k2 + j → vr1.index ≤ vr2.index →
        V vr1.index ((vr1.side + 1) % 3) = V vr2.index ((vr2.side + 2) % 3) →
        linkAt ts1 vr1.index vr1.side = ⟨vr2.index, (vr2.side + 2) % 3⟩ ∧
        linkAt ts1 vr2.index ((vr2.side + 2) % 3) = ⟨vr1.index, vr1.side⟩ := by
  intro adj
  induction adj with
  | nil =>
    intro k2 ts ts1 _ _ _ j vr2 hj
    simp at hj
  | cons vr rest ih =>
    intro k2 ts ts1 hadj hinv h j vr2 hj hk hle hv
    have hvr := (hadj vr (List.mem_cons_self _ _)).1
    have hrest : ∀ c ∈ rest, ValidCorner n c ∧ V c.index c.side = V vr1.index vr1.side :=
      fun c hc => hadj c (List.mem_cons_of_mem _ hc)
    have hlen := hinv.len
    have hs2 : (vr.side + 2) % 3 < 3 := Nat.mod_lt _ (by decide)
    rw [matchInner_cons _ _ _ _ _ _ _ _ (by rw [hlen]; exact h1.1) (by rw [hlen]; exact hvr.1)] at h
    cases j with
    | zero =>
      simp only [List.getElem?_cons_zero, Option.some.injEq] at hj
      subst hj
      have hcond : k1 ≠ k2 ∧ vr1.index ≤ vr.index ∧
          V vr1.index ((vr1.side + 1) % 3) = vertexAt ts vr.index ((vr.side + 2) % 3) := by
        refine ⟨by omega, hle, ?_⟩
        rw [hinv.vert]
        simp [hvr.1, hv]
      rw [if_pos hcond] at h
      split at h
      · rename_i hfree
        have hve : V vr1.index ((vr1.side + 1) % 3) = V vr.index ((vr.side + 2) % 3) := hv
        have hvs : V vr1.index vr1.side = V vr.index (((vr.side + 2) % 3 + 1) % 3) := by
          have e : ((vr.side + 2) % 3 + 1) % 3 = vr.side := by
            have := hvr.2
            omega
          rw [e]
          exact (hadj vr (List.mem_cons_self _ _)).2.symm
        have hinv1 := hinv.link_pair vr1.index vr1.side vr.index ((vr.side + 2) % 3)
          h1.1 h1.2 hvr.1 hs2 hfree.1 hfree.2 hve hvs
        have hkeep := (matchInner_inv vr1 k1 h1 rest _ _ _ _ hrest hinv1 h).2
        have hnow := linkAt_link_pair ts vr1.index vr1.side vr.index ((vr.side + 2) % 3)
          (by rw [hlen]; exact h1.1) (by rw [hlen]; exact hvr.1) h1.2 hs2
        constructor
        · rw [hkeep _ _ h1.2 (by rw [hnow.1]; exact link_ne_invalid _ _ hs2), hnow.1]
        · rw [hkeep _ _ hs2 (by rw [hnow.2]; exact link_ne_invalid _ _ h1.2), hnow.2]
      · simp at h
    | succ j =>
      simp only [List.getElem?_cons_succ] at hj
      have hk1 : k1 ≠ k2 + 1 + j := by omega
      split at h
      · split at h
        · rename_i hm hfree
          have hve : V vr1.index ((vr1.side + 1) % 3) = V vr.index ((vr.side + 2) % 3) := by
            have := hm.2.2
            rw [hinv.vert] at this
            simpa [hvr.1] using this
          have hvs : V vr1.index vr1.side = V vr.index (((vr.side + 2) % 3 + 1) % 3) := by
            have e : ((vr.side + 2) % 3 + 1) % 3 = vr.side := by
              have := hvr.2
              omega
            rw [e]
            exact (hadj vr (List.mem_cons_self _ _)).2.symm
          have hinv1 := hinv.link_pair vr1.index vr1.side vr.index ((vr.side + 2) % 3)
            h1.1 h1.2 hvr.1 hs2 hfree.1 hfree.2 hve hvs
          exact ih _ _ _ hrest hinv1 h j vr2 hj hk1 hle hv
        · simp at h
      · exact ih _ _ _ hrest hinv h j vr2 hj hk1 hle hv

/-- When the loop over `k2` executes `return false`, it has met a corner that matches
`vr1` while one of the two sides was already linked; the table is as it was then. -/
theorem matchInner_false {n : Nat} {V : Nat → Nat → Nat} (vr1 : Link) (k1 : Nat)
    (h1 : ValidCorner n vr1) :
    ∀ (adj : List Link) (k2 : Nat) (ts : List Triangle) (ts1 : List Triangle),
      (∀ c ∈ adj, ValidCorner n c ∧ V c.index c.side = V vr1.index vr1.side) →
      MatchInv n V ts →
      matchInner vr1 k1 (V vr1.index ((vr1.side + 1) % 3)) vr1.side k2 adj ts = .ok (false, ts1) →
      ∃ j vr2, adj[j]? = some vr2 ∧ k1 ≠ k2 + j ∧ vr1.index ≤ vr2.index ∧
        V vr1.index ((vr1.side + 1) % 3) = V vr2.index ((vr2.side + 2) % 3) ∧
        (linkAt ts1 vr1.index vr1.side ≠ InvalidLink ∨
          linkAt ts1 vr2.index ((vr2.side + 2) % 3) ≠ InvalidLink) := by
  intro adj
  induction adj with
  | nil =>
    intro k2 ts ts1 _ _ h
    simp [matchInner] at h
  | cons vr rest ih =>
    intro k2 ts ts1 hadj hinv h
    have hvr := (hadj vr (List.mem_cons_self _ _)).1
    have hrest : ∀ c ∈ rest, ValidCorner n c ∧ V c.index c.side = V vr1.index vr1.side :=
      fun c hc => hadj c (List.mem_cons_of_mem _ hc)
    have hlen := hinv.len
    have hs2 : (vr.side + 2) % 3 < 3 := Nat.mod_lt _ (by decide)
    have lift : (∃ j vr2, rest[j]? = some vr2 ∧ k1 ≠ k2 + 1 + j ∧ vr1.index ≤ vr2.index ∧
        V vr1.index ((vr1.side + 1) % 3) = V vr2.index ((vr2.side + 2) % 3) ∧
        (linkAt ts1 vr1.index vr1.side ≠ InvalidLink ∨
          linkAt ts1 vr2.index ((vr2.side + 2) % 3) ≠ InvalidLink)) →
        ∃ j vr2, (vr :: rest)[j]? = some vr2 ∧ k1 ≠ k2 + j ∧ vr1.index ≤ vr2.index ∧
        V vr1.index ((vr1.side + 1) % 3) = V vr2.index ((vr2.side + 2) % 3) ∧
        (linkAt ts1 vr1.index vr1.side ≠ InvalidLink ∨
          linkAt ts1 vr2.index ((vr2.side + 2) % 3) ≠ InvalidLink) := by
      rintro ⟨j, vr2, a, b, c⟩
      exact ⟨j + 1, vr2, by simpa using a, by omega, c⟩
    rw [matchInner_cons _ _ _ _ _ _ _ _ (by rw [hlen]; exact h1.1) (by rw [hlen]; exact hvr.1)] at h
    split at h
    · rename_i hm
      have hve : V vr1.index ((vr1.side + 1) % 3) = V vr.index ((vr.side + 2) % 3) := by
        have := hm.2.2
        rw [hinv.vert] at this
        simpa [hvr.1] using this
      split at h
      · rename_i hfree
        have hvs : V vr1.index vr1.side = V vr.index (((vr.side + 2) % 3 + 1) % 3) := by
          have e : ((vr.side + 2) % 3 + 1) % 3 = vr.side := by
            have := hvr.2
            omega
          rw [e]
          exact (hadj vr (List.mem_cons_self _ _)).2.symm
        have hinv1 := hinv.link_pair vr1.index vr1.side vr.index ((vr.side + 2) % 3)
          h1.1 h1.2 hvr.1 hs2 hfree.1 hfree.2 hve hvs
        exact lift (ih _ _ _ hrest hinv1 h)
      · rename_i hocc
        simp only [Except.ok.injEq, Prod.mk.injEq, true_and] at h
        subst h
        refine ⟨0, vr, by simp, by have := hm.1; omega, hm.2.1, hve, ?_⟩
        by_contra hcon
        push_neg at hcon
        exact hocc hcon
    · exact lift (ih _ _ _ hrest hinv h)

/-- One step of the loop over `k1`, with the triangle read resolved. -/
theorem matchOuter_cons (adj : List Link) (k1 : Nat) (vr1 : Link) (rest : List Link)
    (ts : List Triangle) (h1 : vr1.index < ts.length) :
    matchOuter adj k1 (vr1 :: rest) ts =
      match matchInner vr1 k1 (vertexAt ts vr1.index ((vr1.side + 1) % 3)) vr1.side 0 adj ts with
      | .error e => .error e
      | .ok (false, ts1) => .ok (false, ts1)
      | .ok (true, ts1) => matchOuter adj (k1 + 1) rest ts1 := by
  have e1 : ts[vr1.index]? = some ts[vr1.index] := List.getElem?_eq_getElem h1
  rw [matchOuter]
  simp only [e1, vertexAt]

/-- The loop over `k1` keeps the invariant and every link stored before. -/
theorem matchOuter_inv {n : Nat} {V : Nat → Nat → Nat} (v : Nat) (adj : List Link)
    (hadj : ∀ c ∈ adj, ValidCorner n c ∧ V c.index c.side = v) :
    ∀ (rest : List Link) (k1 : Nat) (ts : List Triangle) (r : Bool) (ts1 : List Triangle),
      (∀ c ∈ rest, ValidCorner n c ∧ V c.index c.side = v) →
      MatchInv n V ts →
      matchOuter adj k1 rest ts = .ok (r, ts1) →
      MatchInv n V ts1 ∧ KeepsLinks ts ts1 := by
  intro rest
  induction rest with
  | nil =>
    intro k1 ts r ts1 _ hinv h
    simp only [matchOuter, Except.ok.injEq, Prod.mk.injEq] at h
    rw [← h.2]
    exact ⟨hinv, KeepsLinks.refl ts⟩
  | cons vr1 rest ih =>
    intro k1 ts r ts1 hrest hinv h
    have h1 := hrest vr1 (List.mem_cons_self _ _)
    have hrest1 : ∀ c ∈ rest, ValidCorner n c ∧ V c.index c.side = v :=
      fun c hc => hrest c (List.mem_cons_of_mem _ hc)
    have hadj1 : ∀ c ∈ adj, ValidCorner n c ∧ V c.index c.side = V vr1.index vr1.side :=
      fun c hc => ⟨(hadj c hc).1, by rw [(hadj c hc).2, h1.2]⟩
    have hlen := hinv.len
    rw [matchOuter_cons _ _ _ _ _ (by rw [hlen]; exact h1.1.1), hinv.vert, if_pos h1.1.1] at h
    cases hin : matchInner vr1 k1 (V vr1.index ((vr1.side + 1) % 3)) vr1.side 0 adj ts with
    | error e => simp [hin] at h
    | ok res =>
      obtain ⟨b, ts2⟩ := res
      have hstep := matchInner_inv vr1 k1 h1.1 adj 0 ts b ts2 hadj1 hinv hin
      cases b with
      | false =>
        simp only [hin, Except.ok.injEq, Prod.mk.injEq] at h
        rw [← h.2]
        exact hstep
      | true =>
        simp only [hin] at h
        obtain ⟨r1, r2⟩ := ih _ _ _ _ hrest1 hstep.1 h
        exact ⟨r1, hstep.2.trans r2⟩

/-- The loop over `k1` runs to its end without a fault. -/
theorem matchOuter_total {n : Nat} (adj : List Link) (hadj : ∀ c ∈ adj, c.index < n) :
    ∀ (rest : List Link) (k1 : Nat) (ts : List Triangle),
      (∀ c ∈ rest, c.index < n) → ts.length = n →
      ∃ r ts1, matchOuter adj k1 rest ts = .ok (r, ts1) ∧ ts1.length = n := by
  intro rest
  induction rest with
  | nil =>
    intro k1 ts _ hlen
    exact ⟨true, ts, by simp [matchOuter], hlen⟩
  | cons vr1 rest ih =>
    intro k1 ts hrest hlen
    have h1 := hrest vr1 (List.mem_cons_self _ _)
    have hrest1 : ∀ c ∈ rest, c.index < n := fun c hc => hrest c (List.mem_cons_of_mem _ hc)
    rw [matchOuter_cons _ _ _ _ _ (by omega)]
    obtain ⟨b, ts2, hin, hlen2⟩ :=
      matchInner_total vr1 k1 (vertexAt ts vr1.index ((vr1.side + 1) % 3)) vr1.side h1 adj 0 ts
        hadj hlen
    rw [hin]
    cases b with
    | false => exact ⟨false, ts2, rfl, hlen2⟩
    | true => exact ih _ _ hrest1 hlen2

/-- When the loop over `k1` is left without `return false`, every two corners of the
list that match have been linked. -/
theorem matchOuter_complete {n : Nat} {V : Nat → Nat → Nat} (v : Nat) (adj : List Link)
    (hadj : ∀ c ∈ adj, ValidCorner n c ∧ V c.index c.side = v) :
    ∀ (rest : List Link) (k1 : Nat) (ts : List Triangle) (ts1 : List Triangle),
      (∀ c ∈ rest, ValidCorner n c ∧ V c.index c.side = v) →
      MatchInv n V ts →
      matchOuter adj k1 rest ts = .ok (true, ts1) →
      ∀ j1 c1 j2 c2, rest[j1]? = some c1 → adj[j2]? = some c2 → k1 + j1 ≠ j2 →
        c1.index ≤ c2.index →
        V c1.index ((c1.side + 1) % 3) = V c2.index ((c2.side + 2) % 3) →
        linkAt ts1 c1.index c1.side = ⟨c2.index, (c2.side + 2) % 3⟩ ∧
        linkAt ts1 c2.index ((c2.side + 2) % 3) = ⟨c1.index, c1.side⟩ := by
  intro rest
  induction rest with
  | nil =>
    intro k1 ts ts1 _ _ _ j1 c1 j2 c2 hj
    simp at hj
  | cons vr1 rest ih =>
    intro k1 ts ts1 hrest hinv h j1 c1 j2 c2 hj1 hj2 hne hle hv
    have h1 := hrest vr1 (List.mem_cons_self _ _)
    have hrest1 : ∀ c ∈ rest, ValidCorner n c ∧ V c.index c.side = v :=
      fun c hc => hrest c (List.mem_cons_of_mem _ hc)
    have hadj1 : ∀ c ∈ adj, ValidCorner n c ∧ V c.index c.side = V vr1.index vr1.side :=
      fun c hc => ⟨(hadj c hc).1, by rw [(hadj c hc).2, h1.2]⟩
    have hlen := hinv.len
    rw [matchOuter_cons _ _ _ _ _ (by rw [hlen]; exact h1.1.1), hinv.vert, if_pos h1.1.1] at h
    cases hin : matchInner vr1 k1 (V vr1.index ((vr1.side + 1) % 3)) vr1.side 0 adj ts with
    | error e => simp [hin] at h
    | ok res =>
      obtain ⟨b, ts2⟩ := res
      have hstep := matchInner_inv vr1 k1 h1.1 adj 0 ts b ts2 hadj1 hinv hin
      cases b with
      | false => simp [hin] at h
      | true =>
        simp only [hin] at h
        cases j1 with
        | zero =>
          simp only [List.getElem?_cons_zero, Option.some.injEq] at hj1
          subst hj1
          have hkeep := (matchOuter_inv v adj hadj rest _ _ _ _ hrest1 hstep.1 h).2
          have hnow := matchInner_complete vr1 k1 h1.1 adj 0 ts ts2 hadj1 hinv hin j2 c2 hj2
            (by omega) hle hv
          have hs2 : (c2.side + 2) % 3 < 3 := Nat.mod_lt _ (by decide)
          constructor
          · rw [hkeep _ _ h1.1.2 (by rw [hnow.1]; exact link_ne_invalid _ _ hs2), hnow.1]
          · rw [hkeep _ _ hs2 (by rw [hnow.2]; exact link_ne_invalid _ _ h1.1.2), hnow.2]
        | succ j1 =>
          simp only [List.getElem?_cons_succ] at hj1
          exact ih _ _ _ hrest1 hstep.1 h j1 c1 j2 c2 hj1 hj2 (by omega) hle hv

/-- When the loop over `k1` executes `return false`, two corners of the list match
while one of the two sides is already linked. -/
theorem matchOuter_false {n : Nat} {V : Nat → Nat → Nat} (v : Nat) (adj : List Link)
    (hadj : ∀ c ∈ adj, ValidCorner n c ∧ V c.index c.side = v) :
    ∀ (rest : List Link) (k1 : Nat) (ts : List Triangle) (ts1 : List Triangle),
      (∀ c ∈ rest, ValidCorner n c ∧ V c.index c.side = v) →
      MatchInv n V ts →
      matchOuter adj k1 rest ts = .ok (false, ts1) →
      ∃ j1 c1 j2 c2, rest[j1]? = some c1 ∧ adj[j2]? = some c2 ∧ k1 + j1 ≠ j2 ∧
        c1.index ≤ c2.index ∧
        V c1.index ((c1.side + 1) % 3) = V c2.index ((c2.side + 2) % 3) ∧
        (linkAt ts1 c1.index c1.side ≠ InvalidLink ∨
          linkAt ts1 c2.index ((c2.side + 2) % 3) ≠ InvalidLink) := by
  intro rest
  induction rest with
  | nil =>
    intro k1 ts ts1 _ _ h
    simp [matchOuter] at h
  | cons vr1 rest ih =>
    intro k1 ts ts1 hrest hinv h
    have h1 := hrest vr1 (List.mem_cons_self _ _)
    have hrest1 : ∀ c ∈ rest, ValidCorner n c ∧ V c.index c.side = v :=
      fun c hc => hrest c (List.mem_cons_of_mem _ hc)
    have hadj1 : ∀ c ∈ adj, ValidCorner n c ∧ V c.index c.side = V vr1.index vr1.side :=
      fun c hc => ⟨(hadj c hc).1, by rw [(hadj c hc).2, h1.2]⟩
    have hlen := hinv.len
    rw [matchOuter_cons _ _ _ _ _ (by rw [hlen]; exact h1.1.1), hinv.vert, if_pos h1.1.1] at h
    cases hin : matchInner vr1 k1 (V vr1.index ((vr1.side + 1) % 3)) vr1.side 0 adj ts with
    | error e => simp [hin] at h
    | ok res =>
      obtain ⟨b, ts2⟩ := res
      have hstep := matchInner_inv vr1 k1 h1.1 adj 0 ts b ts2 hadj1 hinv hin
      cases b with
      | false =>
        simp only [hin, Except.ok.injEq, Prod.mk.injEq, true_and] at h
        subst h
        obtain ⟨j, vr2, a1, a2, a3, a4, a5⟩ :=
          matchInner_false vr1 k1 h1.1 adj 0 ts ts2 hadj1 hinv hin
        exact ⟨0, vr1, j, vr2, by simp, a1, by omega, a3, a4, a5⟩
      | true =>
        simp only [hin] at h
        obtain ⟨j1, c1, j2, c2, a1, a2, a3, a4⟩ := ih _ _ _ hrest1 hstep.1 h
        exact ⟨j1 + 1, c1, j2, c2, by simpa using a1, a2, by omega, a4⟩

/-! ## The lists of corners per vertex -/

theorem TriangleVertexRings.next_setNext (r : TriangleVertexRings) (j s : Nat) (l : Link)
    (hj : j < 3) (hs : s < 3) :
    (r.setNext j l).next s = if s = j then l else r.next s := by
  have hj' : j = 0 ∨ j = 1 ∨ j = 2 := by omega
  have hs' : s = 0 ∨ s = 1 ∨ s = 2 := by omega
  rcases hj' with rfl | rfl | rfl <;> rcases hs' with rfl | rfl | rfl <;> rfl

theorem mem_cornersOf (is : List Nat) (c : Link) :
    c ∈ cornersOf is ↔ c.index ∈ is ∧ c.side < 3 := by
  induction is with
  | nil => simp [cornersOf]
  | cons i rest ih =>
    simp only [cornersOf, List.mem_cons, ih]
    constructor
    · rintro (h | h | h | h)
      · subst h; simp
      · subst h; simp
      · subst h; simp
      · exact ⟨Or.inr h.1, h.2⟩
    · rintro ⟨h | h, hs⟩
      · obtain ⟨ci, cs⟩ := c
        simp only at h hs
        subst h
        have : cs = 0 ∨ cs = 1 ∨ cs = 2 := by omega
        rcases this with rfl | rfl | rfl <;> simp
      · exact Or.inr (Or.inr (Or.inr ⟨h, hs⟩))

theorem length_cornersOf (is : List Nat) : (cornersOf is).length = 3 * is.length := by
  induction is with
  | nil => rfl
  | cons i rest ih => simp only [cornersOf, List.length_cons, ih]; omega

theorem cornersOf_append (a b : List Nat) : cornersOf (a ++ b) = cornersOf a ++ cornersOf b := by
  induction a with
  | nil => rfl
  | cons i rest ih => simp [cornersOf, ih]

theorem mem_ringOf (V : Nat → Nat → Nat) (done : List Link) (v : Nat) (c : Link) :
    c ∈ ringOf V done v ↔ c ∈ done ∧ V c.index c.side = v := by
  simp [ringOf]

theorem length_ringOf_le (V : Nat → Nat → Nat) (done : List Link) (v : Nat) :
    (ringOf V done v).length ≤ done.length := by
  simp only [ringOf, List.length_reverse]
  exact List.length_filter_le _ _

theorem ringOf_append_singleton (V : Nat → Nat → Nat) (done : List Link) (c : Link) (v : Nat) :
    ringOf V (done ++ [c]) v =
      if V c.index c.side = v then c :: ringOf V done v else ringOf V done v := by
  unfold ringOf
  rw [List.filter_append]
  by_cases h : V c.index c.side = v
  · simp [List.filter_cons, h]
  · simp [List.filter_cons, h]

/-- A chain does not see a change of `next[j]` of triangle `i` unless it runs through
the corner `(i, j)`. -/
theorem Chain.set_other {tvr : List TriangleVertexRings} {c0 : Link} {ring : List Link}
    (h : Chain tvr c0 ring) (i j : Nat) (r : TriangleVertexRings) (l : Link) (hj : j < 3)
    (hr : tvr[i]? = some r)
    (hring : ∀ x ∈ ring, x.side < 3 ∧ x ≠ ⟨i, j⟩) :
    Chain (tvr.set i (r.setNext j l)) c0 ring := by
  induction h with
  | nil => exact Chain.nil
  | @cons c r1 ring1 hne hc _ ih =>
    have hx := hring c (List.mem_cons_self _ _)
    have hrest : ∀ x ∈ ring1, x.side < 3 ∧ x ≠ ⟨i, j⟩ :=
      fun x hx => hring x (List.mem_cons_of_mem _ hx)
    by_cases hci : c.index = i
    · have hr1 : r1 = r := by
        rw [hci, hr] at hc
        exact (Option.some.inj hc).symm
      subst hr1
      have hside : c.side ≠ j := by
        intro hcs
        apply hx.2
        obtain ⟨ci, cs⟩ := c
        simp only at hci hcs
        rw [hci, hcs]
      have hget : (tvr.set i (r1.setNext j l))[c.index]? = some (r1.setNext j l) := by
        rw [hci, List.getElem?_set]
        simp [lt_of_getElem? hr]
      have hnext : (r1.setNext j l).next c.side = r1.next c.side := by
        rw [TriangleVertexRings.next_setNext _ _ _ _ hj hx.1, if_neg hside]
      refine Chain.cons hne hget ?_
      rw [hnext]
      exact ih hrest
    · have hget : (tvr.set i (r.setNext j l))[c.index]? = some r1 := by
        rw [List.getElem?_set_ne (fun e => hci e.symm)]
        exact hc
      exact Chain.cons hne hget (ih hrest)

theorem Chain.invalid_nil {tvr : List TriangleVertexRings} {ring : List Link}
    (h : Chain tvr InvalidLink ring) : ring = [] := by
  cases h with
  | nil => rfl
  | cons hne _ _ => exact absurd rfl hne

/-- Walking a chain collects its corners, in order, when the budget covers it. -/
theorem collectRing_of_chain {tvr : List TriangleVertexRings} {c0 : Link} {ring : List Link}
    (h : Chain tvr c0 ring) :
    ∀ (fuel : Nat) (adj : List Link), ring.length ≤ fuel →
      collectRing tvr fuel c0 adj = .ok (adj ++ ring) := by
  induction h with
  | nil =>
    intro fuel adj _
    cases fuel <;> simp [collectRing]
  | @cons c r ring1 hne hc _ ih =>
    intro fuel adj hlen
    cases fuel with
    | zero => simp at hlen
    | succ fuel =>
      simp only [List.length_cons] at hlen
      rw [collectRing, if_neg hne]
      simp only [hc]
      rw [ih fuel (adj ++ [c]) (by omega)]
      simp

theorem exists_getElem? {α : Type} (xs : List α) (i : Nat) (h : i < xs.length) :
    ∃ a, xs[i]? = some a := ⟨xs[i], List.getElem?_eq_getElem h⟩

/-- The threading step for corner `(i, j)` in terms of the table reads. -/
theorem threadCorner_eq (i j : Nat) (s : RingState) (t : Triangle) (r : TriangleVertexRings)
    (vr : Link) (ht : s.triangles[i]? = some t) (hr : s.triangleVertexRings[i]? = some r)
    (hv : s.vertexRings[t.vertex j]? = some vr) :
    threadCorner i j s =
      .ok { vertexRings := s.vertexRings.set (t.vertex j) ⟨i, j⟩,
            triangleVertexRings := s.triangleVertexRings.set i (r.setNext j vr),
            triangles := writeLink s.triangles i j InvalidLink } := by
  simp [threadCorner, ht, hr, hv, writeLink]

/-- The threading step fails exactly on a vertex index outside `vertexRings`. -/
theorem threadCorner_ok_iff {n mvc : Nat} {V : Nat → Nat → Nat} {done : List Link}
    {s : RingState} (h : RingInv n mvc V done s) (i j : Nat) (hi : i < n) :
    (∃ s1, threadCorner i j s = .ok s1) ↔ V i j < mvc := by
  obtain ⟨t, ht⟩ := exists_getElem? s.triangles i (by rw [h.lenTri]; exact hi)
  obtain ⟨r, hr⟩ := exists_getElem? s.triangleVertexRings i (by rw [h.lenT]; exact hi)
  have hV : t.vertex j = V i j := by
    have := h.vert i j
    rw [vertexAt_of_getElem? ht, if_pos hi] at this
    exact this
  constructor
  · rintro ⟨s1, hs1⟩
    by_contra hcon
    have hnone : s.vertexRings[t.vertex j]? = none := by
      rw [List.getElem?_eq_none_iff, h.lenV, hV]
      omega
    simp [threadCorner, ht, hr, hnone] at hs1
  · intro hlt
    obtain ⟨vr, hv⟩ := exists_getElem? s.vertexRings (t.vertex j) (by rw [h.lenV, hV]; exact hlt)
    exact ⟨_, threadCorner_eq i j s _ _ _ ht hr hv⟩

/-- The threading step for a fresh corner `(i, j)` extends the invariant by it. -/
theorem threadCorner_inv {n mvc : Nat} {V : Nat → Nat → Nat} {done : List Link}
    {s s1 : RingState} (h : RingInv n mvc V done s) (i j : Nat) (hi : i < n) (hj : j < 3)
    (hdone : ∀ c ∈ done, c.side < 3) (hfresh : (⟨i, j⟩ : Link) ∉ done)
    (hs1 : threadCorner i j s = .ok s1) :
    RingInv n mvc V (done ++ [⟨i, j⟩]) s1 := by
  have hlt : V i j < mvc := (threadCorner_ok_iff h i j hi).mp ⟨s1, hs1⟩
  obtain ⟨t, ht⟩ := exists_getElem? s.triangles i (by rw [h.lenTri]; exact hi)
  obtain ⟨r, hr⟩ := exists_getElem? s.triangleVertexRings i (by rw [h.lenT]; exact hi)
  have hV : t.vertex j = V i j := by
    have := h.vert i j
    rw [vertexAt_of_getElem? ht, if_pos hi] at this
    exact this
  obtain ⟨vr0, hv0, hchain0⟩ := h.chain (V i j) hlt
  have hv : s.vertexRings[t.vertex j]? = some vr0 := by rw [hV]; exact hv0
  rw [threadCorner_eq i j s _ _ _ ht hr hv] at hs1
  have hs1' := (Except.ok.inj hs1).symm
  subst hs1'
  have hstable : ∀ v (vr : Link), Chain s.triangleVertexRings vr (ringOf V done v) →
      Chain (s.triangleVertexRings.set i (r.setNext j vr0)) vr (ringOf V done v) := by
    intro v vr hc
    refine hc.set_other i j _ _ hj hr ?_
    intro x hx
    have hxd := ((mem_ringOf V done v x).mp hx).1
    exact ⟨hdone x hxd, fun e => hfresh (e ▸ hxd)⟩
  refine ⟨by simp [h.lenV], by simp [h.lenT], by simp [length_writeLink, h.lenTri], ?_, ?_, ?_⟩
  · intro t k
    simp only [vertexAt_writeLink]
    exact h.vert t k
  · intro v hvlt
    simp only [ringOf_append_singleton]
    by_cases hvv : V i j = v
    · subst hvv
      simp only [if_true]
      refine ⟨⟨i, j⟩, ?_, ?_⟩
      · rw [hV, List.getElem?_set]
        simp [h.lenV, hlt]
      · refine Chain.cons (link_ne_invalid i j hj) (r := r.setNext j vr0) ?_ ?_
        · simp only
          rw [List.getElem?_set]
          simp [h.lenT, hi]
        · simp only
          rw [TriangleVertexRings.next_setNext _ _ _ _ hj hj, if_pos rfl]
          exact hstable _ _ hchain0
    · simp only [hvv, if_false]
      obtain ⟨vr, e1, e2⟩ := h.chain v hvlt
      refine ⟨vr, ?_, hstable _ _ e2⟩
      rw [hV, List.getElem?_set_ne hvv]
      exact e1
  · intro c hc
    simp only
    rw [List.mem_append, List.mem_singleton] at hc
    rcases hc with hc | hc
    · rw [linkAt_writeLink _ _ _ _ _ _ hj (hdone c hc)]
      split
      · rfl
      · exact h.reset c hc
    · subst hc
      rw [linkAt_writeLink _ _ _ _ _ _ hj hj]
      simp [h.lenTri, hi]

/-- The three threading steps of triangle `i` extend the invariant by its corners,
and they run without a fault exactly when its vertex indices are inside
`vertexRings`. -/
theorem threadTriangle_inv {n mvc : Nat} {V : Nat → Nat → Nat} {done : List Link}
    {s : RingState} (h : RingInv n mvc V done s) (i : Nat) (hi : i < n)
    (hdone : ∀ c ∈ done, c.side < 3 ∧ c.index ≠ i) :
    (∀ s1, threadTriangle i s = .ok s1 →
      RingInv n mvc V (done ++ cornersOf [i]) s1 ∧ ∀ j, j < 3 → V i j < mvc) ∧
    ((∀ j, j < 3 → V i j < mvc) → ∃ s1, threadTriangle i s = .ok s1) := by
  have side0 : ∀ c ∈ done, c.side < 3 := fun c hc => (hdone c hc).1
  have fresh0 : ∀ j, (⟨i, j⟩ : Link) ∉ done := fun j hc => (hdone _ hc).2 rfl
  have side1 : ∀ c ∈ done ++ [(⟨i, 0⟩ : Link)], c.side < 3 := by
    intro c hc
    rw [List.mem_append, List.mem_singleton] at hc
    rcases hc with hc | hc
    · exact side0 c hc
    · subst hc; show (0 : Nat) < 3; decide
  have fresh1 : (⟨i, 1⟩ : Link) ∉ done ++ [(⟨i, 0⟩ : Link)] := by
    intro hc
    rw [List.mem_append, List.mem_singleton] at hc
    rcases hc with hc | hc
    · exact fresh0 1 hc
    · simp at hc
  have side2 : ∀ c ∈ done ++ [(⟨i, 0⟩ : Link)] ++ [(⟨i, 1⟩ : Link)], c.side < 3 := by
    intro c hc
    rw [List.mem_append, List.mem_singleton] at hc
    rcases hc with hc | hc
    · exact side1 c hc
    · subst hc; show (1 : Nat) < 3; decide
  have fresh2 : (⟨i, 2⟩ : Link) ∉ done ++ [(⟨i, 0⟩ : Link)] ++ [(⟨i, 1⟩ : Link)] := by
    intro hc
    rw [List.mem_append, List.mem_singleton] at hc
    rcases hc with hc | hc
    · rw [List.mem_append, List.mem_singleton] at hc
      rcases hc with hc | hc
      · exact fresh0 2 hc
      · simp at hc
    · simp at hc
  have hcorners : done ++ cornersOf [i] =
      done ++ [(⟨i, 0⟩ : Link)] ++ [(⟨i, 1⟩ : Link)] ++ [(⟨i, 2⟩ : Link)] := by
    simp [cornersOf]
  constructor
  · intro s3 hs3
    unfold threadTriangle at hs3
    cases h0 : threadCorner i 0 s with
    | error e => simp [h0] at hs3
    | ok s0 =>
      simp only [h0] at hs3
      have inv0 := threadCorner_inv h i 0 hi (by decide) side0 (fresh0 0) h0
      cases h1 : threadCorner i 1 s0 with
      | error e => simp [h1] at hs3
      | ok s1 =>
        simp only [h1] at hs3
        have inv1 := threadCorner_inv inv0 i 1 hi (by decide) side1 fresh1 h1
        have inv2 := threadCorner_inv inv1 i 2 hi (by decide) side2 fresh2 hs3
        rw [hcorners]
        refine ⟨inv2, ?_⟩
        intro j hj
        have hj' : j = 0 ∨ j = 1 ∨ j = 2 := by omega
        rcases hj' with rfl | rfl | rfl
        · exact (threadCorner_ok_iff h i 0 hi).mp ⟨_, h0⟩
        · exact (threadCorner_ok_iff inv0 i 1 hi).mp ⟨_, h1⟩
        · exact (threadCorner_ok_iff inv1 i 2 hi).mp ⟨_, hs3⟩
  · intro hV
    unfold threadTriangle
    obtain ⟨s0, h0⟩ := (threadCorner_ok_iff h i 0 hi).mpr (hV 0 (by decide))
    have inv0 := threadCorner_inv h i 0 hi (by decide) side0 (fresh0 0) h0
    obtain ⟨s1, h1⟩ := (threadCorner_ok_iff inv0 i 1 hi).mpr (hV 1 (by decide))
    have inv1 := threadCorner_inv inv0 i 1 hi (by decide) side1 fresh1 h1
    obtain ⟨s2, h2⟩ := (threadCorner_ok_iff inv1 i 2 hi).mpr (hV 2 (by decide))
    exact ⟨s2, by simp [h0, h1, h2]⟩

/-- The threading loop over the triangles `is` extends the invariant by their
corners, and it runs without a fault exactly when all their vertex indices are inside
`vertexRings`. -/
theorem threadRings_inv {n mvc : Nat} {V : Nat → Nat → Nat} :
    ∀ (is : List Nat) (done : List Link) (s : RingState),
      RingInv n mvc V done s → (∀ i ∈ is, i < n) → is.Nodup →
      (∀ c ∈ done, c.side < 3 ∧ c.index ∉ is) →
      (∀ s1, threadRings is s = .ok s1 →
        RingInv n mvc V (done ++ cornersOf is) s1 ∧ ∀ i ∈ is, ∀ j, j < 3 → V i j < mvc) ∧
      ((∀ i ∈ is, ∀ j, j < 3 → V i j < mvc) → ∃ s1, threadRings is s = .ok s1) := by
  intro is
  induction is with
  | nil =>
    intro done s h _ _ _
    constructor
    · intro s1 hs1
      simp only [threadRings, Except.ok.injEq] at hs1
      subst hs1
      simp only [cornersOf, List.append_nil]
      exact ⟨h, fun i hi => by simp at hi⟩
    · intro _
      exact ⟨s, rfl⟩
  | cons i rest ih =>
    intro done s h hlt hnd hdone
    have hi : i < n := hlt i (List.mem_cons_self _ _)
    have hrest : ∀ k ∈ rest, k < n := fun k hk => hlt k (List.mem_cons_of_mem _ hk)
    have hnd' := List.nodup_cons.mp hnd
    have hdone_i : ∀ c ∈ done, c.side < 3 ∧ c.index ≠ i := by
      intro c hc
      refine ⟨(hdone c hc).1, fun e => (hdone c hc).2 ?_⟩
      rw [e]
      exact List.mem_cons_self _ _
    have hdone1 : ∀ c ∈ done ++ cornersOf [i], c.side < 3 ∧ c.index ∉ rest := by
      intro c hc
      rw [List.mem_append] at hc
      rcases hc with hc | hc
      · exact ⟨(hdone c hc).1, fun e => (hdone c hc).2 (List.mem_cons_of_mem _ e)⟩
      · rw [mem_cornersOf] at hc
        have : c.index = i := by simpa using hc.1
        rw [this]
        exact ⟨hc.2, hnd'.1⟩
    have hsplit : done ++ cornersOf (i :: rest) = done ++ cornersOf [i] ++ cornersOf rest := by
      simp [cornersOf]
    obtain ⟨tri1, tri2⟩ := threadTriangle_inv h i hi hdone_i
    constructor
    · intro s2 hs2
      rw [threadRings] at hs2
      cases h0 : threadTriangle i s with
      | error e => simp [h0] at hs2
      | ok s0 =>
        simp only [h0] at hs2
        obtain ⟨inv0, hv0⟩ := tri1 s0 h0
        obtain ⟨r1, r2⟩ := (ih _ _ inv0 hrest hnd'.2 hdone1).1 s2 hs2
        rw [hsplit]
        refine ⟨r1, ?_⟩
        intro k hk j hj
        rcases List.mem_cons.mp hk with hk | hk
        · subst hk
          exact hv0 j hj
        · exact r2 k hk j hj
    · intro hV
      obtain ⟨s0, h0⟩ := tri2 (fun j hj => hV i (List.mem_cons_self _ _) j hj)
      obtain ⟨inv0, _⟩ := tri1 s0 h0
      obtain ⟨s2, hs2⟩ := (ih _ _ inv0 hrest hnd'.2 hdone1).2
        (fun k hk j hj => hV k (List.mem_cons_of_mem _ hk) j hj)
      exact ⟨s2, by rw [threadRings]; simp [h0, hs2]⟩

/-! ## The loop over the vertices -/

theorem mem_ringAt (n : Nat) (V : Nat → Nat → Nat) (v : Nat) (c : Link) :
    c ∈ ringAt n V v ↔ ValidCorner n c ∧ V c.index c.side = v := by
  simp [ringAt, mem_ringOf, mem_cornersOf, ValidCorner]

theorem length_ringAt_le (n : Nat) (V : Nat → Nat → Nat) (v : Nat) :
    (ringAt n V v).length ≤ 3 * n := by
  have := length_ringOf_le V (cornersOf (List.range n)) v
  rw [length_cornersOf, List.length_range] at this
  exact this

/-- One step of the loop over the vertices, with the list of the vertex resolved. -/
theorem matchVertices_cons {n mvc : Nat} {V : Nat → Nat → Nat} {fuel : Nat}
    {vertexRings : List Link} {tvr : List TriangleVertexRings}
    (ready : RingsReady n mvc V fuel vertexRings tvr) (v : Nat) (hv : v < mvc)
    (rest : List Nat) (ts : List Triangle) (adj : List Link) :
    ∃ adj1, matchVertices vertexRings tvr fuel (v :: rest) ts adj =
      match matchOuter (ringAt n V v) 0 (ringAt n V v) ts with
      | .error e => .error e
      | .ok (false, ts1) => .ok (false, ts1, adj1)
      | .ok (true, ts1) => matchVertices vertexRings tvr fuel rest ts1 adj1 := by
  obtain ⟨vr, hvr, hchain⟩ := ready.chain v hv
  by_cases hinv : vr = InvalidLink
  · subst hinv
    have hnil := hchain.invalid_nil
    refine ⟨adj, ?_⟩
    rw [matchVertices]
    simp only [hvr, if_true, hnil, matchOuter]
  · have hcol : collectRing tvr fuel vr (vecClear adj) = .ok (ringAt n V v) := by
      have := collectRing_of_chain hchain fuel (vecClear adj)
        (le_trans (length_ringAt_le n V v) ready.budget)
      simpa [vecClear] using this
    refine ⟨ringAt n V v, ?_⟩
    rw [matchVertices]
    simp only [hvr, if_neg hinv, hcol]

/-- The loop over the vertices keeps the invariant and every link stored before. -/
theorem matchVertices_inv {n mvc : Nat} {V : Nat → Nat → Nat} {fuel : Nat}
    {vertexRings : List Link} {tvr : List TriangleVertexRings}
    (ready : RingsReady n mvc V fuel vertexRings tvr) :
    ∀ (is : List Nat) (ts : List Triangle) (adj : List Link) (r : Bool) (ts1 : List Triangle)
      (adj1 : List Link),
      (∀ v ∈ is, v < mvc) → MatchInv n V ts →
      matchVertices vertexRings tvr fuel is ts adj = .ok (r, ts1, adj1) →
      MatchInv n V ts1 ∧ KeepsLinks ts ts1 := by
  intro is
  induction is with
  | nil =>
    intro ts adj r ts1 adj1 _ hinv h
    simp only [matchVertices, Except.ok.injEq, Prod.mk.injEq] at h
    rw [← h.2.1]
    exact ⟨hinv, KeepsLinks.refl ts⟩
  | cons v rest ih =>
    intro ts adj r ts1 adj1 hlt hinv h
    have hv := hlt v (List.mem_cons_self _ _)
    have hrest : ∀ w ∈ rest, w < mvc := fun w hw => hlt w (List.mem_cons_of_mem _ hw)
    have hring : ∀ c ∈ ringAt n V v, ValidCorner n c ∧ V c.index c.side = v :=
      fun c hc => (mem_ringAt n V v c).mp hc
    obtain ⟨adj2, hstep⟩ := matchVertices_cons ready v hv rest ts adj
    rw [hstep] at h
    cases hout : matchOuter (ringAt n V v) 0 (ringAt n V v) ts with
    | error e => simp [hout] at h
    | ok res =>
      obtain ⟨b, ts2⟩ := res
      have hmo := matchOuter_inv v _ hring _ 0 ts b ts2 hring hinv hout
      cases b with
      | false =>
        simp only [hout, Except.ok.injEq, Prod.mk.injEq] at h
        rw [← h.2.1]
        exact hmo
      | true =>
        simp only [hout] at h
        obtain ⟨r1, r2⟩ := ih _ _ _ _ _ hrest hmo.1 h
        exact ⟨r1, hmo.2.trans r2⟩

/-- The loop over the vertices runs to its end without a fault. -/
theorem matchVertices_total {n mvc : Nat} {V : Nat → Nat → Nat} {fuel : Nat}
    {vertexRings : List Link} {tvr : List TriangleVertexRings}
    (ready : RingsReady n mvc V fuel vertexRings tvr) :
    ∀ (is : List Nat) (ts : List Triangle) (adj : List Link),
      (∀ v ∈ is, v < mvc) → ts.length = n →
      ∃ r ts1 adj1, matchVertices vertexRings tvr fuel is ts adj = .ok (r, ts1, adj1) := by
  intro is
  induction is with
  | nil =>
    intro ts adj _ _
    exact ⟨true, ts, adj, rfl⟩
  | cons v rest ih =>
    intro ts adj hlt hlen
    have hv := hlt v (List.mem_cons_self _ _)
    have hrest : ∀ w ∈ rest, w < mvc := fun w hw => hlt w (List.mem_cons_of_mem _ hw)
    have hring : ∀ c ∈ ringAt n V v, c.index < n :=
      fun c hc => ((mem_ringAt n V v c).mp hc).1.1
    obtain ⟨adj2, hstep⟩ := matchVertices_cons ready v hv rest ts adj
    obtain ⟨b, ts2, hout, hlen2⟩ := matchOuter_total _ hring _ 0 ts hring hlen
    rw [hstep, hout]
    cases b with
    | false => exact ⟨false, ts2, adj2, rfl⟩
    | true => exact ih _ _ hrest hlen2

/-- When the loop over the vertices is left without `return false`, every two
matching corners at one of its vertices have been linked. -/
theorem matchVertices_complete {n mvc : Nat} {V : Nat → Nat → Nat} {fuel : Nat}
    {vertexRings : List Link} {tvr : List TriangleVertexRings}
    (ready : RingsReady n mvc V fuel vertexRings tvr) :
    ∀ (is : List Nat) (ts : List Triangle) (adj : List Link) (ts1 : List Triangle)
      (adj1 : List Link),
      (∀ v ∈ is, v < mvc) → MatchInv n V ts →
      matchVertices vertexRings tvr fuel is ts adj = .ok (true, ts1, adj1) →
      ∀ v ∈ is, ∀ (j1 : Nat) (c1 : Link) (j2 : Nat) (c2 : Link), (ringAt n V v)[j1]? = some c1 → (ringAt n V v)[j2]? = some c2 →
        j1 ≠ j2 → c1.index ≤ c2.index →
        V c1.index ((c1.side + 1) % 3) = V c2.index ((c2.side + 2) % 3) →
        linkAt ts1 c1.index c1.side = ⟨c2.index, (c2.side + 2) % 3⟩ ∧
        linkAt ts1 c2.index ((c2.side + 2) % 3) = ⟨c1.index, c1.side⟩ := by
  intro is
  induction is with
  | nil =>
    intro ts adj ts1 adj1 _ _ _ v hv
    simp at hv
  | cons w rest ih =>
    intro ts adj ts1 adj1 hlt hinv h v hvmem j1 c1 j2 c2 hj1 hj2 hne hle hvv
    have hw := hlt w (List.mem_cons_self _ _)
    have hrest : ∀ u ∈ rest, u < mvc := fun u hu => hlt u (List.mem_cons_of_mem _ hu)
    have hring : ∀ c ∈ ringAt n V w, ValidCorner n c ∧ V c.index c.side = w :=
      fun c hc => (mem_ringAt n V w c).mp hc
    obtain ⟨adj2, hstep⟩ := matchVertices_cons ready w hw rest ts adj
    rw [hstep] at h
    cases hout : matchOuter (ringAt n V w) 0 (ringAt n V w) ts with
    | error e => simp [hout] at h
    | ok res =>
      obtain ⟨b, ts2⟩ := res
      have hmo := matchOuter_inv w _ hring _ 0 ts b ts2 hring hinv hout
      cases b with
      | false => simp [hout] at h
      | true =>
        simp only [hout] at h
        rcases List.mem_cons.mp hvmem with hvw | hvr
        · subst hvw
          have hnow := matchOuter_complete v _ hring _ 0 ts ts2 hring hinv hout j1 c1 j2 c2
            hj1 hj2 (by omega) hle hvv
          have hkeep := (matchVertices_inv ready rest ts2 adj2 true ts1 adj1 hrest hmo.1 h).2
          have hc1 := (hring c1 (List.getElem?_mem hj1)).1
          have hs2 : (c2.side + 2) % 3 < 3 := Nat.mod_lt _ (by decide)
          constructor
          · rw [hkeep _ _ hc1.2 (by rw [hnow.1]; exact link_ne_invalid _ _ hs2), hnow.1]
          · rw [hkeep _ _ hs2 (by rw [hnow.2]; exact link_ne_invalid _ _ hc1.2), hnow.2]
        · exact ih _ _ _ _ hrest hmo.1 h v hvr j1 c1 j2 c2 hj1 hj2 hne hle hvv

/-- When the loop over the vertices executes `return false`, two corners at one of its
vertices match while one of the two sides is already linked. -/
theorem matchVertices_false {n mvc : Nat} {V : Nat → Nat → Nat} {fuel : Nat}
    {vertexRings : List Link} {tvr : List TriangleVertexRings}
    (ready : RingsReady n mvc V fuel vertexRings tvr) :
    ∀ (is : List Nat) (ts : List Triangle) (adj : List Link) (ts1 : List Triangle)
      (adj1 : List Link),
      (∀ v ∈ is, v < mvc) → MatchInv n V ts →
      matchVertices vertexRings tvr fuel is ts adj = .ok (false, ts1, adj1) →
      ∃ v ∈ is, ∃ (j1 : Nat) (c1 : Link) (j2 : Nat) (c2 : Link), (ringAt n V v)[j1]? = some c1 ∧ (ringAt n V v)[j2]? = some c2 ∧
        j1 ≠ j2 ∧ c1.index ≤ c2.index ∧
        V c1.index ((c1.side + 1) % 3) = V c2.index ((c2.side + 2) % 3) ∧
        (linkAt ts1 c1.index c1.side ≠ InvalidLink ∨
          linkAt ts1 c2.index ((c2.side + 2) % 3) ≠ InvalidLink) := by
  intro is
  induction is with
  | nil =>
    intro ts adj ts1 adj1 _ _ h
    simp [matchVertices] at h
  | cons w rest ih =>
    intro ts adj ts1 adj1 hlt hinv h
    have hw := hlt w (List.mem_cons_self _ _)
    have hrest : ∀ u ∈ rest, u < mvc := fun u hu => hlt u (List.mem_cons_of_mem _ hu)
    have hring : ∀ c ∈ ringAt n V w, ValidCorner n c ∧ V c.index c.side = w :=
      fun c hc => (mem_ringAt n V w c).mp hc
    obtain ⟨adj2, hstep⟩ := matchVertices_cons ready w hw rest ts adj
    rw [hstep] at h
    cases hout : matchOuter (ringAt n V w) 0 (ringAt n V w) ts with
    | error e => simp [hout] at h
    | ok res =>
      obtain ⟨b, ts2⟩ := res
      have hmo := matchOuter_inv w _ hring _ 0 ts b ts2 hring hinv hout
      cases b with
      | false =>
        simp only [hout, Except.ok.injEq, Prod.mk.injEq, true_and] at h
        obtain ⟨h1, _⟩ := h
        subst h1
        obtain ⟨j1, c1, j2, c2, a1, a2, a3, a4⟩ :=
          matchOuter_false w _ hring _ 0 ts ts2 hring hinv hout
        exact ⟨w, List.mem_cons_self _ _, j1, c1, j2, c2, a1, a2, by omega, a4⟩
      | true =>
        simp only [hout] at h
        obtain ⟨v, hv, rest1⟩ := ih _ _ _ _ hrest hmo.1 h
        exact ⟨v, List.mem_cons_of_mem _ hv, rest1⟩

/-- The threading loop stops only on an access out of bounds. -/
theorem threadCorner_fault (i j : Nat) (s : RingState) (e : Fault)
    (h : threadCorner i j s = .error e) : e = .outOfBounds := by
  unfold threadCorner at h
  split at h
  · simp only at h
    split at h
    · simp only [Except.error.injEq] at h
      exact h.symm
    · simp at h
  · simp only [Except.error.injEq] at h
    exact h.symm

theorem threadTriangle_fault (i : Nat) (s : RingState) (e : Fault)
    (h : threadTriangle i s = .error e) : e = .outOfBounds := by
  unfold threadTriangle at h
  cases h0 : threadCorner i 0 s with
  | error e0 =>
    simp only [h0, Except.error.injEq] at h
    rw [← h]
    exact threadCorner_fault _ _ _ _ h0
  | ok s0 =>
    simp only [h0] at h
    cases h1 : threadCorner i 1 s0 with
    | error e1 =>
      simp only [h1, Except.error.injEq] at h
      rw [← h]
      exact threadCorner_fault _ _ _ _ h1
    | ok s1 =>
      simp only [h1] at h
      exact threadCorner_fault _ _ _ _ h

theorem threadRings_fault : ∀ (is : List Nat) (s : RingState) (e : Fault),
    threadRings is s = .error e → e = .outOfBounds := by
  intro is
  induction is with
  | nil =>
    intro s e h
    simp [threadRings] at h
  | cons i rest ih =>
    intro s e h
    rw [threadRings] at h
    cases h0 : threadTriangle i s with
    | error e0 =>
      simp only [h0, Except.error.injEq] at h
      rw [← h]
      exact threadTriangle_fault _ _ _ h0
    | ok s0 =>
      simp only [h0] at h
      exact ih _ _ h

/-! ## The whole of `build(wks)` -/

/-- The loop that fills `vertexRings` with the sentinel writes every listed slot and
runs without a fault when the slots exist. -/
theorem fillInvalid_spec :
    ∀ (is : List Nat) (vr : List Link), (∀ i ∈ is, i < vr.length) →
      ∃ vr1, fillInvalid is vr = .ok vr1 ∧ vr1.length = vr.length ∧
        ∀ i, i ∈ is → vr1[i]? = some InvalidLink := by
  intro is
  induction is with
  | nil =>
    intro vr _
    exact ⟨vr, rfl, rfl, fun i hi => by simp at hi⟩
  | cons k rest ih =>
    intro vr hlt
    have hk := hlt k (List.mem_cons_self _ _)
    obtain ⟨vr1, e1, e2, e3⟩ := ih (vr.set k InvalidLink)
      (fun i hi => by simpa using hlt i (List.mem_cons_of_mem _ hi))
    refine ⟨vr1, by rw [fillInvalid, if_pos hk]; exact e1, by simpa using e2, ?_⟩
    intro i hi
    by_cases hir : i ∈ rest
    · exact e3 i hir
    · have hik : i = k := by
        rcases List.mem_cons.mp hi with h | h
        · exact h
        · exact absurd h hir
      subst hik
      have hkeep : ∀ (js : List Nat) (w w1 : List Link), i ∉ js → fillInvalid js w = .ok w1 →
          w1[i]? = w[i]? := by
        intro js
        induction js with
        | nil =>
          intro w w1 _ h
          simp only [fillInvalid, Except.ok.injEq] at h
          rw [h]
        | cons j js ihj =>
          intro w w1 hnot h
          rw [fillInvalid] at h
          split at h
          · have hij : j ≠ i := fun e => hnot (by rw [e]; exact List.mem_cons_self _ _)
            rw [ihj _ _ (fun hm => hnot (List.mem_cons_of_mem _ hm)) h,
              List.getElem?_set_ne hij]
          · simp at h
      rw [hkeep rest _ _ hir e1, List.getElem?_set]
      simp [hk]

theorem vertexAt_eq_zero (ts : List Triangle) (t j : Nat) (h : ts.length ≤ t) :
    vertexAt ts t j = 0 := by
  simp [vertexAt, List.getElem?_eq_none_iff.mpr h]

/-- The result of `build(wks)` on a manifold with at least one triangle: the run
has no fault exactly when every vertex index is below `m_maxVertexCount`, and then the
threading loop and the matching loop have run as described by their invariants. -/
theorem buildWks_run (m : Manifold) (wks : BuildWorkspace) (hn : m.m_triangles.length ≠ 0) :
    ((∀ t, t < m.m_triangles.length → ∀ j, j < 3 →
        vertexAt m.m_triangles t j < m.m_maxVertexCount) →
      ∃ res, buildWks m wks = .ok res) ∧
    (∀ r m1 wks1, buildWks m wks = .ok (r, m1, wks1) →
      (∀ t, t < m.m_triangles.length → ∀ j, j < 3 →
        vertexAt m.m_triangles t j < m.m_maxVertexCount) ∧
      m1.m_maxVertexCount = m.m_maxVertexCount ∧
      ∃ (vr : List Link) (tvr : List TriangleVertexRings) (ts : List Triangle),
        RingsReady m.m_triangles.length m.m_maxVertexCount (vertexAt m.m_triangles)
          (3 * m.m_triangles.length) vr tvr ∧
        MatchInv m.m_triangles.length (vertexAt m.m_triangles) ts ∧
        (∀ t j, t < m.m_triangles.length → j < 3 → linkAt ts t j = InvalidLink) ∧
        matchVertices vr tvr (3 * m.m_triangles.length) (List.range m.m_maxVertexCount) ts
          wks.adjList = .ok (r, m1.m_triangles, wks1.adjList)) ∧
    (∀ e, buildWks m wks = .error e → e = .outOfBounds) := by
  obtain ⟨vr1, hfill, hfl, hfi⟩ := fillInvalid_spec (List.range m.m_maxVertexCount)
    (vecResize (vecClear wks.vertexRings) m.m_maxVertexCount zeroLink)
    (fun i hi => by simpa [vecResize, vecClear] using hi)
  have hlenvr : vr1.length = m.m_maxVertexCount := by
    rw [hfl]; simp [vecResize, vecClear]
  have hinit : RingInv m.m_triangles.length m.m_maxVertexCount (vertexAt m.m_triangles) []
      ⟨vr1, vecResize (vecClear wks.triangleVertexRings) m.m_triangles.length
        ⟨zeroLink, zeroLink, zeroLink⟩, m.m_triangles⟩ := by
    refine ⟨hlenvr, by simp [vecResize, vecClear], rfl, ?_, ?_, ?_⟩
    · intro t j
      by_cases ht : t < m.m_triangles.length
      · simp [ht]
      · simp only [ht, if_false]
        exact vertexAt_eq_zero _ _ _ (by omega)
    · intro v hv
      exact ⟨InvalidLink, hfi v (List.mem_range.mpr hv), by simpa [ringOf] using Chain.nil⟩
    · intro c hc
      simp at hc
  obtain ⟨thr1, thr2⟩ := threadRings_inv (List.range m.m_triangles.length) [] _ hinit
    (fun i hi => List.mem_range.mp hi) (List.nodup_range _) (fun c hc => by simp at hc)
  have hready : ∀ s, RingInv m.m_triangles.length m.m_maxVertexCount (vertexAt m.m_triangles)
      ([] ++ cornersOf (List.range m.m_triangles.length)) s →
      RingsReady m.m_triangles.length m.m_maxVertexCount (vertexAt m.m_triangles)
          (3 * m.m_triangles.length) s.vertexRings s.triangleVertexRings ∧
        MatchInv m.m_triangles.length (vertexAt m.m_triangles) s.triangles ∧
        (∀ t j, t < m.m_triangles.length → j < 3 → linkAt s.triangles t j = InvalidLink) := by
    intro s hs
    have hfree : ∀ t j, t < m.m_triangles.length → j < 3 →
        linkAt s.triangles t j = InvalidLink := by
      intro t j ht hj
      exact hs.reset ⟨t, j⟩ (by simp [mem_cornersOf, ht, hj])
    refine ⟨⟨fun v hv => ?_, le_refl _⟩, ⟨hs.lenTri, hs.vert, ?_⟩, hfree⟩
    · simpa [ringAt] using hs.chain v hv
    · intro t j ht hj hne
      exact absurd (hfree t j ht hj) hne
  refine ⟨?_, ?_, ?_⟩
  · intro hV
    obtain ⟨s, hs⟩ := thr2 (fun i hi j hj => hV i (List.mem_range.mp hi) j hj)
    obtain ⟨hr, hmi, _⟩ := hready s (thr1 s hs).1
    obtain ⟨r, ts1, adj1, hmv⟩ := matchVertices_total hr (List.range m.m_maxVertexCount)
      s.triangles wks.adjList (fun v hv => List.mem_range.mp hv) hmi.len
    exact ⟨(r, { m with m_triangles := ts1 }, ⟨s.vertexRings, s.triangleVertexRings, adj1⟩),
      by simp only [buildWks, if_neg hn, hfill, hs, hmv]⟩
  · intro r m1 wks1 h
    simp only [buildWks, if_neg hn, hfill] at h
    cases hs : threadRings (List.range m.m_triangles.length)
        ⟨vr1, vecResize (vecClear wks.triangleVertexRings) m.m_triangles.length
          ⟨zeroLink, zeroLink, zeroLink⟩, m.m_triangles⟩ with
    | error e => simp [hs] at h
    | ok s =>
      simp only [hs] at h
      obtain ⟨hinv, hV⟩ := thr1 s hs
      obtain ⟨hr, hmi, hfree⟩ := hready s hinv
      cases hmv : matchVertices s.vertexRings s.triangleVertexRings (3 * m.m_triangles.length)
          (List.range m.m_maxVertexCount) s.triangles wks.adjList with
      | error e => simp [hmv] at h
      | ok res =>
        obtain ⟨r0, ts0, adj0⟩ := res
        simp only [hmv, Except.ok.injEq, Prod.mk.injEq] at h
        obtain ⟨h1, h2, h3⟩ := h
        subst h1 h2 h3
        exact ⟨fun t ht j hj => hV t (List.mem_range.mpr ht) j hj, rfl,
          s.vertexRings, s.triangleVertexRings, s.triangles, hr, hmi, hfree, hmv⟩
  · intro e h
    simp only [buildWks, if_neg hn, hfill] at h
    cases hs : threadRings (List.range m.m_triangles.length)
        ⟨vr1, vecResize (vecClear wks.triangleVertexRings) m.m_triangles.length
          ⟨zeroLink, zeroLink, zeroLink⟩, m.m_triangles⟩ with
    | error e1 =>
      simp only [hs, Except.error.injEq] at h
      rw [← h]
      exact threadRings_fault _ _ _ hs
    | ok s =>
      exfalso
      simp only [hs] at h
      obtain ⟨hinv, _⟩ := thr1 s hs
      obtain ⟨hr, hmi, _⟩ := hready s hinv
      obtain ⟨r, ts1, adj1, hmv⟩ := matchVertices_total hr (List.range m.m_maxVertexCount)
        s.triangles wks.adjList (fun v hv => List.mem_range.mp hv) hmi.len
      simp [hmv] at h

theorem nodup_cornersOf (is : List Nat) (h : is.Nodup) : (cornersOf is).Nodup := by
  induction is with
  | nil => simp [cornersOf]
  | cons i rest ih =>
    have hnd := List.nodup_cons.mp h
    have hnot : ∀ j, (⟨i, j⟩ : Link) ∉ cornersOf rest := by
      intro j hj
      exact hnd.1 ((mem_cornersOf rest _).mp hj).1
    simp only [cornersOf, List.nodup_cons, List.mem_cons, not_or]
    refine ⟨⟨by simp, by simp, hnot 0⟩, ⟨by simp, hnot 1⟩, hnot 2, ih hnd.2⟩

/-- What a run of `build(wks)` without a fault leaves behind: the vertices and the
count are untouched, the links satisfy the invariant of the matching loops, every
two matching corners are linked when the result is `true`, and two corners match on
an occupied side when it is `false`. -/
theorem buildWks_spec (m : Manifold) (wks : BuildWorkspace) (r : Bool) (m1 : Manifold)
    (wks1 : BuildWorkspace) (h : buildWks m wks = .ok (r, m1, wks1)) :
    m1.m_maxVertexCount = m.m_maxVertexCount ∧
    (∀ t, t < m.m_triangles.length → ∀ j, j < 3 →
      vertexAt m.m_triangles t j < m.m_maxVertexCount) ∧
    ∃ ts0 : List Triangle,
      MatchInv m.m_triangles.length (vertexAt m.m_triangles) ts0 ∧
      (∀ t j, t < m.m_triangles.length → j < 3 → linkAt ts0 t j = InvalidLink) ∧
      MatchInv m.m_triangles.length (vertexAt m.m_triangles) m1.m_triangles ∧
      KeepsLinks ts0 m1.m_triangles ∧
      (r = true → ∀ c1 c2 : Link, ValidCorner m.m_triangles.length c1 →
        ValidCorner m.m_triangles.length c2 → c1 ≠ c2 →
        vertexAt m.m_triangles c1.index c1.side = vertexAt m.m_triangles c2.index c2.side →
        c1.index ≤ c2.index →
        vertexAt m.m_triangles c1.index ((c1.side + 1) % 3) =
          vertexAt m.m_triangles c2.index ((c2.side + 2) % 3) →
        linkAt m1.m_triangles c1.index c1.side = ⟨c2.index, (c2.side + 2) % 3⟩ ∧
        linkAt m1.m_triangles c2.index ((c2.side + 2) % 3) = ⟨c1.index, c1.side⟩) ∧
      (r = false → ∃ c1 c2 : Link, ValidCorner m.m_triangles.length c1 ∧
        ValidCorner m.m_triangles.length c2 ∧ c1 ≠ c2 ∧
        vertexAt m.m_triangles c1.index c1.side = vertexAt m.m_triangles c2.index c2.side ∧
        c1.index ≤ c2.index ∧
        vertexAt m.m_triangles c1.index ((c1.side + 1) % 3) =
          vertexAt m.m_triangles c2.index ((c2.side + 2) % 3) ∧
        (linkAt m1.m_triangles c1.index c1.side ≠ InvalidLink ∨
          linkAt m1.m_triangles c2.index ((c2.side + 2) % 3) ≠ InvalidLink)) := by
  by_cases hn : m.m_triangles.length = 0
  · have hnil : m.m_triangles = [] := List.length_eq_zero.mp hn
    simp only [buildWks, hn, if_true, Except.ok.injEq, Prod.mk.injEq] at h
    obtain ⟨h1, h2, _⟩ := h
    subst h1 h2
    have hinv : MatchInv m.m_triangles.length (vertexAt m.m_triangles) m.m_triangles := by
      refine ⟨rfl, ?_, ?_⟩
      · intro t j
        simp [hn, hnil, vertexAt]
      · intro t j ht
        omega
    refine ⟨rfl, fun t ht => by omega, m.m_triangles, hinv, fun t j ht => by omega, hinv,
      KeepsLinks.refl _, ?_, ?_⟩
    · intro _ c1 c2 hc1
      have := hc1.1
      omega
    · intro hf
      simp at hf
  · obtain ⟨hV, hcount, vr, tvr, ts, hready, hinv0, hfree, hmv⟩ :=
      (buildWks_run m wks hn).2.1 r m1 wks1 h
    have hrange : ∀ v ∈ List.range m.m_maxVertexCount, v < m.m_maxVertexCount :=
      fun v hv => List.mem_range.mp hv
    obtain ⟨hinv1, hkeep⟩ := matchVertices_inv hready _ _ _ _ _ _ hrange hinv0 hmv
    refine ⟨hcount, hV, ts, hinv0, hfree, hinv1, hkeep, ?_, ?_⟩
    · intro hr c1 c2 hc1 hc2 hne hsame hle hmatch
      subst hr
      have hv : vertexAt m.m_triangles c1.index c1.side < m.m_maxVertexCount :=
        hV _ hc1.1 _ hc1.2
      have hm1 : c1 ∈ ringAt m.m_triangles.length (vertexAt m.m_triangles)
          (vertexAt m.m_triangles c1.index c1.side) := (mem_ringAt _ _ _ _).mpr ⟨hc1, rfl⟩
      have hm2 : c2 ∈ ringAt m.m_triangles.length (vertexAt m.m_triangles)
          (vertexAt m.m_triangles c1.index c1.side) :=
        (mem_ringAt _ _ _ _).mpr ⟨hc2, hsame.symm⟩
      obtain ⟨j1, hj1⟩ := List.mem_iff_getElem?.mp hm1
      obtain ⟨j2, hj2⟩ := List.mem_iff_getElem?.mp hm2
      have hjne : j1 ≠ j2 := by
        intro e
        rw [e, hj2] at hj1
        exact hne (Option.some.inj hj1).symm
      exact matchVertices_complete hready _ _ _ _ _ hrange hinv0 hmv _
        (List.mem_range.mpr hv) j1 c1 j2 c2 hj1 hj2 hjne hle hmatch
    · intro hr
      subst hr
      obtain ⟨v, _, j1, c1, j2, c2, a1, a2, a3, a4, a5, a6⟩ :=
        matchVertices_false hready _ _ _ _ _ hrange hinv0 hmv
      have hc1 := (mem_ringAt _ _ _ _).mp (List.getElem?_mem a1)
      have hc2 := (mem_ringAt _ _ _ _).mp (List.getElem?_mem a2)
      refine ⟨c1, c2, hc1.1, hc2.1, ?_, by rw [hc1.2, hc2.2], a4, a5, a6⟩
      intro e
      subst e
      have hnd : (ringAt m.m_triangles.length (vertexAt m.m_triangles) v).Nodup := by
        unfold ringAt ringOf
        exact List.nodup_reverse.mpr
          (List.Nodup.filter _ (nodup_cornersOf _ (List.nodup_range _)))
      exact a3 (List.getElem?_inj (lt_of_getElem? a1) hnd (by rw [a1, a2]))

/-! ## Loading the triangles -/

theorem usedIndices_cons3 (a b c : Nat) (rest : List Nat) :
    usedIndices (a :: b :: c :: rest) = a :: b :: c :: usedIndices rest := by
  unfold usedIndices
  have e : (a :: b :: c :: rest).length / 3 = rest.length / 3 + 1 := by
    simp only [List.length_cons]
    omega
  rw [e, Nat.mul_add]
  simp [List.take_succ_cons]

theorem usedIndices_short (xs : List Nat) (h : xs.length < 3) : usedIndices xs = [] := by
  unfold usedIndices
  have e : xs.length / 3 = 0 := by omega
  simp [e]

theorem triplesOf_short (xs : List Nat) (h : xs.length < 3) : triplesOf xs = [] := by
  match xs, h with
  | [], _ => rfl
  | [_], _ => rfl
  | [_, _], _ => rfl
  | _ :: _ :: _ :: _, h => simp at h; omega

theorem loadTriangles_short (xs : List Nat) (m : Manifold) (h : xs.length < 3) :
    loadTriangles xs m = m := by
  match xs, h with
  | [], _ => rfl
  | [_], _ => rfl
  | [_, _], _ => rfl
  | _ :: _ :: _ :: _, h => simp at h; omega

/-- Induction over a flat sequence three elements at a time. -/
theorem triple_induction {P : List Nat → Prop} (short : ∀ xs, xs.length < 3 → P xs)
    (step : ∀ a b c rest, P rest → P (a :: b :: c :: rest)) : ∀ xs, P xs := by
  have key : ∀ n, ∀ xs : List Nat, xs.length ≤ n → P xs := by
    intro n
    induction n with
    | zero =>
      intro xs h
      exact short xs (by omega)
    | succ n ih =>
      intro xs h
      match xs, h with
      | [], _ => exact short _ (by simp)
      | [_], _ => exact short _ (by simp)
      | [_, _], _ => exact short _ (by simp)
      | a :: b :: c :: rest, h =>
        exact step a b c rest (ih rest (by simp only [List.length_cons] at h; omega))
  exact fun xs => key xs.length xs (le_refl _)

theorem loadTriangles_triangles (xs : List Nat) :
    ∀ m : Manifold, (loadTriangles xs m).m_triangles = m.m_triangles ++ triplesOf xs := by
  induction xs using triple_induction with
  | short xs h =>
    intro m
    rw [loadTriangles_short xs m h, triplesOf_short xs h, List.append_nil]
  | step a b c rest ih =>
    intro m
    rw [loadTriangles, ih, triplesOf]
    simp

theorem length_triplesOf (xs : List Nat) : (triplesOf xs).length = xs.length / 3 := by
  induction xs using triple_induction with
  | short xs h =>
    rw [triplesOf_short xs h]
    simp only [List.length_nil]
    omega
  | step a b c rest ih =>
    simp only [triplesOf, List.length_cons, ih]
    omega

theorem linkAt_triplesOf (xs : List Nat) (t j : Nat) : linkAt (triplesOf xs) t j = InvalidLink := by
  induction xs using triple_induction generalizing t with
  | short xs h =>
    rw [triplesOf_short xs h]
    simp [linkAt]
  | step a b c rest ih =>
    cases t with
    | zero =>
      simp only [triplesOf, linkAt, List.getElem?_cons_zero, Triangle.link]
      split <;> rfl
    | succ t =>
      have := ih t
      simpa [triplesOf, linkAt] using this

/-- Corner `j` of triangle `k` is element `3k + j` of the flat sequence. -/
theorem vertexAt_triplesOf (xs : List Nat) (k j : Nat) (hk : k < xs.length / 3) (hj : j < 3) :
    xs[3 * k + j]? = some (vertexAt (triplesOf xs) k j) := by
  induction xs using triple_induction generalizing k with
  | short xs h =>
    omega
  | step a b c rest ih =>
    cases k with
    | zero =>
      have hj' : j = 0 ∨ j = 1 ∨ j = 2 := by omega
      rcases hj' with rfl | rfl | rfl <;> simp [triplesOf, vertexAt, Triangle.vertex]
    | succ k =>
      have hk' : k < rest.length / 3 := by
        simp only [List.length_cons] at hk
        omega
      have := ih k hk'
      have e : 3 * (k + 1) + j = (3 * k + j) + 1 + 1 + 1 := by omega
      rw [e]
      simpa [triplesOf, vertexAt] using this

theorem vertexAt_mem_usedIndices (xs : List Nat) (k j : Nat) (hk : k < xs.length / 3)
    (hj : j < 3) : vertexAt (triplesOf xs) k j ∈ usedIndices xs := by
  have h := vertexAt_triplesOf xs k j hk hj
  unfold usedIndices
  have hlt : 3 * k + j < 3 * (xs.length / 3) := by omega
  have : (xs.take (3 * (xs.length / 3)))[3 * k + j]? = some (vertexAt (triplesOf xs) k j) := by
    rw [List.getElem?_take_of_lt hlt]
    exact h
  exact List.getElem?_mem this

/-- The count kept by the loading loop, for vertex indices below `2^32 - 1`: it is at
least one more than every index met, it never decreases, and when it changes it is
one more than an index met. -/
theorem loadTriangles_count (xs : List Nat) :
    ∀ m : Manifold, (∀ v ∈ usedIndices xs, v < 4294967295) →
      (∀ v ∈ usedIndices xs, v + 1 ≤ (loadTriangles xs m).m_maxVertexCount) ∧
      m.m_maxVertexCount ≤ (loadTriangles xs m).m_maxVertexCount ∧
      ((loadTriangles xs m).m_maxVertexCount = m.m_maxVertexCount ∨
        ∃ v ∈ usedIndices xs, (loadTriangles xs m).m_maxVertexCount = v + 1) := by
  induction xs using triple_induction with
  | short xs h =>
    intro m _
    rw [loadTriangles_short xs m h, usedIndices_short xs h]
    simp
  | step a b c rest ih =>
    intro m hb
    rw [usedIndices_cons3] at hb ⊢
    have ha := hb a (by simp)
    have hb' := hb b (by simp)
    have hc := hb c (by simp)
    have hrest : ∀ v ∈ usedIndices rest, v < 4294967295 :=
      fun v hv => hb v (by simp [hv])
    have ea : (a + 1) % 4294967296 = a + 1 := Nat.mod_eq_of_lt (by omega)
    have eb : (b + 1) % 4294967296 = b + 1 := Nat.mod_eq_of_lt (by omega)
    have ec : (c + 1) % 4294967296 = c + 1 := Nat.mod_eq_of_lt (by omega)
    rw [loadTriangles, ea, eb, ec]
    obtain ⟨i1, i2, i3⟩ := ih
      { m_triangles := m.m_triangles ++ [⟨a, b, c, InvalidLink, InvalidLink, InvalidLink⟩],
        m_maxVertexCount := max (max (max m.m_maxVertexCount (a + 1)) (b + 1)) (c + 1) } hrest
    simp only at i2 i3
    refine ⟨?_, by omega, ?_⟩
    · intro v hv
      simp only [List.mem_cons] at hv
      rcases hv with rfl | rfl | rfl | hv
      · omega
      · omega
      · omega
      · exact i1 v hv
    · rcases i3 with e | ⟨v, hv, e⟩
      · rw [e]
        rcases Nat.lt_or_ge (max (max m.m_maxVertexCount (a + 1)) (b + 1)) (c + 1) with q | q
        · right
          exact ⟨c, by simp, by omega⟩
        · rcases Nat.lt_or_ge (max m.m_maxVertexCount (a + 1)) (b + 1) with q2 | q2
          · right
            exact ⟨b, by simp, by omega⟩
          · rcases Nat.lt_or_ge m.m_maxVertexCount (a + 1) with q3 | q3
            · right
              exact ⟨a, by simp, by omega⟩
            · left
              omega
      · right
        exact ⟨v, by simp [hv], e⟩

/-! ## The whole of `build(wks, triangleIndices)` -/

/-- The manifold handed to `build(wks)`: the triangles of the complete triples and the
count kept while loading them. -/
theorem build_eq (m0 : Manifold) (wks : BuildWorkspace) (xs : List Nat) :
    build m0 wks xs =
      buildWks ⟨triplesOf xs, (loadTriangles xs ⟨[], 0⟩).m_maxVertexCount⟩ wks := by
  unfold build
  have e : loadTriangles xs ⟨vecClear m0.m_triangles, 0⟩ =
      ⟨triplesOf xs, (loadTriangles xs ⟨[], 0⟩).m_maxVertexCount⟩ := by
    have h := loadTriangles_triangles xs ⟨[], 0⟩
    simp only [List.nil_append] at h
    show loadTriangles xs ⟨[], 0⟩ = _
    rw [← h]
  rw [e]

/-- The facts about a run of `build` without a fault, in terms of the input:
`V t j` is corner `j` of triple `t`. -/
theorem build_spec (m0 : Manifold) (wks : BuildWorkspace) (xs : List Nat) (r : Bool)
    (m1 : Manifold) (wks1 : BuildWorkspace) (h : build m0 wks xs = .ok (r, m1, wks1)) :
    m1.m_maxVertexCount = (loadTriangles xs ⟨[], 0⟩).m_maxVertexCount ∧
    MatchInv (xs.length / 3) (vertexAt (triplesOf xs)) m1.m_triangles ∧
    (r = true → ∀ c1 c2 : Link, ValidCorner (xs.length / 3) c1 →
      ValidCorner (xs.length / 3) c2 → c1 ≠ c2 →
      vertexAt (triplesOf xs) c1.index c1.side = vertexAt (triplesOf xs) c2.index c2.side →
      c1.index ≤ c2.index →
      vertexAt (triplesOf xs) c1.index ((c1.side + 1) % 3) =
        vertexAt (triplesOf xs) c2.index ((c2.side + 2) % 3) →
      linkAt m1.m_triangles c1.index c1.side = ⟨c2.index, (c2.side + 2) % 3⟩ ∧
      linkAt m1.m_triangles c2.index ((c2.side + 2) % 3) = ⟨c1.index, c1.side⟩) ∧
    (r = false → ∃ c1 c2 : Link, ValidCorner (xs.length / 3) c1 ∧
      ValidCorner (xs.length / 3) c2 ∧ c1 ≠ c2 ∧
      vertexAt (triplesOf xs) c1.index c1.side = vertexAt (triplesOf xs) c2.index c2.side ∧
      c1.index ≤ c2.index ∧
      vertexAt (triplesOf xs) c1.index ((c1.side + 1) % 3) =
        vertexAt (triplesOf xs) c2.index ((c2.side + 2) % 3) ∧
      (linkAt m1.m_triangles c1.index c1.side ≠ InvalidLink ∨
        linkAt m1.m_triangles c2.index ((c2.side + 2) % 3) ≠ InvalidLink)) := by
  rw [build_eq] at h
  obtain ⟨h1, _, ts0, _, _, h4, _, h6, h7⟩ := buildWks_spec _ wks r m1 wks1 h
  simp only [length_triplesOf] at h4 h6 h7
  exact ⟨h1, h4, h6, h7⟩

/-- The call `build(wks, triangleIndices)` has no fault when every vertex index in a
complete triple is below `2^32 - 1`. -/
theorem build_total (m0 : Manifold) (wks : BuildWorkspace) (xs : List Nat)
    (hb : ∀ v ∈ usedIndices xs, v < 4294967295) :
    ∃ r m1 wks1, build m0 wks xs = .ok (r, m1, wks1) := by
  rw [build_eq]
  by_cases hn : (triplesOf xs).length = 0
  · exact ⟨true, ⟨triplesOf xs, (loadTriangles xs ⟨[], 0⟩).m_maxVertexCount⟩, wks,
      by simp [buildWks, hn]⟩
  · have hrun := (buildWks_run ⟨triplesOf xs, (loadTriangles xs ⟨[], 0⟩).m_maxVertexCount⟩ wks hn).1
    have hV : ∀ t, t < (triplesOf xs).length → ∀ j, j < 3 →
        vertexAt (triplesOf xs) t j < (loadTriangles xs ⟨[], 0⟩).m_maxVertexCount := by
      intro t ht j hj
      rw [length_triplesOf] at ht
      have hmem := vertexAt_mem_usedIndices xs t j ht hj
      have := (loadTriangles_count xs ⟨[], 0⟩ hb).1 _ hmem
      omega
    obtain ⟨⟨r, m1, wks1⟩, hres⟩ := hrun hV
    exact ⟨r, m1, wks1, hres⟩

/-- A call of `build` stops without a result only on an access out of bounds: the
step budget of the ring walk is never used up. -/
theorem build_fault (m0 : Manifold) (wks : BuildWorkspace) (xs : List Nat) (e : Fault)
    (h : build m0 wks xs = .error e) : e = .outOfBounds := by
  rw [build_eq] at h
  by_cases hn : (triplesOf xs).length = 0
  · simp [buildWks, hn] at h
  · exact (buildWks_run ⟨triplesOf xs, (loadTriangles xs ⟨[], 0⟩).m_maxVertexCount⟩ wks
      hn).2.2 e h

/-- The links of a read triangle are the links of the table at its index. -/
theorem getElem?_of_lt_links (ts : List Triangle) (t : Nat) (h : t < ts.length) :
    ∃ tri, ts[t]? = some tri ∧ (∀ s, linkAt ts t s = tri.link s) ∧
      ∀ s, vertexAt ts t s = tri.vertex s := by
  obtain ⟨tri, htri⟩ := exists_getElem? ts t h
  exact ⟨tri, htri, fun s => linkAt_of_getElem? htri s, fun s => vertexAt_of_getElem? htri s⟩

/-- The result of `build` does not depend on the `adjList` it is handed. -/
theorem matchVertices_adjList (vertexRings : List Link) (tvr : List TriangleVertexRings)
    (fuel : Nat) :
    ∀ (is : List Nat) (ts : List Triangle) (adj adj' : List Link) (r : Bool)
      (ts1 : List Triangle) (adj1 : List Link),
      matchVertices vertexRings tvr fuel is ts adj = .ok (r, ts1, adj1) →
      ∃ adj2, matchVertices vertexRings tvr fuel is ts adj' = .ok (r, ts1, adj2) := by
  intro is
  induction is with
  | nil =>
    intro ts adj adj' r ts1 adj1 h
    simp only [matchVertices, Except.ok.injEq, Prod.mk.injEq] at h
    exact ⟨adj', by simp [matchVertices, h.1, h.2.1]⟩
  | cons v rest ih =>
    intro ts adj adj' r ts1 adj1 h
    rw [matchVertices] at h ⊢
    cases hv : vertexRings[v]? with
    | none => simp [hv] at h
    | some vr =>
      simp only [hv] at h ⊢
      by_cases hinv : vr = InvalidLink
      · simp only [hinv, if_true] at h ⊢
        exact ih _ _ _ _ _ _ h
      · simp only [hinv, if_false, vecClear] at h ⊢
        cases hc : collectRing tvr fuel vr [] with
        | error e => simp [hc] at h
        | ok adj3 =>
          simp only [hc] at h ⊢
          exact ⟨adj1, h⟩

theorem loadTriangles_usedIndices (xs : List Nat) :
    ∀ m : Manifold, loadTriangles (usedIndices xs) m = loadTriangles xs m := by
  induction xs using triple_induction with
  | short xs h =>
    intro m
    rw [usedIndices_short xs h, loadTriangles_short xs m h]
    rfl
  | step a b c rest ih =>
    intro m
    rw [usedIndices_cons3, loadTriangles, loadTriangles, ih]

/-- The call `build(wks)` does not depend on what the workspace held. -/
theorem buildWks_workspace (m : Manifold) (wks wks' : BuildWorkspace) (r : Bool)
    (m1 : Manifold) (wks1 : BuildWorkspace) (h : buildWks m wks = .ok (r, m1, wks1)) :
    ∃ wks2, buildWks m wks' = .ok (r, m1, wks2) := by
  unfold buildWks at h ⊢
  by_cases hn : m.m_triangles.length = 0
  · simp only [hn, if_true, Except.ok.injEq, Prod.mk.injEq] at h ⊢
    exact ⟨wks', h.1, h.2.1, rfl⟩
  · simp only [hn, if_false, vecClear] at h ⊢
    cases hf : fillInvalid (List.range m.m_maxVertexCount)
        (vecResize [] m.m_maxVertexCount zeroLink) with
    | error e => simp [hf] at h
    | ok vr1 =>
      simp only [hf] at h ⊢
      cases hs : threadRings (List.range m.m_triangles.length)
          ⟨vr1, vecResize [] m.m_triangles.length ⟨zeroLink, zeroLink, zeroLink⟩,
            m.m_triangles⟩ with
      | error e => simp [hs] at h
      | ok s =>
        simp only [hs] at h ⊢
        cases hmv : matchVertices s.vertexRings s.triangleVertexRings
            (3 * m.m_triangles.length) (List.range m.m_maxVertexCount) s.triangles
            wks.adjList with
        | error e => simp [hmv] at h
        | ok res =>
          obtain ⟨r0, ts0, adj0⟩ := res
          simp only [hmv, Except.ok.injEq, Prod.mk.injEq] at h
          obtain ⟨h1, h2, _⟩ := h
          obtain ⟨adj2, hmv2⟩ := matchVertices_adjList _ _ _ _ _ _ wks'.adjList _ _ _ hmv
          simp only [hmv2, Except.ok.injEq, Prod.mk.injEq]
          exact ⟨_, h1, h2, rfl⟩

/-! ## The visiting loops -/

/-- The first loop of `visitTrianglesClockwise` along a path that reaches `stop`. -/
theorem trianglesClockwiseWalk_path (m : Manifold) (stop : Link) :
    ∀ (k : Nat) (p : Nat → Link) (fuel : Nat),
      (∀ i, i < k → nextClockwise m (p i) = some (p (i + 1))) →
      (∀ i, i ≤ k → p i ≠ InvalidLink) →
      rotate (p k) 2 = stop → (∀ i, i < k → rotate (p i) 2 ≠ stop) → k < fuel →
      trianglesClockwiseWalk m stop fuel (p 0) = ((List.range (k + 1)).map p, .returned true) := by
  intro k
  induction k with
  | zero =>
    intro p fuel _ hvalid hend _ hfuel
    obtain ⟨f, rfl⟩ : ∃ f, fuel = f + 1 := ⟨fuel - 1, by omega⟩
    rw [trianglesClockwiseWalk, if_neg (hvalid 0 (le_refl _))]
    simp only [hend, if_true]
    rfl
  | succ k ih =>
    intro p fuel hstep hvalid hend hfirst hfuel
    obtain ⟨f, rfl⟩ : ∃ f, fuel = f + 1 := ⟨fuel - 1, by omega⟩
    have h0 := hstep 0 (by omega)
    unfold nextClockwise at h0
    cases ht : m.m_triangles[(p 0).index]? with
    | none => simp [ht] at h0
    | some t =>
      simp only [ht, Option.some.injEq] at h0
      have hrec := ih (fun i => p (i + 1)) f
        (fun i hi => hstep (i + 1) (by omega))
        (fun i hi => hvalid (i + 1) (by omega))
        hend
        (fun i hi => hfirst (i + 1) (by omega))
        (by omega)
      have hne0 : rotate (p 0) 2 ≠ stop := hfirst 0 (by omega)
      simp only [zero_add] at hrec h0
      rw [trianglesClockwiseWalk, if_neg (hvalid 0 (by omega))]
      simp only [if_neg hne0]
      simp only [rotate, ht, h0, hrec]
      rw [List.range_succ_eq_map (k + 1), List.map_cons, List.map_map]
      rfl

theorem visitTwoPhase_returned (first second : List Link × LoopExit) (b : Bool)
    (h : first.2 = .returned b) : visitTwoPhase first second = (first.1, .returned b) := by
  simp [visitTwoPhase, h]

/-- The links passed to the visitor are those of the first loop, followed, when that
loop is left through its condition, by those of the second loop. -/
theorem visitTwoPhase_items (first second : List Link × LoopExit) :
    (visitTwoPhase first second).1 = first.1 ∨
      (first.2 = .done ∧ (visitTwoPhase first second).1 = first.1 ++ second.1) := by
  unfold visitTwoPhase
  cases h1 : first.2 with
  | returned b => left; rfl
  | fault f => left; rfl
  | done =>
    right
    refine ⟨rfl, ?_⟩
    cases h2 : second.2 <;> rfl

/-- Stepping clockwise from a corner at a vertex leads to the sentinel or to a corner
at the same vertex. -/
theorem MatchInv.clockwise_step {n : Nat} {V : Nat → Nat → Nat} {ts : List Triangle}
    (h : MatchInv n V ts) (t s : Nat) (ht : t < n) (hs : s < 3) :
    linkAt ts t ((s + 2) % 3) = InvalidLink ∨
      (ValidCorner n (linkAt ts t ((s + 2) % 3)) ∧
        V (linkAt ts t ((s + 2) % 3)).index (linkAt ts t ((s + 2) % 3)).side = V t s) := by
  by_cases hl : linkAt ts t ((s + 2) % 3) = InvalidLink
  · exact Or.inl hl
  · obtain ⟨q1, q2, _, q4, _⟩ := h.links t ((s + 2) % 3) ht (Nat.mod_lt _ (by decide)) hl
    have e : ((s + 2) % 3 + 1) % 3 = s := by omega
    rw [e] at q4
    exact Or.inr ⟨⟨q1, q2⟩, q4⟩

/-- Stepping anticlockwise from a side whose end lies at a vertex leads to the sentinel
or to a side whose end lies at the same vertex. -/
theorem MatchInv.anticlockwise_step {n : Nat} {V : Nat → Nat → Nat} {ts : List Triangle}
    (h : MatchInv n V ts) (t s : Nat) (ht : t < n) :
    linkAt ts t ((s + 1) % 3) = InvalidLink ∨
      (ValidCorner n (linkAt ts t ((s + 1) % 3)) ∧
        V (linkAt ts t ((s + 1) % 3)).index (((linkAt ts t ((s + 1) % 3)).side + 1) % 3) =
          V t ((s + 1) % 3)) := by
  by_cases hl : linkAt ts t ((s + 1) % 3) = InvalidLink
  · exact Or.inl hl
  · obtain ⟨q1, q2, _, _, q5⟩ := h.links t ((s + 1) % 3) ht (Nat.mod_lt _ (by decide)) hl
    exact Or.inr ⟨⟨q1, q2⟩, q5⟩

/-- Every link the first loop of `visitTrianglesClockwise` passes to the visitor is a
corner at the vertex of the corner it starts from. -/
theorem trianglesClockwiseWalk_vertex {n : Nat} {V : Nat → Nat → Nat} (m : Manifold)
    (hinv : MatchInv n V m.m_triangles) (stop : Link) (v : Nat) :
    ∀ (fuel : Nat) (it : Link),
      (it = InvalidLink ∨ (ValidCorner n it ∧ V it.index it.side = v)) →
      ∀ x ∈ (trianglesClockwiseWalk m stop fuel it).1, ValidCorner n x ∧ V x.index x.side = v := by
  intro fuel
  induction fuel with
  | zero =>
    intro it _ x hx
    rw [trianglesClockwiseWalk] at hx
    split at hx <;> simp at hx
  | succ fuel ih =>
    intro it hit x hx
    rw [trianglesClockwiseWalk] at hx
    by_cases hinvl : it = InvalidLink
    · simp [hinvl] at hx
    · rcases hit with hit | hit
      · exact absurd hit hinvl
      · simp only [if_neg hinvl] at hx
        split at hx
        · simp only [List.mem_singleton] at hx
          rw [hx]
          exact hit
        · obtain ⟨t, ht, hl, _⟩ := getElem?_of_lt_links m.m_triangles it.index
            (by rw [hinv.len]; exact hit.1.1)
          simp only [rotate, ht, List.mem_cons] at hx
          rcases hx with hx | hx
          · rw [hx]
            exact hit
          · refine ih _ ?_ x hx
            rw [← hl]
            rcases hinv.clockwise_step it.index it.side hit.1.1 hit.1.2 with hc | hc
            · exact Or.inl hc
            · exact Or.inr ⟨hc.1, by rw [hc.2]; exact hit.2⟩

/-- Every link the second loop of `visitTrianglesAnticlockwise` passes to the visitor
is a corner at the vertex of the corner it starts from. -/
theorem trianglesAnticlockwiseTail_vertex {n : Nat} {V : Nat → Nat → Nat} (m : Manifold)
    (hinv : MatchInv n V m.m_triangles) (v : Nat) :
    ∀ (fuel : Nat) (it : Link),
      (it = InvalidLink ∨ (ValidCorner n it ∧ V it.index it.side = v)) →
      ∀ x ∈ (trianglesAnticlockwiseTail m fuel it).1, ValidCorner n x ∧ V x.index x.side = v := by
  intro fuel
  induction fuel with
  | zero =>
    intro it _ x hx
    rw [trianglesAnticlockwiseTail] at hx
    split at hx <;> simp at hx
  | succ fuel ih =>
    intro it hit x hx
    rw [trianglesAnticlockwiseTail] at hx
    by_cases hinvl : it = InvalidLink
    · simp [hinvl] at hx
    · rcases hit with hit | hit
      · exact absurd hit hinvl
      · simp only [if_neg hinvl] at hx
        obtain ⟨t, ht, hl, _⟩ := getElem?_of_lt_links m.m_triangles it.index
          (by rw [hinv.len]; exact hit.1.1)
        simp only [rotate, ht, List.mem_cons] at hx
        rcases hx with hx | hx
        · rw [hx]
          exact hit
        · refine ih _ ?_ x hx
          rw [← hl]
          rcases hinv.clockwise_step it.index it.side hit.1.1 hit.1.2 with hc | hc
          · exact Or.inl hc
          · exact Or.inr ⟨hc.1, by rw [hc.2]; exact hit.2⟩

/-- Every link the second loop of `visitTrianglesClockwise` passes to the visitor is a
corner at the vertex at which the side it starts from ends. -/
theorem clockwiseTail_vertex {n : Nat} {V : Nat → Nat → Nat} (m : Manifold)
    (hinv : MatchInv n V m.m_triangles) (v : Nat) :
    ∀ (fuel : Nat) (it : Link),
      (it = InvalidLink ∨ (ValidCorner n it ∧ V it.index ((it.side + 1) % 3) = v)) →
      ∀ x ∈ (clockwiseTail m fuel it).1, ValidCorner n x ∧ V x.index x.side = v := by
  intro fuel
  induction fuel with
  | zero =>
    intro it _ x hx
    rw [clockwiseTail] at hx
    split at hx <;> simp at hx
  | succ fuel ih =>
    intro it hit x hx
    rw [clockwiseTail] at hx
    by_cases hinvl : it = InvalidLink
    · simp [hinvl] at hx
    · rcases hit with hit | hit
      · exact absurd hit hinvl
      · simp only [if_neg hinvl] at hx
        obtain ⟨t, ht, hl, _⟩ := getElem?_of_lt_links m.m_triangles it.index
          (by rw [hinv.len]; exact hit.1.1)
        have hitem : ValidCorner n (rotate it 1) ∧
            V (rotate it 1).index (rotate it 1).side = v :=
          ⟨⟨hit.1.1, Nat.mod_lt _ (by decide)⟩, hit.2⟩
        simp only [rotate, ht, List.mem_cons] at hx hitem
        rcases hx with hx | hx
        · rw [hx]
          exact hitem
        · refine ih _ ?_ x hx
          rw [← hl]
          rcases hinv.anticlockwise_step it.index it.side hit.1.1 with hc | hc
          · exact Or.inl hc
          · exact Or.inr ⟨hc.1, by rw [hc.2]; exact hit.2⟩

/-- Every link the first loop of `visitTrianglesAnticlockwise` passes to the visitor
is a corner at the vertex at which the side it starts from ends. -/
theorem trianglesAnticlockwiseWalk_vertex {n : Nat} {V : Nat → Nat → Nat} (m : Manifold)
    (hinv : MatchInv n V m.m_triangles) (stop : Link) (v : Nat) :
    ∀ (fuel : Nat) (it : Link),
      (it = InvalidLink ∨ (ValidCorner n it ∧ V it.index ((it.side + 1) % 3) = v)) →
      ∀ x ∈ (trianglesAnticlockwiseWalk m stop fuel it).1,
        ValidCorner n x ∧ V x.index x.side = v := by
  intro fuel
  induction fuel with
  | zero =>
    intro it _ x hx
    rw [trianglesAnticlockwiseWalk] at hx
    split at hx <;> simp at hx
  | succ fuel ih =>
    intro it hit x hx
    rw [trianglesAnticlockwiseWalk] at hx
    by_cases hinvl : it = InvalidLink
    · simp [hinvl] at hx
    · rcases hit with hit | hit
      · exact absurd hit hinvl
      · simp only [if_neg hinvl] at hx
        have hitem : ValidCorner n (rotate it 1) ∧
            V (rotate it 1).index (rotate it 1).side = v :=
          ⟨⟨hit.1.1, Nat.mod_lt _ (by decide)⟩, hit.2⟩
        split at hx
        · simp only [List.mem_singleton] at hx
          rw [hx]
          exact hitem
        · obtain ⟨t, ht, hl, _⟩ := getElem?_of_lt_links m.m_triangles it.index
            (by rw [hinv.len]; exact hit.1.1)
          simp only [rotate, ht, List.mem_cons] at hx hitem
          rcases hx with hx | hx
          · rw [hx]
            exact hitem
          · refine ih _ ?_ x hx
            rw [← hl]
            rcases hinv.anticlockwise_step it.index it.side hit.1.1 with hc | hc
            · exact Or.inl hc
            · exact Or.inr ⟨hc.1, by rw [hc.2]; exact hit.2⟩

/-! ## How the visiting loops end -/

theorem rotate_ne_invalid (it : Link) (k : Nat) : rotate it k ≠ InvalidLink := by
  intro h
  have h2 : (rotate it k).side = InvalidLink.side := by rw [h]
  have h3 : (it.side + k) % 3 < 3 := Nat.mod_lt _ (by decide)
  simp only [rotate, InvalidLink] at h2
  omega

theorem trianglesClockwiseWalk_exit (m : Manifold) (stop : Link) :
    ∀ (fuel : Nat) (it : Link),
      (trianglesClockwiseWalk m stop fuel it).2 = walkExit m 2 stop fuel it := by
  intro fuel
  induction fuel with
  | zero => intro it; rw [trianglesClockwiseWalk, walkExit]; split <;> rfl
  | succ fuel ih =>
    intro it
    rw [trianglesClockwiseWalk, walkExit]
    by_cases h1 : it = InvalidLink
    · simp [h1]
    · simp only [if_neg h1]
      by_cases h2 : rotate it 2 = stop
      · simp [h2]
      · simp only [if_neg h2]
        cases ht : m.m_triangles[(rotate it 2).index]? with
        | none => rfl
        | some t => exact ih _

theorem clockwiseTail_exit (m : Manifold) :
    ∀ (fuel : Nat) (it : Link),
      (clockwiseTail m fuel it).2 = walkExit m 1 InvalidLink fuel it := by
  intro fuel
  induction fuel with
  | zero => intro it; rw [clockwiseTail, walkExit]; split <;> rfl
  | succ fuel ih =>
    intro it
    rw [clockwiseTail, walkExit]
    by_cases h1 : it = InvalidLink
    · simp [h1]
    · simp only [if_neg h1, if_neg (rotate_ne_invalid it 1)]
      cases ht : m.m_triangles[(rotate it 1).index]? with
      | none => rfl
      | some t => exact ih _

theorem trianglesAnticlockwiseWalk_exit (m : Manifold) (stop : Link) :
    ∀ (fuel : Nat) (it : Link),
      (trianglesAnticlockwiseWalk m stop fuel it).2 = walkExit m 1 stop fuel it := by
  intro fuel
  induction fuel with
  | zero => intro it; rw [trianglesAnticlockwiseWalk, walkExit]; split <;> rfl
  | succ fuel ih =>
    intro it
    rw [trianglesAnticlockwiseWalk, walkExit]
    by_cases h1 : it = InvalidLink
    · simp [h1]
    · simp only [if_neg h1]
      by_cases h2 : rotate it 1 = stop
      · simp [h2]
      · simp only [if_neg h2]
        cases ht : m.m_triangles[(rotate it 1).index]? with
        | none => rfl
        | some t => exact ih _

theorem trianglesAnticlockwiseTail_exit (m : Manifold) :
    ∀ (fuel : Nat) (it : Link),
      (trianglesAnticlockwiseTail m fuel it).2 = walkExit m 2 InvalidLink fuel it := by
  intro fuel
  induction fuel with
  | zero => intro it; rw [trianglesAnticlockwiseTail, walkExit]; split <;> rfl
  | succ fuel ih =>
    intro it
    rw [trianglesAnticlockwiseTail, walkExit]
    by_cases h1 : it = InvalidLink
    · simp [h1]
    · simp only [if_neg h1, if_neg (rotate_ne_invalid it 2)]
      cases ht : m.m_triangles[(rotate it 2).index]? with
      | none => rfl
      | some t => exact ih _

theorem edgesAnticlockwiseTail_exit (m : Manifold) :
    ∀ (fuel : Nat) (it : Link),
      (edgesAnticlockwiseTail m fuel it).2 = walkExit m 2 InvalidLink fuel it := by
  intro fuel
  induction fuel with
  | zero => intro it; rw [edgesAnticlockwiseTail, walkExit]; split <;> rfl
  | succ fuel ih =>
    intro it
    rw [edgesAnticlockwiseTail, walkExit]
    by_cases h1 : it = InvalidLink
    · simp [h1]
    · simp only [if_neg h1, if_neg (rotate_ne_invalid it 2)]
      cases ht : m.m_triangles[(rotate it 2).index]? with
      | none => rfl
      | some t => exact ih _

theorem walkExit_invalid (m : Manifold) (k : Nat) (stop : Link) (fuel : Nat) :
    walkExit m k stop fuel InvalidLink = .done := by
  cases fuel <;> simp [walkExit]

theorem edgesWalk_exit (m : Manifold) (k : Nat) (stop : Link) :
    ∀ (fuel : Nat) (it : Link), it ≠ InvalidLink →
      (edgesWalk m k stop fuel it).2 = walkExit m k stop fuel it := by
  intro fuel
  induction fuel with
  | zero => intro it h; rw [edgesWalk, walkExit, if_neg h]
  | succ fuel ih =>
    intro it h1
    rw [edgesWalk, walkExit]
    simp only [if_neg h1]
    by_cases h2 : rotate it k = stop
    · simp [h2]
    · simp only [if_neg h2]
      cases ht : m.m_triangles[(rotate it k).index]? with
      | none => rfl
      | some t =>
        simp only
        by_cases h3 : t.link (rotate it k).side = InvalidLink
        · rw [if_pos h3, h3, walkExit_invalid]
        · rw [if_neg h3]
          exact ih _ h3

theorem edgesHead_exit (m : Manifold) (k : Nat) (start stop : Link) (fuel : Nat) :
    (edgesHead m k start stop fuel).2 = walkExit m k stop fuel start := by
  unfold edgesHead
  by_cases h : start = InvalidLink
  · rw [if_pos h, h, walkExit_invalid]
  · rw [if_neg h]
    exact edgesWalk_exit m k stop fuel start h

theorem walkExit_sentinel (m : Manifold) (k : Nat) :
    ∀ (fuel : Nat) (it : Link) (b : Bool), walkExit m k InvalidLink fuel it ≠ .returned b := by
  intro fuel
  induction fuel with
  | zero => intro it b; rw [walkExit]; split <;> simp
  | succ fuel ih =>
    intro it b
    rw [walkExit]
    by_cases h1 : it = InvalidLink
    · simp [h1]
    · simp only [if_neg h1, if_neg (rotate_ne_invalid it k)]
      cases ht : m.m_triangles[(rotate it k).index]? with
      | none => simp
      | some t => exact ih _ b

theorem visitTwoPhase_false (first second : List Link × LoopExit)
    (h1 : first.2 ≠ .returned true) (h2 : ∀ b, second.2 ≠ .returned b) (b : Bool)
    (h : (visitTwoPhase first second).2 = .returned b) : b = false := by
  unfold visitTwoPhase at h
  cases hf : first.2 with
  | returned c =>
    rw [hf] at h h1
    simp only [Outcome.returned.injEq] at h
    cases c
    · exact h.symm
    · exact absurd rfl h1
  | fault f => rw [hf] at h; simp at h
  | done =>
    rw [hf] at h
    cases hs : second.2 with
    | returned c => exact absurd hs (h2 c)
    | fault f => rw [hs] at h; simp at h
    | done =>
      rw [hs] at h
      simp only [Outcome.returned.injEq] at h
      exact h.symm

theorem visitTwoPhase_skip (second : List Link × LoopExit) :
    (visitTwoPhase ([], .done) second).1 = second.1 := by
  unfold visitTwoPhase
  cases hs : second.2 <;> simp

theorem trianglesClockwiseWalk_invalid (m : Manifold) (stop : Link) (fuel : Nat) :
    trianglesClockwiseWalk m stop fuel InvalidLink = ([], .done) := by
  cases fuel <;> simp [trianglesClockwiseWalk]

theorem trianglesAnticlockwiseWalk_invalid (m : Manifold) (stop : Link) (fuel : Nat) :
    trianglesAnticlockwiseWalk m stop fuel InvalidLink = ([], .done) := by
  cases fuel <;> simp [trianglesAnticlockwiseWalk]

theorem edgesHead_invalid (m : Manifold) (k : Nat) (stop : Link) (fuel : Nat) :
    edgesHead m k InvalidLink stop fuel = ([], .done) := by
  simp [edgesHead]


theorem visitTwoPhase_head (first second : List Link × LoopExit) (x : Link)
    (h : first.1.head? = some x) : (visitTwoPhase first second).1.head? = some x := by
  rcases visitTwoPhase_items first second with e | ⟨_, e⟩
  · rw [e]; exact h
  · rw [e]
    cases hf : first.1 with
    | nil => rw [hf] at h; simp at h
    | cons a l => rw [hf] at h; simpa using h

theorem edgesHead_head (m : Manifold) (k : Nat) (start stop : Link) (fuel : Nat)
    (h : start ≠ InvalidLink) : (edgesHead m k start stop fuel).1.head? = some start := by
  simp [edgesHead, h]

theorem trianglesClockwiseWalk_head (m : Manifold) (start stop : Link) (fuel : Nat)
    (h : start ≠ InvalidLink) :
    (trianglesClockwiseWalk m stop (fuel + 1) start).1.head? = some start := by
  rw [trianglesClockwiseWalk, if_neg h]
  simp only
  split
  · rfl
  · split <;> rfl

theorem trianglesAnticlockwiseWalk_head (m : Manifold) (start stop : Link) (fuel : Nat)
    (h : start ≠ InvalidLink) :
    (trianglesAnticlockwiseWalk m stop (fuel + 1) start).1.head? = some (rotate start 1) := by
  rw [trianglesAnticlockwiseWalk, if_neg h]
  simp only
  split
  · rfl
  · split <;> rfl

theorem rotate_one_ne (it : Link) : rotate it 1 ≠ it := by
  intro h
  have h2 : (rotate it 1).side = it.side := by rw [h]
  simp only [rotate] at h2
  omega
theorem walkExit_returned (m : Manifold) (k : Nat) (stop : Link) :
    ∀ (fuel : Nat) (it : Link), walkExit m k stop fuel it ≠ .returned false := by
  intro fuel
  induction fuel with
  | zero => intro it; rw [walkExit]; split <;> simp
  | succ fuel ih =>
    intro it
    rw [walkExit]
    by_cases h1 : it = InvalidLink
    · simp [h1]
    · simp only [if_neg h1]
      by_cases h2 : rotate it k = stop
      · simp [h2]
      · simp only [if_neg h2]
        cases ht : m.m_triangles[(rotate it k).index]? with
        | none => simp
        | some t => exact ih _

/-- The `do ... while` loop of `visitEdgesClockwise` calls the visitor once less than
the first loop of `visitTrianglesClockwise` when it ends by returning, and as often when
it ends through its condition. -/
theorem edgesWalk_length_clockwise (m : Manifold) (stop : Link) :
    ∀ (fuel : Nat) (it : Link), it ≠ InvalidLink →
      ((edgesWalk m 2 stop fuel it).2 = .returned true →
        (edgesWalk m 2 stop fuel it).1.length + 1 =
          (trianglesClockwiseWalk m stop fuel it).1.length) ∧
      ((edgesWalk m 2 stop fuel it).2 = .done →
        (edgesWalk m 2 stop fuel it).1.length =
          (trianglesClockwiseWalk m stop fuel it).1.length) := by
  intro fuel
  induction fuel with
  | zero => intro it h; rw [edgesWalk]; simp
  | succ fuel ih =>
    intro it h1
    rw [edgesWalk, trianglesClockwiseWalk]
    simp only [if_neg h1]
    by_cases h2 : rotate it 2 = stop
    · simp [h2]
    · simp only [if_neg h2]
      cases ht : m.m_triangles[(rotate it 2).index]? with
      | none => simp
      | some t =>
        simp only
        by_cases h3 : t.link (rotate it 2).side = InvalidLink
        · rw [if_pos h3, h3, trianglesClockwiseWalk_invalid]
          simp
        · rw [if_neg h3]
          have := ih _ h3
          simpa using this

/-- The same for the loop of `visitEdgesAnticlockwise` and the first loop of
`visitTrianglesAnticlockwise`. -/
theorem edgesWalk_length_anticlockwise (m : Manifold) (stop : Link) :
    ∀ (fuel : Nat) (it : Link), it ≠ InvalidLink →
      ((edgesWalk m 1 stop fuel it).2 = .returned true →
        (edgesWalk m 1 stop fuel it).1.length + 1 =
          (trianglesAnticlockwiseWalk m stop fuel it).1.length) ∧
      ((edgesWalk m 1 stop fuel it).2 = .done →
        (edgesWalk m 1 stop fuel it).1.length =
          (trianglesAnticlockwiseWalk m stop fuel it).1.length) := by
  intro fuel
  induction fuel with
  | zero => intro it h; rw [edgesWalk]; simp
  | succ fuel ih =>
    intro it h1
    rw [edgesWalk, trianglesAnticlockwiseWalk]
    simp only [if_neg h1]
    by_cases h2 : rotate it 1 = stop
    · simp [h2]
    · simp only [if_neg h2]
      cases ht : m.m_triangles[(rotate it 1).index]? with
      | none => simp
      | some t =>
        simp only
        by_cases h3 : t.link (rotate it 1).side = InvalidLink
        · rw [if_pos h3, h3, trianglesAnticlockwiseWalk_invalid]
          simp
        · rw [if_neg h3]
          have := ih _ h3
          simpa using this

theorem anticlockwiseTail_length (m : Manifold) :
    ∀ (fuel : Nat) (it : Link),
      (edgesAnticlockwiseTail m fuel it).1.length =
        (trianglesAnticlockwiseTail m fuel it).1.length := by
  intro fuel
  induction fuel with
  | zero => intro it; rw [edgesAnticlockwiseTail, trianglesAnticlockwiseTail]
  | succ fuel ih =>
    intro it
    rw [edgesAnticlockwiseTail, trianglesAnticlockwiseTail]
    by_cases h1 : it = InvalidLink
    · simp [h1]
    · simp only [if_neg h1]
      cases ht : m.m_triangles[(rotate it 2).index]? with
      | none => simp
      | some t => simpa using ih _

/-- Two runs of two loops each that end alike, the first loop of the one passing
one link more than that of the other unless it ends by returning. -/
theorem visitTwoPhase_compare (fe ft se st : List Link × LoopExit)
    (h1 : fe.2 = ft.2) (h2 : se.2 = st.2) (h3 : se.1.length = st.1.length)
    (h4 : ft.2 = .returned true → fe.1.length = ft.1.length)
    (h5 : ft.2 = .done → fe.1.length = ft.1.length + 1)
    (h6 : ft.2 ≠ .returned false) (h7 : ∀ b, st.2 ≠ .returned b) :
    (visitTwoPhase fe se).2 = (visitTwoPhase ft st).2 ∧
    ((visitTwoPhase ft st).2 = .returned true →
      (visitTwoPhase fe se).1.length = (visitTwoPhase ft st).1.length) ∧
    ((visitTwoPhase ft st).2 = .returned false →
      (visitTwoPhase fe se).1.length = (visitTwoPhase ft st).1.length + 1) := by
  unfold visitTwoPhase
  rw [h1, h2]
  cases hf : ft.2 with
  | returned b =>
    cases b
    · exact absurd hf h6
    · exact ⟨rfl, fun _ => h4 hf, fun h => by simp at h⟩
  | fault f => simp
  | done =>
    cases hs : st.2 with
    | returned b => exact absurd hs (h7 b)
    | fault f => simp
    | done =>
      simp only [List.length_append, true_and]
      refine ⟨fun h => by simp at h, fun _ => ?_⟩
      rw [h5 hf, h3]
      omega
/-! ## More steps do not change a loop that has ended -/

theorem trianglesClockwiseWalk_succ (m : Manifold) (stop : Link) :
    ∀ (fuel : Nat) (it : Link),
      (trianglesClockwiseWalk m stop fuel it).2 ≠ .fault .outOfFuel →
      trianglesClockwiseWalk m stop (fuel + 1) it = trianglesClockwiseWalk m stop fuel it := by
  intro fuel
  induction fuel with
  | zero =>
    intro it h
    rw [trianglesClockwiseWalk] at h
    by_cases h1 : it = InvalidLink
    · rw [h1, trianglesClockwiseWalk_invalid, trianglesClockwiseWalk_invalid]
    · simp [h1] at h
  | succ fuel ih =>
    intro it h
    rw [trianglesClockwiseWalk] at h
    rw [trianglesClockwiseWalk, trianglesClockwiseWalk.eq_def m stop (fuel + 1) it]
    by_cases h1 : it = InvalidLink
    · simp [h1]
    · simp only [if_neg h1] at h ⊢
      by_cases h2 : rotate it 2 = stop
      · simp [h2]
      · simp only [if_neg h2] at h ⊢
        cases ht : m.m_triangles[(rotate it 2).index]? with
        | none => rfl
        | some t =>
          rw [ht] at h
          simp only at h ⊢
          rw [ih _ h]

theorem trianglesAnticlockwiseWalk_succ (m : Manifold) (stop : Link) :
    ∀ (fuel : Nat) (it : Link),
      (trianglesAnticlockwiseWalk m stop fuel it).2 ≠ .fault .outOfFuel →
      trianglesAnticlockwiseWalk m stop (fuel + 1) it =
        trianglesAnticlockwiseWalk m stop fuel it := by
  intro fuel
  induction fuel with
  | zero =>
    intro it h
    rw [trianglesAnticlockwiseWalk] at h
    by_cases h1 : it = InvalidLink
    · rw [h1, trianglesAnticlockwiseWalk_invalid, trianglesAnticlockwiseWalk_invalid]
    · simp [h1] at h
  | succ fuel ih =>
    intro it h
    rw [trianglesAnticlockwiseWalk] at h
    rw [trianglesAnticlockwiseWalk, trianglesAnticlockwiseWalk.eq_def m stop (fuel + 1) it]
    by_cases h1 : it = InvalidLink
    · simp [h1]
    · simp only [if_neg h1] at h ⊢
      by_cases h2 : rotate it 1 = stop
      · simp [h2]
      · simp only [if_neg h2] at h ⊢
        cases ht : m.m_triangles[(rotate it 1).index]? with
        | none => rfl
        | some t =>
          rw [ht] at h
          simp only at h ⊢
          rw [ih _ h]

theorem clockwiseTail_invalid (m : Manifold) (fuel : Nat) :
    clockwiseTail m fuel InvalidLink = ([], .done) := by
  cases fuel <;> simp [clockwiseTail]

theorem clockwiseTail_succ (m : Manifold) :
    ∀ (fuel : Nat) (it : Link),
      (clockwiseTail m fuel it).2 ≠ .fault .outOfFuel →
      clockwiseTail m (fuel + 1) it = clockwiseTail m fuel it := by
  intro fuel
  induction fuel with
  | zero =>
    intro it h
    rw [clockwiseTail] at h
    by_cases h1 : it = InvalidLink
    · rw [h1, clockwiseTail_invalid, clockwiseTail_invalid]
    · simp [h1] at h
  | succ fuel ih =>
    intro it h
    rw [clockwiseTail] at h
    rw [clockwiseTail, clockwiseTail.eq_def m (fuel + 1) it]
    by_cases h1 : it = InvalidLink
    · simp [h1]
    · simp only [if_neg h1] at h ⊢
      cases ht : m.m_triangles[(rotate it 1).index]? with
      | none => rfl
      | some t =>
        rw [ht] at h
        simp only at h ⊢
        rw [ih _ h]

theorem trianglesAnticlockwiseTail_invalid (m : Manifold) (fuel : Nat) :
    trianglesAnticlockwiseTail m fuel InvalidLink = ([], .done) := by
  cases fuel <;> simp [trianglesAnticlockwiseTail]

theorem trianglesAnticlockwiseTail_succ (m : Manifold) :
    ∀ (fuel : Nat) (it : Link),
      (trianglesAnticlockwiseTail m fuel it).2 ≠ .fault .outOfFuel →
      trianglesAnticlockwiseTail m (fuel + 1) it = trianglesAnticlockwiseTail m fuel it := by
  intro fuel
  induction fuel with
  | zero =>
    intro it h
    rw [trianglesAnticlockwiseTail] at h
    by_cases h1 : it = InvalidLink
    · rw [h1, trianglesAnticlockwiseTail_invalid, trianglesAnticlockwiseTail_invalid]
    · simp [h1] at h
  | succ fuel ih =>
    intro it h
    rw [trianglesAnticlockwiseTail] at h
    rw [trianglesAnticlockwiseTail, trianglesAnticlockwiseTail.eq_def m (fuel + 1) it]
    by_cases h1 : it = InvalidLink
    · simp [h1]
    · simp only [if_neg h1] at h ⊢
      cases ht : m.m_triangles[(rotate it 2).index]? with
      | none => rfl
      | some t =>
        rw [ht] at h
        simp only at h ⊢
        rw [ih _ h]

theorem edgesAnticlockwiseTail_invalid (m : Manifold) (fuel : Nat) :
    edgesAnticlockwiseTail m fuel InvalidLink = ([], .done) := by
  cases fuel <;> simp [edgesAnticlockwiseTail]

theorem edgesAnticlockwiseTail_succ (m : Manifold) :
    ∀ (fuel : Nat) (it : Link),
      (edgesAnticlockwiseTail m fuel it).2 ≠ .fault .outOfFuel →
      edgesAnticlockwiseTail m (fuel + 1) it = edgesAnticlockwiseTail m fuel it := by
  intro fuel
  induction fuel with
  | zero =>
    intro it h
    rw [edgesAnticlockwiseTail] at h
    by_cases h1 : it = InvalidLink
    · rw [h1, edgesAnticlockwiseTail_invalid, edgesAnticlockwiseTail_invalid]
    · simp [h1] at h
  | succ fuel ih =>
    intro it h
    rw [edgesAnticlockwiseTail] at h
    rw [edgesAnticlockwiseTail, edgesAnticlockwiseTail.eq_def m (fuel + 1) it]
    by_cases h1 : it = InvalidLink
    · simp [h1]
    · simp only [if_neg h1] at h ⊢
      cases ht : m.m_triangles[(rotate it 2).index]? with
      | none => rfl
      | some t =>
        rw [ht] at h
        simp only at h ⊢
        rw [ih _ h]

theorem edgesWalk_succ (m : Manifold) (k : Nat) (stop : Link) :
    ∀ (fuel : Nat) (it : Link),
      (edgesWalk m k stop fuel it).2 ≠ .fault .outOfFuel →
      edgesWalk m k stop (fuel + 1) it = edgesWalk m k stop fuel it := by
  intro fuel
  induction fuel with
  | zero =>
    intro it h
    rw [edgesWalk] at h
    simp at h
  | succ fuel ih =>
    intro it h
    rw [edgesWalk] at h
    rw [edgesWalk, edgesWalk.eq_def m k stop (fuel + 1) it]
    simp only at h ⊢
    by_cases h2 : rotate it k = stop
    · simp [h2]
    · simp only [if_neg h2] at h ⊢
      cases ht : m.m_triangles[(rotate it k).index]? with
      | none => rfl
      | some t =>
        rw [ht] at h
        simp only at h ⊢
        by_cases h3 : t.link (rotate it k).side = InvalidLink
        · simp [h3]
        · simp only [if_neg h3] at h ⊢
          rw [ih _ h]

theorem edgesHead_succ (m : Manifold) (k : Nat) (start stop : Link) (fuel : Nat)
    (h : (edgesHead m k start stop fuel).2 ≠ .fault .outOfFuel) :
    edgesHead m k start stop (fuel + 1) = edgesHead m k start stop fuel := by
  unfold edgesHead at h ⊢
  by_cases h1 : start = InvalidLink
  · simp [h1]
  · simp only [if_neg h1] at h ⊢
    rw [edgesWalk_succ m k stop fuel start h]

/-- A loop that has ended within some budget of steps ends in the same way, after the
same calls of the visitor, within every greater budget. -/
theorem loop_add (F : Nat → Link → List Link × LoopExit)
    (hs : ∀ fuel it, (F fuel it).2 ≠ .fault .outOfFuel → F (fuel + 1) it = F fuel it)
    (fuel : Nat) (it : Link) (h : (F fuel it).2 ≠ .fault .outOfFuel) :
    ∀ d, F (fuel + d) it = F fuel it := by
  intro d
  induction d with
  | zero => rfl
  | succ d ih =>
    rw [← Nat.add_assoc, hs (fuel + d) it (by rw [ih]; exact h), ih]

theorem loop_le (F : Nat → Link → List Link × LoopExit)
    (hs : ∀ fuel it, (F fuel it).2 ≠ .fault .outOfFuel → F (fuel + 1) it = F fuel it)
    (fuel fuel2 : Nat) (it : Link) (h : (F fuel it).2 ≠ .fault .outOfFuel)
    (hle : fuel ≤ fuel2) : F fuel2 it = F fuel it := by
  obtain ⟨d, rfl⟩ : ∃ d, fuel2 = fuel + d := ⟨fuel2 - fuel, by omega⟩
  exact loop_add F hs fuel it h d

/-! ## Walking back along a clockwise walk -/

/-- Every link the first loop of `visitTrianglesClockwise` passes before it returns is
the start of a walk that returns within the same budget, after at most as many calls. -/
theorem trianglesClockwiseWalk_suffix (m : Manifold) (stop : Link) :
    ∀ (fuel : Nat) (it : Link) (L : List Link) (x : Link),
      trianglesClockwiseWalk m stop fuel it = (L, .returned true) → x ∈ L →
      ∃ f L2, f ≤ fuel ∧ trianglesClockwiseWalk m stop f x = (L2, .returned true) ∧
        L2.length ≤ L.length := by
  intro fuel
  induction fuel with
  | zero =>
    intro it L x h _
    rw [trianglesClockwiseWalk] at h
    split at h <;> simp at h
  | succ fuel ih =>
    intro it L x h hx
    have h0 := h
    rw [trianglesClockwiseWalk] at h
    by_cases h1 : it = InvalidLink
    · simp [h1] at h
    · simp only [if_neg h1] at h
      by_cases h2 : rotate it 2 = stop
      · simp only [if_pos h2, Prod.mk.injEq, and_true] at h
        rw [← h, List.mem_singleton] at hx
        rw [hx]
        exact ⟨fuel + 1, L, le_refl _, h0, le_refl _⟩
      · simp only [if_neg h2] at h
        cases ht : m.m_triangles[(rotate it 2).index]? with
        | none => rw [ht] at h; simp at h
        | some t =>
          rw [ht] at h
          simp only [Prod.mk.injEq] at h
          obtain ⟨hL, hr⟩ := h
          rw [← hL, List.mem_cons] at hx
          rcases hx with hx | hx
          · rw [hx]
            exact ⟨fuel + 1, L, le_refl _, h0, le_refl _⟩
          · obtain ⟨f, L2, hf, hw, hlen⟩ := ih _ _ x (Prod.ext rfl hr) hx
            refine ⟨f, L2, by omega, hw, ?_⟩
            rw [← hL, List.length_cons]
            exact Nat.le_trans hlen (Nat.le_succ _)

/-- The first loop of `visitTrianglesAnticlockwise`, which has returned at `s1`
without passing `b`, returns at `b` one step later when the link stored at `s1`, turned
by one side, is `b`. -/
theorem trianglesAnticlockwiseWalk_extend (m : Manifold) (s1 b : Link) (tri : Triangle)
    (ht : m.m_triangles[s1.index]? = some tri) (hne : tri.link s1.side ≠ InvalidLink)
    (hb : rotate (tri.link s1.side) 1 = b) :
    ∀ (fuel : Nat) (x : Link) (M : List Link),
      trianglesAnticlockwiseWalk m s1 fuel x = (M, .returned true) → b ∉ M →
      trianglesAnticlockwiseWalk m b (fuel + 1) x = (M ++ [b], .returned true) := by
  intro fuel
  induction fuel with
  | zero =>
    intro x M h _
    rw [trianglesAnticlockwiseWalk] at h
    split at h <;> simp at h
  | succ fuel ih =>
    intro x M h hM
    rw [trianglesAnticlockwiseWalk] at h
    rw [trianglesAnticlockwiseWalk]
    by_cases h1 : x = InvalidLink
    · simp [h1] at h
    · simp only [if_neg h1] at h ⊢
      by_cases h2 : rotate x 1 = s1
      · simp only [if_pos h2, Prod.mk.injEq, and_true] at h
        rw [← h, List.mem_singleton] at hM
        have h3 : rotate x 1 ≠ b := fun e => hM e.symm
        rw [if_neg h3, h2, ht]
        simp only
        rw [trianglesAnticlockwiseWalk, if_neg hne]
        simp only [hb, if_true]
        rw [← h, h2]
        rfl
      · simp only [if_neg h2] at h
        cases hx : m.m_triangles[(rotate x 1).index]? with
        | none => rw [hx] at h; simp at h
        | some t =>
          rw [hx] at h
          simp only [Prod.mk.injEq] at h
          obtain ⟨hL, hr⟩ := h
          rw [← hL, List.mem_cons, not_or] at hM
          have h3 : rotate x 1 ≠ b := fun e => hM.1 e.symm
          rw [if_neg h3]
          simp only
          rw [ih _ _ (Prod.ext rfl hr) hM.2, ← hL]
          rfl

theorem rotate_rotate (it : Link) (hs : it.side < 3) : rotate (rotate it 2) 1 = it := by
  cases it with
  | mk i s =>
    simp only [rotate, Link.mk.injEq, true_and]
    simp only at hs
    omega

/-- Duality of the first loops: when the clockwise walk from `b` returns at `a`, the
anticlockwise walk from `a` returns at `b` within the same budget and passes the same
links in reverse order. -/
theorem trianglesClockwiseWalk_reverse {n : Nat} {V : Nat → Nat → Nat} (m : Manifold)
    (hinv : MatchInv n V m.m_triangles) (a : Link) :
    ∀ (fuel : Nat) (b : Link) (L : List Link), ValidCorner n b →
      trianglesClockwiseWalk m a fuel b = (L, .returned true) →
      trianglesAnticlockwiseWalk m b fuel a = (L.reverse, .returned true) := by
  intro fuel
  induction fuel with
  | zero =>
    intro b L _ h
    rw [trianglesClockwiseWalk] at h
    split at h <;> simp at h
  | succ fuel ih =>
    intro b L hb h
    have h0 := h
    rw [trianglesClockwiseWalk] at h
    by_cases h1 : b = InvalidLink
    · simp [h1] at h
    · simp only [if_neg h1] at h
      by_cases h2 : rotate b 2 = a
      · simp only [if_pos h2, Prod.mk.injEq, and_true] at h
        rw [trianglesAnticlockwiseWalk, if_neg (by rw [← h2]; exact rotate_ne_invalid b 2)]
        have h3 : rotate a 1 = b := by rw [← h2]; exact rotate_rotate b hb.2
        simp only [h3, if_true]
        rw [← h]
        rfl
      · simp only [if_neg h2] at h
        obtain ⟨t, ht, hl, _⟩ := getElem?_of_lt_links m.m_triangles b.index
          (by rw [hinv.len]; exact hb.1)
        have ht2 : m.m_triangles[(rotate b 2).index]? = some t := ht
        rw [ht2] at h
        simp only [Prod.mk.injEq] at h
        obtain ⟨hL, hr⟩ := h
        have hp : t.link (rotate b 2).side ≠ InvalidLink := by
          intro e
          rw [e, trianglesClockwiseWalk_invalid] at hr
          simp at hr
        have hlk : linkAt m.m_triangles b.index ((b.side + 2) % 3) = t.link (rotate b 2).side :=
          hl _
        obtain ⟨q1, q2, q3, _, _⟩ := hinv.links b.index ((b.side + 2) % 3) hb.1
          (Nat.mod_lt _ (by decide)) (by rw [hlk]; exact hp)
        rw [hlk] at q1 q2 q3
        have hrec := ih _ _ ⟨q1, q2⟩ (Prod.ext rfl hr)
        obtain ⟨t2, ht2', hl2, _⟩ := getElem?_of_lt_links m.m_triangles
          (t.link (rotate b 2).side).index (by rw [hinv.len]; exact q1)
        have hback : t2.link (t.link (rotate b 2).side).side = rotate b 2 := by
          rw [← hl2, q3]; rfl
        have hnot : b ∉ (trianglesClockwiseWalk m a fuel (t.link (rotate b 2).side)).1 := by
          intro hmem
          obtain ⟨f, L2, hf, hw, hlen⟩ := trianglesClockwiseWalk_suffix m a fuel _ _ b
            (Prod.ext rfl hr) hmem
          have hmono := loop_le (trianglesClockwiseWalk m a)
            (trianglesClockwiseWalk_succ m a) f (fuel + 1) b (by rw [hw]; simp) (by omega)
          rw [h0, hw] at hmono
          have hlen2 : L2.length =
              (trianglesClockwiseWalk m a fuel (t.link (rotate b 2).side)).1.length + 1 := by
            rw [← (Prod.mk.inj hmono).1, ← hL]
            rfl
          rw [hlen2] at hlen
          exact Nat.not_succ_le_self _ hlen
        have hext := trianglesAnticlockwiseWalk_extend m (t.link (rotate b 2).side) b t2 ht2'
          (by rw [hback]; exact rotate_ne_invalid b 2)
          (by rw [hback]; exact rotate_rotate b hb.2) fuel a _ hrec
          (by rw [List.mem_reverse]; exact hnot)
        rw [hext, ← hL, List.reverse_cons]

theorem visitTwoPhase_true (first second : List Link × LoopExit) (L : List Link)
    (h : visitTwoPhase first second = (L, .returned true))
    (h2 : ∀ b, second.2 ≠ .returned b) : first = (L, .returned true) := by
  unfold visitTwoPhase at h
  cases hf : first.2 with
  | returned c =>
    rw [hf] at h
    simp only [Prod.mk.injEq, Outcome.returned.injEq] at h
    exact Prod.ext h.1 (by rw [hf, h.2])
  | fault f => rw [hf] at h; simp at h
  | done =>
    rw [hf] at h
    cases hs : second.2 with
    | returned c => exact absurd hs (h2 c)
    | fault f => rw [hs] at h; simp at h
    | done => rw [hs] at h; simp at h

/-! ## The edge visits along the triangle visits -/

/-- When the loop of `visitEdgesClockwise` returns, the first loop of
`visitTrianglesClockwise` returns too, and the links it passes after the first are the
links stored at the sides the edge visit has passed. -/
theorem edgesWalk_clockwise_triangles (m : Manifold) (stop : Link) :
    ∀ (fuel : Nat) (it : Link) (E : List Link), it ≠ InvalidLink →
      edgesWalk m 2 stop fuel it = (E, .returned true) →
      trianglesClockwiseWalk m stop fuel it =
        (it :: E.map (fun l => linkAt m.m_triangles l.index l.side), .returned true) := by
  intro fuel
  induction fuel with
  | zero =>
    intro it E _ h
    rw [edgesWalk] at h
    simp at h
  | succ fuel ih =>
    intro it E h1 h
    rw [edgesWalk] at h
    rw [trianglesClockwiseWalk, if_neg h1]
    simp only at h ⊢
    by_cases h2 : rotate it 2 = stop
    · simp only [if_pos h2, Prod.mk.injEq, and_true] at h
      rw [if_pos h2, ← h]
      rfl
    · simp only [if_neg h2] at h ⊢
      cases ht : m.m_triangles[(rotate it 2).index]? with
      | none => rw [ht] at h; simp at h
      | some t =>
        rw [ht] at h
        simp only at h ⊢
        by_cases h3 : t.link (rotate it 2).side = InvalidLink
        · simp [h3] at h
        · simp only [if_neg h3, Prod.mk.injEq] at h
          obtain ⟨hE, hr⟩ := h
          rw [ih _ _ h3 (Prod.ext rfl hr), ← hE]
          simp only [List.map_cons, linkAt_of_getElem? ht]

/-- When the first loop of `visitTrianglesAnticlockwise` returns, the loop of
`visitEdgesAnticlockwise` returns too, having passed the same links but the last. -/
theorem trianglesAnticlockwiseWalk_edges (m : Manifold) (stop : Link) :
    ∀ (fuel : Nat) (it : Link) (T : List Link), it ≠ InvalidLink →
      trianglesAnticlockwiseWalk m stop fuel it = (T, .returned true) →
      T ≠ [] ∧ edgesWalk m 1 stop fuel it = (T.dropLast, .returned true) := by
  intro fuel
  induction fuel with
  | zero =>
    intro it T _ h
    rw [trianglesAnticlockwiseWalk] at h
    split at h <;> simp at h
  | succ fuel ih =>
    intro it T h1 h
    rw [trianglesAnticlockwiseWalk, if_neg h1] at h
    rw [edgesWalk]
    simp only at h ⊢
    by_cases h2 : rotate it 1 = stop
    · simp only [if_pos h2, Prod.mk.injEq, and_true] at h
      rw [if_pos h2, ← h]
      exact ⟨by simp, rfl⟩
    · simp only [if_neg h2] at h ⊢
      cases ht : m.m_triangles[(rotate it 1).index]? with
      | none => rw [ht] at h; simp at h
      | some t =>
        rw [ht] at h
        simp only [Prod.mk.injEq] at h ⊢
        obtain ⟨hT, hr⟩ := h
        have h3 : t.link (rotate it 1).side ≠ InvalidLink := by
          intro e
          rw [e, trianglesAnticlockwiseWalk_invalid] at hr
          simp at hr
        obtain ⟨hne, hrec⟩ := ih _ _ h3 (Prod.ext rfl hr)
        rw [if_neg h3, hrec, ← hT]
        exact ⟨by simp, by rw [List.dropLast_cons_of_ne_nil hne]⟩

/-! ## A visiting loop ends within `3 n + 1` steps or never -/

theorem walkExit_succ (m : Manifold) (k : Nat) (stop : Link) :
    ∀ (fuel : Nat) (it : Link), walkExit m k stop fuel it ≠ .fault .outOfFuel →
      walkExit m k stop (fuel + 1) it = walkExit m k stop fuel it := by
  intro fuel
  induction fuel with
  | zero =>
    intro it h
    rw [walkExit] at h
    by_cases h1 : it = InvalidLink
    · rw [h1, walkExit_invalid, walkExit_invalid]
    · simp [h1] at h
  | succ fuel ih =>
    intro it h
    rw [walkExit] at h
    rw [walkExit, walkExit.eq_def m k stop (fuel + 1) it]
    by_cases h1 : it = InvalidLink
    · simp [h1]
    · simp only [if_neg h1] at h ⊢
      by_cases h2 : rotate it k = stop
      · simp [h2]
      · simp only [if_neg h2] at h ⊢
        cases ht : m.m_triangles[(rotate it k).index]? with
        | none => rfl
        | some t =>
          rw [ht] at h
          simp only at h ⊢
          rw [ih _ h]

theorem walkExit_le (m : Manifold) (k : Nat) (stop : Link) (fuel fuel2 : Nat) (it : Link)
    (h : walkExit m k stop fuel it ≠ .fault .outOfFuel) (hle : fuel ≤ fuel2) :
    walkExit m k stop fuel2 it = walkExit m k stop fuel it := by
  obtain ⟨d, rfl⟩ : ∃ d, fuel2 = fuel + d := ⟨fuel2 - fuel, by omega⟩
  induction d with
  | zero => rfl
  | succ d ih =>
    rw [← Nat.add_assoc, walkExit_succ m k stop (fuel + d) it (by rw [ih (by omega)]; exact h),
      ih (by omega)]

/-- A list of distinct corners of `n` triangles has at most `3 n` members. -/
theorem length_le_of_valid (n : Nat) (A : List Link) (hnd : A.Nodup)
    (hv : ∀ a ∈ A, ValidCorner n a) : A.length ≤ 3 * n := by
  have hsub : A ⊆ cornersOf (List.range n) := by
    intro a ha
    rw [mem_cornersOf]
    exact ⟨by rw [List.mem_range]; exact (hv a ha).1, (hv a ha).2⟩
  have := (hnd.subperm hsub).length_le
  rw [length_cornersOf, List.length_range] at this
  exact this

/-- On a table whose links name sides of triangles, a loop started at a corner or at
the sentinel never reads outside the table. -/
theorem walkExit_inBounds {n : Nat} {V : Nat → Nat → Nat} (m : Manifold)
    (hinv : MatchInv n V m.m_triangles) (k : Nat) (stop : Link) :
    ∀ (fuel : Nat) (it : Link), (it = InvalidLink ∨ ValidCorner n it) →
      walkExit m k stop fuel it ≠ .fault .outOfBounds := by
  intro fuel
  induction fuel with
  | zero => intro it _; rw [walkExit]; split <;> simp
  | succ fuel ih =>
    intro it hit
    rw [walkExit]
    by_cases h1 : it = InvalidLink
    · simp [h1]
    · rcases hit with hit | hit
      · exact absurd hit h1
      · simp only [if_neg h1]
        by_cases h2 : rotate it k = stop
        · simp [h2]
        · simp only [if_neg h2]
          obtain ⟨t, ht, hl, _⟩ := getElem?_of_lt_links m.m_triangles it.index
            (by rw [hinv.len]; exact hit.1)
          have ht2 : m.m_triangles[(rotate it k).index]? = some t := ht
          rw [ht2]
          simp only
          refine ih _ ?_
          by_cases h3 : t.link (rotate it k).side = InvalidLink
          · exact Or.inl h3
          · have hlk : linkAt m.m_triangles it.index ((it.side + k) % 3) =
                t.link (rotate it k).side := hl _
            obtain ⟨q1, q2, _, _, _⟩ := hinv.links it.index ((it.side + k) % 3) hit.1
              (Nat.mod_lt _ (by decide)) (by rw [hlk]; exact h3)
            rw [hlk] at q1 q2
            exact Or.inr ⟨q1, q2⟩

/-- The corners from which a loop has not ended within `fuel` steps, together with
the steps a loop needs that ends in exactly `fuel` steps, number at most `3 n + 1`. -/
theorem walkExit_count {n : Nat} {V : Nat → Nat → Nat} (m : Manifold)
    (hinv : MatchInv n V m.m_triangles) (k : Nat) (stop : Link) :
    ∀ (fuel : Nat) (it : Link) (A : List Link), (it = InvalidLink ∨ ValidCorner n it) →
      A.Nodup → (∀ a ∈ A, ValidCorner n a) →
      (∀ a ∈ A, walkExit m k stop fuel a = .fault .outOfFuel) →
      walkExit m k stop fuel it ≠ .fault .outOfFuel →
      (∀ g, fuel = g + 1 → walkExit m k stop g it = .fault .outOfFuel) →
      fuel + A.length ≤ 3 * n + 1 := by
  intro fuel
  induction fuel with
  | zero =>
    intro it A _ hnd hv _ _ _
    have := length_le_of_valid n A hnd hv
    omega
  | succ fuel ih =>
    intro it A hit hnd hv hA hx hmin
    have hmin0 := hmin fuel rfl
    have h1 : it ≠ InvalidLink := by
      intro e
      rw [e, walkExit_invalid] at hmin0
      simp at hmin0
    have hvalid : ValidCorner n it := hit.resolve_left h1
    have hnotin : it ∉ A := fun hmem => hx (hA it hmem)
    have hlen := length_le_of_valid n (it :: A) (List.nodup_cons.mpr ⟨hnotin, hnd⟩)
      (fun a ha => by
        rcases List.mem_cons.mp ha with e | e
        · rw [e]; exact hvalid
        · exact hv a e)
    rw [List.length_cons] at hlen
    by_cases h2 : rotate it k = stop
    · cases fuel with
      | zero => omega
      | succ g =>
        rw [walkExit, if_neg h1, if_pos h2] at hmin0
        simp at hmin0
    · obtain ⟨t, ht, hl, _⟩ := getElem?_of_lt_links m.m_triangles it.index
        (by rw [hinv.len]; exact hvalid.1)
      have ht2 : m.m_triangles[(rotate it k).index]? = some t := ht
      have hstep : ∀ g, walkExit m k stop (g + 1) it =
          walkExit m k stop g (t.link (rotate it k).side) := by
        intro g
        rw [walkExit, if_neg h1, if_neg h2, ht2]
      have hnext : t.link (rotate it k).side = InvalidLink ∨
          ValidCorner n (t.link (rotate it k).side) := by
        by_cases h3 : t.link (rotate it k).side = InvalidLink
        · exact Or.inl h3
        · have hlk : linkAt m.m_triangles it.index ((it.side + k) % 3) =
              t.link (rotate it k).side := hl _
          obtain ⟨q1, q2, _, _, _⟩ := hinv.links it.index ((it.side + k) % 3) hvalid.1
            (Nat.mod_lt _ (by decide)) (by rw [hlk]; exact h3)
          rw [hlk] at q1 q2
          exact Or.inr ⟨q1, q2⟩
      have hrec := ih (t.link (rotate it k).side) (it :: A) hnext
        (List.nodup_cons.mpr ⟨hnotin, hnd⟩)
        (fun a ha => by
          rcases List.mem_cons.mp ha with e | e
          · rw [e]; exact hvalid
          · exact hv a e)
        (fun a ha => by
          rcases List.mem_cons.mp ha with e | e
          · rw [e]; exact hmin0
          · by_contra hne
            have := walkExit_succ m k stop fuel a hne
            rw [hA a e] at this
            exact hne this.symm)
        (by rw [← hstep]; exact hx)
        (fun g hg => by
          by_contra hne
          rw [hg, hstep] at hmin0
          exact hne hmin0)
      rw [List.length_cons] at hrec
      omega

/-- On a table whose links name sides of triangles, a loop started at a corner or at
the sentinel that ends at all ends within `3 n + 1` steps. -/
theorem walkExit_bound {n : Nat} {V : Nat → Nat → Nat} (m : Manifold)
    (hinv : MatchInv n V m.m_triangles) (k : Nat) (stop : Link) (fuel : Nat) (it : Link)
    (hit : it = InvalidLink ∨ ValidCorner n it)
    (h : walkExit m k stop fuel it ≠ .fault .outOfFuel) :
    walkExit m k stop (3 * n + 1) it ≠ .fault .outOfFuel := by
  have hmin : ∀ f, walkExit m k stop f it ≠ .fault .outOfFuel →
      ∃ f0, f0 ≤ f ∧ walkExit m k stop f0 it ≠ .fault .outOfFuel ∧
        ∀ g, f0 = g + 1 → walkExit m k stop g it = .fault .outOfFuel := by
    intro f
    induction f with
    | zero => intro h0; exact ⟨0, le_refl _, h0, fun g hg => by omega⟩
    | succ f ih =>
      intro h0
      by_cases hf : walkExit m k stop f it = .fault .outOfFuel
      · exact ⟨f + 1, le_refl _, h0, fun g hg => by
          have : g = f := by omega
          rw [this]; exact hf⟩
      · obtain ⟨f0, h1, h2, h3⟩ := ih hf
        exact ⟨f0, by omega, h2, h3⟩
  obtain ⟨f0, _, h2, h3⟩ := hmin fuel h
  have hc := walkExit_count m hinv k stop f0 it [] hit List.nodup_nil (by simp) (by simp) h2 h3
  simp only [List.length_nil, Nat.add_zero] at hc
  rw [walkExit_le m k stop f0 (3 * n + 1) it h2 hc]
  exact h2

/-- A loop that ends within some budget of steps whenever it ends within any gives,
within that budget, the result of every run that ends. -/
theorem loop_stable (F : Nat → Link → List Link × LoopExit)
    (hs : ∀ fuel it, (F fuel it).2 ≠ .fault .outOfFuel → F (fuel + 1) it = F fuel it)
    (N fuel : Nat) (it : Link)
    (hN : (F fuel it).2 ≠ .fault .outOfFuel → (F N it).2 ≠ .fault .outOfFuel)
    (h : (F fuel it).2 ≠ .fault .outOfFuel) : F N it = F fuel it := by
  rcases Nat.le_total fuel N with hle | hle
  · exact loop_le F hs fuel N it h hle
  · exact (loop_le F hs N fuel it (hN h) hle).symm

/-- Two loops in sequence, each of which gives within the budget `N` the result of
every run that ends and neither of which reads outside the table: so does the pair. -/
theorem visitTwoPhase_stable (F1 F2 : Nat → List Link × LoopExit) (N fuel : Nat)
    (a1 : (F1 fuel).2 ≠ .fault .outOfFuel → F1 N = F1 fuel)
    (a2 : (F2 fuel).2 ≠ .fault .outOfFuel → F2 N = F2 fuel)
    (b1 : (F1 fuel).2 ≠ .fault .outOfBounds) (b2 : (F2 fuel).2 ≠ .fault .outOfBounds) :
    (visitTwoPhase (F1 fuel) (F2 fuel)).2 ≠ .fault .outOfBounds ∧
    ∀ b, (visitTwoPhase (F1 fuel) (F2 fuel)).2 = .returned b →
      visitTwoPhase (F1 N) (F2 N) = visitTwoPhase (F1 fuel) (F2 fuel) := by
  cases h1 : (F1 fuel).2 with
  | returned c =>
    have e1 := a1 (by rw [h1]; simp)
    constructor
    · simp [visitTwoPhase, h1]
    · intro b _
      rw [e1]
      simp [visitTwoPhase, h1]
  | fault e =>
    constructor
    · simp only [visitTwoPhase, h1]
      intro hc
      rw [h1] at b1
      simp only [Outcome.fault.injEq] at hc
      rw [hc] at b1
      exact b1 rfl
    · intro b hb
      simp [visitTwoPhase, h1] at hb
  | done =>
    have e1 := a1 (by rw [h1]; simp)
    cases h2 : (F2 fuel).2 with
    | returned c =>
      have e2 := a2 (by rw [h2]; simp)
      constructor
      · simp [visitTwoPhase, h1, h2]
      · intro b _
        rw [e1, e2]
    | fault e =>
      constructor
      · simp only [visitTwoPhase, h1, h2]
        intro hc
        rw [h2] at b2
        simp only [Outcome.fault.injEq] at hc
        rw [hc] at b2
        exact b2 rfl
      · intro b hb
        simp [visitTwoPhase, h1, h2] at hb
    | done =>
      have e2 := a2 (by rw [h2]; simp)
      constructor
      · simp [visitTwoPhase, h1, h2]
      · intro b _
        rw [e1, e2]

/-- The first loop of `visitTrianglesClockwise` among corners none of which ends the
loop and each of which leads to another of them: the loop takes every step it is
allowed and calls the visitor in each. -/
theorem trianglesClockwiseWalk_cycle (m : Manifold) (stop : Link) (S : List Link)
    (hS : ∀ c ∈ S, c ≠ InvalidLink ∧ rotate c 2 ≠ stop ∧
      ∃ l ∈ S, nextClockwise m c = some l) :
    ∀ (fuel : Nat) (c : Link), c ∈ S →
      (trianglesClockwiseWalk m stop fuel c).2 = .fault .outOfFuel ∧
      (trianglesClockwiseWalk m stop fuel c).1.length = fuel := by
  intro fuel
  induction fuel with
  | zero =>
    intro c hc
    rw [trianglesClockwiseWalk, if_neg (hS c hc).1]
    exact ⟨rfl, rfl⟩
  | succ fuel ih =>
    intro c hc
    obtain ⟨h1, h2, l, hl, hn⟩ := hS c hc
    unfold nextClockwise at hn
    cases ht : m.m_triangles[c.index]? with
    | none => rw [ht] at hn; simp at hn
    | some t =>
      rw [ht] at hn
      simp only [Option.some.injEq] at hn
      have ht2 : m.m_triangles[(rotate c 2).index]? = some t := ht
      have hn2 : t.link (rotate c 2).side = l := hn
      rw [trianglesClockwiseWalk, if_neg h1]
      simp only [if_neg h2, ht2, hn2, List.length_cons]
      exact ⟨(ih l hl).1, by rw [(ih l hl).2]⟩

/-! ## The exact condition of failure -/

theorem LinkedBy.mono {n : Nat} {D D2 : Link → Link → Prop} {ts : List Triangle}
    (h : LinkedBy n D ts) (hsub : ∀ c1 c2, D c1 c2 → D2 c1 c2) : LinkedBy n D2 ts := by
  intro t s ht hs hne
  rcases h t s ht hs hne with e | e
  · exact Or.inl (hsub _ _ e)
  · exact Or.inr (hsub _ _ e)

/-- The links after a match of the corners `vr1` and `vr2`. -/
theorem LinkedBy.add_pair {n : Nat} {D D2 : Link → Link → Prop} {ts : List Triangle}
    (h : LinkedBy n D ts) (hlen : ts.length = n) (vr1 vr2 : Link) (h1 : ValidCorner n vr1)
    (h2 : ValidCorner n vr2) (hsub : ∀ c1 c2, D c1 c2 → D2 c1 c2) (hnew : D2 vr1 vr2) :
    LinkedBy n D2
      (writeLink (writeLink ts vr1.index vr1.side ⟨vr2.index, (vr2.side + 2) % 3⟩) vr2.index
        ((vr2.side + 2) % 3) ⟨vr1.index, vr1.side⟩) := by
  have hs2 : (vr2.side + 2) % 3 < 3 := Nat.mod_lt _ (by decide)
  have hread : ∀ t s, s < 3 →
      linkAt (writeLink (writeLink ts vr1.index vr1.side ⟨vr2.index, (vr2.side + 2) % 3⟩)
        vr2.index ((vr2.side + 2) % 3) ⟨vr1.index, vr1.side⟩) t s =
        if t = vr2.index ∧ s = (vr2.side + 2) % 3 then ⟨vr1.index, vr1.side⟩
        else if t = vr1.index ∧ s = vr1.side then ⟨vr2.index, (vr2.side + 2) % 3⟩
        else linkAt ts t s := by
    intro t s hs
    rw [linkAt_writeLink _ _ _ _ _ _ hs2 hs, length_writeLink,
      linkAt_writeLink _ _ _ _ _ _ h1.2 hs]
    have e1 : vr1.index < ts.length := by rw [hlen]; exact h1.1
    have e2 : vr2.index < ts.length := by rw [hlen]; exact h2.1
    simp only [e1, e2, and_true]
  have eta2 : (⟨vr2.index, ((vr2.side + 2) % 3 + 1) % 3⟩ : Link) = vr2 := by
    cases vr2 with
    | mk i s =>
      have := h2.2
      simp only [Link.mk.injEq, true_and] at this ⊢
      omega
  have eta1 : (⟨vr1.index, vr1.side⟩ : Link) = vr1 := rfl
  intro t s ht hs hne
  rw [hread t s hs] at hne ⊢
  by_cases c2 : t = vr2.index ∧ s = (vr2.side + 2) % 3
  · simp only [c2, and_self, if_true]
    right
    rw [eta2]
    exact hnew
  · simp only [c2, if_false] at hne ⊢
    by_cases c1 : t = vr1.index ∧ s = vr1.side
    · simp only [c1, and_self, if_true]
      left
      rw [eta2]
      exact hnew
    · simp only [c1, if_false] at hne ⊢
      exact (h.mono hsub) t s ht hs hne

/-- Two corners that match on a side that is already linked, met for the first time:
one of the two sides has two distinct opposite sides. -/
theorem twoOpposites_of_occupied {n : Nat} {V : Nat → Nat → Nat} {ts : List Triangle}
    (hinv : MatchInv n V ts) (D : Link → Link → Prop)
    (hD : ∀ c1 c2, D c1 c2 → c1.index ≤ c2.index ∧ c1 ≠ c2) (hL : LinkedBy n D ts)
    (vr1 vr2 : Link) (h1 : ValidCorner n vr1) (h2 : ValidCorner n vr2) (hne : vr1 ≠ vr2)
    (hle : vr1.index ≤ vr2.index) (hsame : V vr2.index vr2.side = V vr1.index vr1.side)
    (hmatch : V vr1.index ((vr1.side + 1) % 3) = V vr2.index ((vr2.side + 2) % 3))
    (hfresh : ¬ D vr1 vr2)
    (hocc : linkAt ts vr1.index vr1.side ≠ InvalidLink ∨
      linkAt ts vr2.index ((vr2.side + 2) % 3) ≠ InvalidLink) : TwoOpposites n V := by
  have hs2 : (vr2.side + 2) % 3 < 3 := Nat.mod_lt _ (by decide)
  have e2 : ((vr2.side + 2) % 3 + 1) % 3 = vr2.side := by
    have := h2.2
    omega
  have eta2 : (⟨vr2.index, ((vr2.side + 2) % 3 + 1) % 3⟩ : Link) = vr2 := by
    rw [e2]
  have hAB : linkAt ts vr1.index vr1.side ≠ ⟨vr2.index, (vr2.side + 2) % 3⟩ := by
    intro e
    rcases hL vr1.index vr1.side h1.1 h1.2 (by rw [e]; exact link_ne_invalid _ _ hs2) with d | d
    · rw [e] at d
      simp only [eta2] at d
      exact hfresh d
    · rw [e] at d
      obtain ⟨d1, d2⟩ := hD _ _ d
      simp only at d1
      have hidx : vr1.index = vr2.index := by omega
      have hside1 : vr1.side ≠ vr2.side := by
        intro es
        apply hne
        cases vr1; cases vr2
        simp only [Link.mk.injEq] at hidx es ⊢
        exact ⟨hidx, es⟩
      have hside2 : (vr2.side + 2) % 3 ≠ (vr1.side + 1) % 3 := by
        intro es
        apply d2
        rw [hidx, es]
      have hA : vr1.side = (vr2.side + 2) % 3 := by
        have := h1.2
        have := h2.2
        omega
      have hB : (vr1.side + 1) % 3 = vr2.side := by
        have := h2.2
        omega
      apply hfresh
      have e3 : (⟨vr2.index, (vr2.side + 2) % 3⟩ : Link) = vr1 := by
        rw [← hidx, ← hA]
      have e4 : (⟨vr1.index, (vr1.side + 1) % 3⟩ : Link) = vr2 := by
        rw [hidx, hB]
      rw [e3, e4] at d
      exact d
  rcases hocc with ho | ho
  · obtain ⟨q1, q2, _, q4, q5⟩ := hinv.links vr1.index vr1.side h1.1 h1.2 ho
    refine ⟨vr1, linkAt ts vr1.index vr1.side, ⟨vr2.index, (vr2.side + 2) % 3⟩, h1, ⟨q1, q2⟩,
      ⟨h2.1, hs2⟩, hAB, ⟨q5.symm, q4.symm⟩, ?_, hmatch⟩
    simp only [e2]
    exact hsame.symm
  · obtain ⟨q1, q2, q3, q4, q5⟩ := hinv.links vr2.index ((vr2.side + 2) % 3) h2.1 hs2 ho
    have hne2 : linkAt ts vr2.index ((vr2.side + 2) % 3) ≠ vr1 := by
      intro e
      rw [e] at q3
      exact hAB q3
    refine ⟨⟨vr2.index, (vr2.side + 2) % 3⟩, linkAt ts vr2.index ((vr2.side + 2) % 3), vr1,
      ⟨h2.1, hs2⟩, ⟨q1, q2⟩, h1, hne2, ⟨q5.symm, q4.symm⟩, hmatch.symm, ?_⟩
    simp only [e2]
    exact hsame

/-- The loop over `k2` for the corner `vr1`, met with none of the corners of the list
before: left without `return false`, it has written links for `vr1` and corners of
the list only; left with `return false`, some side has two distinct opposite sides. -/
theorem matchInner_linkedBy {n : Nat} {V : Nat → Nat → Nat} (vr1 : Link) (k1 : Nat)
    (h1 : ValidCorner n vr1) :
    ∀ (adj : List Link) (k2 : Nat) (ts : List Triangle) (r : Bool) (ts1 : List Triangle)
      (D : Link → Link → Prop),
      (∀ c ∈ adj, ValidCorner n c ∧ V c.index c.side = V vr1.index vr1.side) →
      adj.Nodup →
      (∀ (j : Nat) (c : Link), adj[j]? = some c → k1 ≠ k2 + j → c ≠ vr1) →
      MatchInv n V ts → (∀ c1 c2, D c1 c2 → c1.index ≤ c2.index ∧ c1 ≠ c2) →
      LinkedBy n D ts → (∀ c ∈ adj, ¬ D vr1 c) →
      matchInner vr1 k1 (V vr1.index ((vr1.side + 1) % 3)) vr1.side k2 adj ts = .ok (r, ts1) →
      (r = true → LinkedBy n
        (fun c1 c2 => D c1 c2 ∨ (c1 = vr1 ∧ c2 ∈ adj ∧ c1.index ≤ c2.index ∧ c1 ≠ c2)) ts1) ∧
      (r = false → TwoOpposites n V) := by
  intro adj
  induction adj with
  | nil =>
    intro k2 ts r ts1 D _ _ _ _ _ hL _ h
    simp only [matchInner, Except.ok.injEq, Prod.mk.injEq] at h
    rw [← h.1, ← h.2]
    exact ⟨fun _ => hL.mono (fun _ _ d => Or.inl d), fun e => by simp at e⟩
  | cons vr2 rest ih =>
    intro k2 ts r ts1 D hadj hnd hpos hinv hD hL hfresh h
    have hv2 := (hadj vr2 (List.mem_cons_self _ _)).1
    have hvv := (hadj vr2 (List.mem_cons_self _ _)).2
    have hrest : ∀ c ∈ rest, ValidCorner n c ∧ V c.index c.side = V vr1.index vr1.side :=
      fun c hc => hadj c (List.mem_cons_of_mem _ hc)
    have hnd2 := List.nodup_cons.mp hnd
    have hpos2 : ∀ (j : Nat) (c : Link), rest[j]? = some c → k1 ≠ k2 + 1 + j → c ≠ vr1 :=
      fun j c hj hk => hpos (j + 1) c (by simpa using hj) (by omega)
    have hlen := hinv.len
    have widen : ∀ (D1 : Link → Link → Prop),
        (∀ c1 c2, D1 c1 c2 →
          D c1 c2 ∨ (c1 = vr1 ∧ c2 ∈ vr2 :: rest ∧ c1.index ≤ c2.index ∧ c1 ≠ c2)) →
        ∀ c1 c2, (D1 c1 c2 ∨ (c1 = vr1 ∧ c2 ∈ rest ∧ c1.index ≤ c2.index ∧ c1 ≠ c2)) →
          D c1 c2 ∨ (c1 = vr1 ∧ c2 ∈ vr2 :: rest ∧ c1.index ≤ c2.index ∧ c1 ≠ c2) := by
      intro D1 hD1 c1 c2 d
      rcases d with d | ⟨a, b, c⟩
      · exact hD1 c1 c2 d
      · exact Or.inr ⟨a, List.mem_cons_of_mem _ b, c⟩
    rw [matchInner_cons _ _ _ _ _ _ _ _ (by rw [hlen]; exact h1.1) (by rw [hlen]; exact hv2.1)] at h
    split at h
    · rename_i hm
      have hs2 : (vr2.side + 2) % 3 < 3 := Nat.mod_lt _ (by decide)
      have hve : V vr1.index ((vr1.side + 1) % 3) = V vr2.index ((vr2.side + 2) % 3) := by
        have := hm.2.2
        rw [hinv.vert] at this
        simpa [hv2.1] using this
      have hne12 : vr1 ≠ vr2 := fun e =>
        hpos 0 vr2 (by simp) (by have := hm.1; omega) e.symm
      split at h
      · rename_i hfree
        have hvs : V vr1.index vr1.side = V vr2.index (((vr2.side + 2) % 3 + 1) % 3) := by
          have e : ((vr2.side + 2) % 3 + 1) % 3 = vr2.side := by
            have := hv2.2
            omega
          rw [e]
          exact hvv.symm
        have hinv1 := hinv.link_pair vr1.index vr1.side vr2.index ((vr2.side + 2) % 3)
          h1.1 h1.2 hv2.1 hs2 hfree.1 hfree.2 hve hvs
        have hL1 : LinkedBy n (fun c1 c2 => D c1 c2 ∨ (c1 = vr1 ∧ c2 = vr2))
            (writeLink (writeLink ts vr1.index vr1.side ⟨vr2.index, (vr2.side + 2) % 3⟩)
              vr2.index ((vr2.side + 2) % 3) ⟨vr1.index, vr1.side⟩) :=
          hL.add_pair hlen vr1 vr2 h1 hv2 (fun _ _ d => Or.inl d) (Or.inr ⟨rfl, rfl⟩)
        have hD1 : ∀ c1 c2, (D c1 c2 ∨ (c1 = vr1 ∧ c2 = vr2)) → c1.index ≤ c2.index ∧ c1 ≠ c2 := by
          intro c1 c2 d
          rcases d with d | ⟨a, b⟩
          · exact hD c1 c2 d
          · rw [a, b]
            exact ⟨hm.2.1, hne12⟩
        have hfresh1 : ∀ c ∈ rest, ¬ (D vr1 c ∨ (vr1 = vr1 ∧ c = vr2)) := by
          intro c hc d
          rcases d with d | ⟨_, b⟩
          · exact hfresh c (List.mem_cons_of_mem _ hc) d
          · rw [b] at hc
            exact hnd2.1 hc
        obtain ⟨r1, r2⟩ := ih _ _ _ _ _ hrest hnd2.2 hpos2 hinv1 hD1 hL1 hfresh1 h
        refine ⟨fun hr => (r1 hr).mono (widen _ ?_), r2⟩
        intro c1 c2 d
        rcases d with d | ⟨a, b⟩
        · exact Or.inl d
        · refine Or.inr ⟨a, by rw [b]; exact List.mem_cons_self _ _, ?_⟩
          rw [a, b]
          exact ⟨hm.2.1, hne12⟩
      · rename_i hocc
        simp only [Except.ok.injEq, Prod.mk.injEq] at h
        refine ⟨fun hr => by rw [← h.1] at hr; simp at hr, fun _ => ?_⟩
        refine twoOpposites_of_occupied hinv D hD hL vr1 vr2 h1 hv2 hne12 hm.2.1 hvv hve
          (hfresh vr2 (List.mem_cons_self _ _)) ?_
        by_contra hcon
        push_neg at hcon
        exact hocc hcon
    · obtain ⟨r1, r2⟩ := ih _ _ _ _ _ hrest hnd2.2 hpos2 hinv hD hL
        (fun c hc => hfresh c (List.mem_cons_of_mem _ hc)) h
      exact ⟨fun hr => (r1 hr).mono (widen D (fun _ _ d => Or.inl d)), r2⟩

/-- The loop over `k1` on the corners of one vertex, none of which has been met as the
first corner of a pair before. -/
theorem matchOuter_linkedBy {n : Nat} {V : Nat → Nat → Nat} (v : Nat) (adj : List Link)
    (hadj : ∀ c ∈ adj, ValidCorner n c ∧ V c.index c.side = v) (hnd : adj.Nodup) :
    ∀ (rest : List Link) (k1 : Nat) (ts : List Triangle) (r : Bool) (ts1 : List Triangle)
      (D : Link → Link → Prop),
      (∀ (j : Nat) (c : Link), rest[j]? = some c → adj[k1 + j]? = some c) → rest.Nodup →
      MatchInv n V ts → (∀ c1 c2, D c1 c2 → c1.index ≤ c2.index ∧ c1 ≠ c2) →
      LinkedBy n D ts → (∀ c1 ∈ rest, ∀ c2, ¬ D c1 c2) →
      matchOuter adj k1 rest ts = .ok (r, ts1) →
      (r = true → LinkedBy n
        (fun c1 c2 => D c1 c2 ∨ (c1 ∈ rest ∧ c2 ∈ adj ∧ c1.index ≤ c2.index ∧ c1 ≠ c2)) ts1) ∧
      (r = false → TwoOpposites n V) := by
  intro rest
  induction rest with
  | nil =>
    intro k1 ts r ts1 D _ _ _ _ hL _ h
    simp only [matchOuter, Except.ok.injEq, Prod.mk.injEq] at h
    rw [← h.1, ← h.2]
    exact ⟨fun _ => hL.mono (fun _ _ d => Or.inl d), fun e => by simp at e⟩
  | cons vr1 rest ih =>
    intro k1 ts r ts1 D hsuf hndr hinv hD hL hfresh h
    have hat : adj[k1]? = some vr1 := by
      have := hsuf 0 vr1 (by simp)
      simpa using this
    have hmem : vr1 ∈ adj := List.getElem?_mem hat
    have h1 := hadj vr1 hmem
    have hadj1 : ∀ c ∈ adj, ValidCorner n c ∧ V c.index c.side = V vr1.index vr1.side :=
      fun c hc => ⟨(hadj c hc).1, by rw [(hadj c hc).2, h1.2]⟩
    have hndr2 := List.nodup_cons.mp hndr
    have hsuf2 : ∀ (j : Nat) (c : Link), rest[j]? = some c → adj[k1 + 1 + j]? = some c := by
      intro j c hj
      have := hsuf (j + 1) c (by simpa using hj)
      rw [show k1 + 1 + j = k1 + (j + 1) by omega]
      exact this
    have hpos : ∀ (j : Nat) (c : Link), adj[j]? = some c → k1 ≠ 0 + j → c ≠ vr1 := by
      intro j c hj hk e
      rw [e] at hj
      have : j = k1 := List.getElem?_inj (lt_of_getElem? hj) hnd (hj.trans hat.symm)
      omega
    have hlen := hinv.len
    rw [matchOuter_cons _ _ _ _ _ (by rw [hlen]; exact h1.1.1), hinv.vert, if_pos h1.1.1] at h
    cases hin : matchInner vr1 k1 (V vr1.index ((vr1.side + 1) % 3)) vr1.side 0 adj ts with
    | error e => simp [hin] at h
    | ok res =>
      obtain ⟨b, ts2⟩ := res
      have hstep := matchInner_inv vr1 k1 h1.1 adj 0 ts b ts2 hadj1 hinv hin
      obtain ⟨g1, g2⟩ := matchInner_linkedBy vr1 k1 h1.1 adj 0 ts b ts2 D hadj1 hnd hpos hinv
        hD hL (fun c _ => hfresh vr1 (List.mem_cons_self _ _) c) hin
      cases b with
      | false =>
        simp only [hin, Except.ok.injEq, Prod.mk.injEq] at h
        refine ⟨fun hr => by rw [← h.1] at hr; simp at hr, fun _ => g2 rfl⟩
      | true =>
        simp only [hin] at h
        have hD1 : ∀ c1 c2,
            (D c1 c2 ∨ (c1 = vr1 ∧ c2 ∈ adj ∧ c1.index ≤ c2.index ∧ c1 ≠ c2)) →
            c1.index ≤ c2.index ∧ c1 ≠ c2 := by
          intro c1 c2 d
          rcases d with d | ⟨_, _, c⟩
          · exact hD c1 c2 d
          · exact c
        have hfresh1 : ∀ c1 ∈ rest, ∀ c2,
            ¬ (D c1 c2 ∨ (c1 = vr1 ∧ c2 ∈ adj ∧ c1.index ≤ c2.index ∧ c1 ≠ c2)) := by
          intro c1 hc1 c2 d
          rcases d with d | ⟨a, _⟩
          · exact hfresh c1 (List.mem_cons_of_mem _ hc1) c2 d
          · rw [a] at hc1
            exact hndr2.1 hc1
        obtain ⟨r1, r2⟩ := ih _ _ _ _ _ hsuf2 hndr2.2 hstep.1 hD1 (g1 rfl) hfresh1 h
        refine ⟨fun hr => (r1 hr).mono ?_, r2⟩
        intro c1 c2 d
        rcases d with (d | ⟨a, b⟩) | ⟨a, b⟩
        · exact Or.inl d
        · exact Or.inr ⟨by rw [a]; exact List.mem_cons_self _ _, b⟩
        · exact Or.inr ⟨List.mem_cons_of_mem _ a, b⟩

theorem nodup_ringAt (n : Nat) (V : Nat → Nat → Nat) (v : Nat) : (ringAt n V v).Nodup := by
  unfold ringAt ringOf
  exact List.nodup_reverse.mpr (List.Nodup.filter _ (nodup_cornersOf _ (List.nodup_range _)))

/-- When the loop over the vertices executes `return false`, some side has two
distinct opposite sides. -/
theorem matchVertices_twoOpposites {n mvc : Nat} {V : Nat → Nat → Nat} {fuel : Nat}
    {vertexRings : List Link} {tvr : List TriangleVertexRings}
    (ready : RingsReady n mvc V fuel vertexRings tvr) :
    ∀ (is : List Nat) (ts : List Triangle) (adj : List Link) (ts1 : List Triangle)
      (adj1 : List Link) (D : Link → Link → Prop),
      (∀ v ∈ is, v < mvc) → is.Nodup → MatchInv n V ts →
      (∀ c1 c2, D c1 c2 → c1.index ≤ c2.index ∧ c1 ≠ c2) → LinkedBy n D ts →
      (∀ c1 c2, V c1.index c1.side ∈ is → ¬ D c1 c2) →
      matchVertices vertexRings tvr fuel is ts adj = .ok (false, ts1, adj1) →
      TwoOpposites n V := by
  intro is
  induction is with
  | nil =>
    intro ts adj ts1 adj1 D _ _ _ _ _ _ h
    simp [matchVertices] at h
  | cons w rest ih =>
    intro ts adj ts1 adj1 D hlt hnd hinv hD hL hfresh h
    have hw := hlt w (List.mem_cons_self _ _)
    have hrest : ∀ u ∈ rest, u < mvc := fun u hu => hlt u (List.mem_cons_of_mem _ hu)
    have hring : ∀ c ∈ ringAt n V w, ValidCorner n c ∧ V c.index c.side = w :=
      fun c hc => (mem_ringAt n V w c).mp hc
    have hnd2 := List.nodup_cons.mp hnd
    obtain ⟨adj2, hstep⟩ := matchVertices_cons ready w hw rest ts adj
    rw [hstep] at h
    cases hout : matchOuter (ringAt n V w) 0 (ringAt n V w) ts with
    | error e => simp [hout] at h
    | ok res =>
      obtain ⟨b, ts2⟩ := res
      have hmo := matchOuter_inv w _ hring _ 0 ts b ts2 hring hinv hout
      obtain ⟨g1, g2⟩ := matchOuter_linkedBy w _ hring (nodup_ringAt n V w) _ 0 ts b ts2 D
        (fun j c hj => by rw [Nat.zero_add]; exact hj) (nodup_ringAt n V w) hinv hD hL
        (fun c1 hc1 c2 => hfresh c1 c2 (by rw [(hring c1 hc1).2]; exact List.mem_cons_self _ _))
        hout
      cases b with
      | false => exact g2 rfl
      | true =>
        simp only [hout] at h
        refine ih _ _ _ _ _ hrest hnd2.2 hmo.1 ?_ (g1 rfl) ?_ h
        · intro c1 c2 d
          rcases d with d | ⟨_, _, c⟩
          · exact hD c1 c2 d
          · exact c
        · intro c1 c2 hv d
          rcases d with d | ⟨a, _⟩
          · exact hfresh c1 c2 (List.mem_cons_of_mem _ hv) d
          · rw [(hring c1 a).2] at hv
            exact hnd2.1 hv

/-- When `build(wks)` returns `false`, some side has two distinct opposite sides. -/
theorem buildWks_twoOpposites (m : Manifold) (wks : BuildWorkspace) (m1 : Manifold)
    (wks1 : BuildWorkspace) (h : buildWks m wks = .ok (false, m1, wks1)) :
    TwoOpposites m.m_triangles.length (vertexAt m.m_triangles) := by
  by_cases hn : m.m_triangles.length = 0
  · simp [buildWks, hn] at h
  · obtain ⟨_, _, vr, tvr, ts, hready, hinv0, hfree, hmv⟩ :=
      (buildWks_run m wks hn).2.1 false m1 wks1 h
    refine matchVertices_twoOpposites hready _ _ _ _ _ (fun _ _ => False)
      (fun v hv => List.mem_range.mp hv) (List.nodup_range _) hinv0 (fun _ _ d => d.elim) ?_
      (fun _ _ _ d => d) hmv
    intro t s ht hs hne
    exact absurd (hfree t s ht hs) hne

/-- When `build` returns `false`, some side of the triangles of the input has two
distinct opposite sides. -/
theorem build_twoOpposites (m0 : Manifold) (wks : BuildWorkspace) (xs : List Nat)
    (m1 : Manifold) (wks1 : BuildWorkspace) (h : build m0 wks xs = .ok (false, m1, wks1)) :
    TwoOpposites (xs.length / 3) (vertexAt (triplesOf xs)) := by
  rw [build_eq] at h
  have := buildWks_twoOpposites _ wks m1 wks1 h
  simpa only [length_triplesOf] using this

/-- When `build` returns `true`, a side is linked to every side that runs along the
same two vertices in the opposite direction, a side of the same triangle included. -/
theorem build_links_opposite (m0 : Manifold) (wks : BuildWorkspace) (xs : List Nat)
    (m : Manifold) (wks1 : BuildWorkspace) (h : build m0 wks xs = .ok (true, m, wks1))
    (a b : Link) (ha : ValidCorner (xs.length / 3) a) (hb : ValidCorner (xs.length / 3) b)
    (ho : (vertexAt (triplesOf xs) a.index a.side =
        vertexAt (triplesOf xs) b.index ((b.side + 1) % 3)) ∧
      vertexAt (triplesOf xs) a.index ((a.side + 1) % 3) =
        vertexAt (triplesOf xs) b.index b.side) :
    linkAt m.m_triangles a.index a.side = ⟨b.index, b.side⟩ := by
  obtain ⟨_, _, hcomp, _⟩ := build_spec m0 wks xs true m wks1 h
  have hcomp := hcomp rfl
  have hma : (a.side + 1) % 3 < 3 := Nat.mod_lt _ (by decide)
  have hmb : (b.side + 1) % 3 < 3 := Nat.mod_lt _ (by decide)
  have ea : ((a.side + 1) % 3 + 2) % 3 = a.side := by
    have := ha.2
    omega
  have eb : ((b.side + 1) % 3 + 2) % 3 = b.side := by
    have := hb.2
    omega
  by_cases hX : a.index ≤ b.index ∧ (a.index = b.index → a.side ≠ (b.side + 1) % 3)
  · have := hcomp ⟨a.index, a.side⟩ ⟨b.index, (b.side + 1) % 3⟩ ha ⟨hb.1, hmb⟩
      (by
        intro e
        simp only [Link.mk.injEq] at e
        exact hX.2 e.1 e.2)
      ho.1 hX.1 (by simp only [eb]; exact ho.2)
    simp only [eb] at this
    exact this.1
  · have hY : b.index < a.index ∨ (a.index = b.index ∧ a.side = (b.side + 1) % 3) := by
      by_cases hlt : b.index < a.index
      · exact Or.inl hlt
      · right
        have hle : a.index ≤ b.index := by omega
        by_contra hc
        apply hX
        refine ⟨hle, fun e es => hc ⟨e, es⟩⟩
    have := hcomp ⟨b.index, b.side⟩ ⟨a.index, (a.side + 1) % 3⟩ hb ⟨ha.1, hma⟩
      (by
        intro e
        simp only [Link.mk.injEq] at e
        have := ha.2
        have := hb.2
        rcases hY with hY | hY
        · omega
        · omega)
      ho.2.symm (by show b.index ≤ a.index; rcases hY with hY | hY <;> omega)
      (by simp only [ea]; exact ho.1.symm)
    simp only [ea] at this
    exact this.2

/-! ## The edge key -/

/-- The value of `getEdgeKey` for a side of a triangle of the table. -/
theorem getEdgeKey_of_getElem? (m : Manifold) (l : Link) (tri : Triangle)
    (ht : m.m_triangles[l.index]? = some tri) (hs : l.side < 3) :
    getEdgeKey m l =
      some (if tri.link l.side = InvalidLink ∨ (tri.link l.side).index > l.index then
        l.index * 3 + l.side else (tri.link l.side).index * 3 + (tri.link l.side).side) := by
  unfold getEdgeKey
  rw [ht]
  simp only [if_pos hs]
  split <;> rfl

theorem link_ext (a b : Link) (hi : a.index = b.index) (hs : a.side = b.side) : a = b := by
  cases a
  cases b
  simp only at hi hs
  rw [hi, hs]

/-! ## Rings of triangles -/

theorem ringStep_invalid (m : Manifold) (k : Nat) : ringStep m k InvalidLink = InvalidLink := by
  simp [ringStep]

theorem ringStep_iterate_invalid (m : Manifold) (k : Nat) (i : Nat) :
    (ringStep m k)^[i] InvalidLink = InvalidLink := by
  induction i with
  | zero => rfl
  | succ i ih => rw [Function.iterate_succ_apply, ringStep_invalid, ih]

/-- On a corner of the mesh `ringStep` is `nextClockwise` or `nextAnticlockwise`. -/
theorem ringStep_eq_next (m : Manifold) (it : Link) (h : it ≠ InvalidLink)
    (hi : it.index < m.m_triangles.length) :
    nextClockwise m it = some (ringStep m 2 it) ∧
    nextAnticlockwise m it = some (ringStep m 1 it) := by
  obtain ⟨t, ht, hl, _⟩ := getElem?_of_lt_links m.m_triangles it.index hi
  refine ⟨?_, ?_⟩
  · simp only [nextClockwise, ringStep, if_neg h, ht, hl]
  · simp only [nextAnticlockwise, ringStep, if_neg h, ht, hl]

theorem ringStep_valid {n : Nat} {V : Nat → Nat → Nat} (m : Manifold)
    (hinv : MatchInv n V m.m_triangles) (k : Nat) (it : Link)
    (hit : it = InvalidLink ∨ ValidCorner n it) :
    ringStep m k it = InvalidLink ∨ ValidCorner n (ringStep m k it) := by
  unfold ringStep
  by_cases h : it = InvalidLink
  · rw [if_pos h]; exact Or.inl rfl
  · rw [if_neg h]
    have hv := hit.resolve_left h
    by_cases h3 : linkAt m.m_triangles it.index ((it.side + k) % 3) = InvalidLink
    · exact Or.inl h3
    · obtain ⟨q1, q2, _, _, _⟩ := hinv.links it.index ((it.side + k) % 3) hv.1
        (Nat.mod_lt _ (by decide)) h3
      exact Or.inr ⟨q1, q2⟩

theorem ringStep_iterate_valid {n : Nat} {V : Nat → Nat → Nat} (m : Manifold)
    (hinv : MatchInv n V m.m_triangles) (k : Nat) :
    ∀ (i : Nat) (it : Link), (it = InvalidLink ∨ ValidCorner n it) →
      ((ringStep m k)^[i] it = InvalidLink ∨ ValidCorner n ((ringStep m k)^[i] it)) := by
  intro i
  induction i with
  | zero => intro it hit; exact hit
  | succ i ih =>
    intro it hit
    rw [Function.iterate_succ_apply]
    exact ih _ (ringStep_valid m hinv k it hit)

/-- One round of a visiting loop at a corner of the mesh. -/
theorem walkExit_step (m : Manifold) (k : Nat) (stop : Link) (fuel : Nat) (it : Link)
    (h : it ≠ InvalidLink) (hi : it.index < m.m_triangles.length) :
    walkExit m k stop (fuel + 1) it =
      if rotate it k = stop then .returned true
      else walkExit m k stop fuel (ringStep m k it) := by
  obtain ⟨t, ht, hl, _⟩ := getElem?_of_lt_links m.m_triangles it.index hi
  have ht2 : m.m_triangles[(rotate it k).index]? = some t := ht
  rw [walkExit, if_neg h]
  by_cases h2 : rotate it k = stop
  · rw [if_pos h2, if_pos h2]
  · rw [if_neg h2, if_neg h2, ht2]
    simp only [ringStep, if_neg h, hl]
    rfl

/-- A loop whose steps meet `stop` returns `true`. -/
theorem walkExit_of_meetsEnd {n : Nat} {V : Nat → Nat → Nat} (m : Manifold)
    (hinv : MatchInv n V m.m_triangles) (k : Nat) (stop : Link) :
    ∀ (i : Nat) (it : Link), (it = InvalidLink ∨ ValidCorner n it) →
      (ringStep m k)^[i] it ≠ InvalidLink → rotate ((ringStep m k)^[i] it) k = stop →
      ∃ fuel, walkExit m k stop fuel it = .returned true := by
  intro i
  induction i with
  | zero =>
    intro it hit hne hst
    simp only [Function.iterate_zero, id_eq] at hne hst
    have hv := hit.resolve_left hne
    exact ⟨1, by rw [walkExit_step m k stop 0 it hne (by rw [hinv.len]; exact hv.1), if_pos hst]⟩
  | succ i ih =>
    intro it hit hne hst
    rw [Function.iterate_succ_apply] at hne hst
    have h0 : it ≠ InvalidLink := by
      intro e
      rw [e, ringStep_invalid, ringStep_iterate_invalid] at hne
      exact hne rfl
    have hv := hit.resolve_left h0
    by_cases h2 : rotate it k = stop
    · exact ⟨1, by rw [walkExit_step m k stop 0 it h0 (by rw [hinv.len]; exact hv.1), if_pos h2]⟩
    · obtain ⟨f, hf⟩ := ih _ (ringStep_valid m hinv k it hit) hne hst
      exact ⟨f + 1, by
        rw [walkExit_step m k stop f it h0 (by rw [hinv.len]; exact hv.1), if_neg h2, hf]⟩

/-- A loop whose steps reach the sentinel ends. -/
theorem walkExit_of_reaches {n : Nat} {V : Nat → Nat → Nat} (m : Manifold)
    (hinv : MatchInv n V m.m_triangles) (k : Nat) (stop : Link) :
    ∀ (i : Nat) (it : Link), (it = InvalidLink ∨ ValidCorner n it) →
      (ringStep m k)^[i] it = InvalidLink →
      ∃ fuel, walkExit m k stop fuel it ≠ .fault .outOfFuel := by
  intro i
  induction i with
  | zero =>
    intro it _ he
    simp only [Function.iterate_zero, id_eq] at he
    exact ⟨0, by rw [he, walkExit_invalid]; simp⟩
  | succ i ih =>
    intro it hit he
    rw [Function.iterate_succ_apply] at he
    by_cases h0 : it = InvalidLink
    · exact ⟨0, by rw [h0, walkExit_invalid]; simp⟩
    · have hv := hit.resolve_left h0
      by_cases h2 : rotate it k = stop
      · exact ⟨1, by
          rw [walkExit_step m k stop 0 it h0 (by rw [hinv.len]; exact hv.1), if_pos h2]; simp⟩
      · obtain ⟨f, hf⟩ := ih _ (ringStep_valid m hinv k it hit) he
        exact ⟨f + 1, by
          rw [walkExit_step m k stop f it h0 (by rw [hinv.len]; exact hv.1), if_neg h2]
          exact hf⟩

/-- A loop that returns `true` has met `stop`; a loop left through its condition has
reached the sentinel. -/
theorem walkExit_ends {n : Nat} {V : Nat → Nat → Nat} (m : Manifold)
    (hinv : MatchInv n V m.m_triangles) (k : Nat) (stop : Link) :
    ∀ (fuel : Nat) (it : Link), (it = InvalidLink ∨ ValidCorner n it) →
      (walkExit m k stop fuel it = .returned true → MeetsEnd m k it stop) ∧
      (walkExit m k stop fuel it = .done → ∃ i, (ringStep m k)^[i] it = InvalidLink) := by
  intro fuel
  induction fuel with
  | zero =>
    intro it _
    rw [walkExit]
    by_cases h0 : it = InvalidLink
    · rw [if_pos h0]
      exact ⟨fun e => by simp at e, fun _ => ⟨0, h0⟩⟩
    · rw [if_neg h0]
      exact ⟨fun e => by simp at e, fun e => by simp at e⟩
  | succ fuel ih =>
    intro it hit
    by_cases h0 : it = InvalidLink
    · rw [h0, walkExit_invalid]
      exact ⟨fun e => by simp at e, fun _ => ⟨0, rfl⟩⟩
    · have hv := hit.resolve_left h0
      rw [walkExit_step m k stop fuel it h0 (by rw [hinv.len]; exact hv.1)]
      by_cases h2 : rotate it k = stop
      · rw [if_pos h2]
        exact ⟨fun _ => ⟨0, h0, h2⟩, fun e => by simp at e⟩
      · rw [if_neg h2]
        obtain ⟨r1, r2⟩ := ih _ (ringStep_valid m hinv k it hit)
        constructor
        · intro e
          obtain ⟨i, a, b⟩ := r1 e
          exact ⟨i + 1, by rw [Function.iterate_succ_apply]; exact a,
            by rw [Function.iterate_succ_apply]; exact b⟩
        · intro e
          obtain ⟨i, a⟩ := r2 e
          exact ⟨i + 1, by rw [Function.iterate_succ_apply]; exact a⟩

/-- Around a closed ring the steps never reach the sentinel. -/
theorem ClosedRing.never_invalid {m : Manifold} {k : Nat} {c : Link} (h : ClosedRing m k c)
    (i : Nat) : (ringStep m k)^[i] c ≠ InvalidLink := by
  obtain ⟨hc, d, hd, hper⟩ := h
  intro he
  have hmul : ∀ j, (ringStep m k)^[d * j] c = c := by
    intro j
    induction j with
    | zero => rfl
    | succ j ih => rw [Nat.mul_succ, Function.iterate_add_apply, hper, ih]
  have hge : i ≤ d * (i + 1) := by
    have : i + 1 ≤ d * (i + 1) := Nat.le_mul_of_pos_left _ hd
    omega
  obtain ⟨r, hr⟩ : ∃ r, d * (i + 1) = r + i := ⟨d * (i + 1) - i, by omega⟩
  have := hmul (i + 1)
  rw [hr, Function.iterate_add_apply, he, ringStep_iterate_invalid] at this
  exact hc this.symm

/-- Two corners of the mesh from which one step leads to the same link, not the
sentinel, are the same corner. -/
theorem ringStep_inj {n : Nat} {V : Nat → Nat → Nat} (m : Manifold)
    (hinv : MatchInv n V m.m_triangles) (k : Nat) (x y : Link) (hx : ValidCorner n x)
    (hy : ValidCorner n y) (hne : ringStep m k x ≠ InvalidLink)
    (he : ringStep m k x = ringStep m k y) : x = y := by
  have hx0 : x ≠ InvalidLink := fun e => by rw [e, ringStep_invalid] at hne; exact hne rfl
  have hy0 : y ≠ InvalidLink := fun e => by
    rw [he, e, ringStep_invalid] at hne; exact hne rfl
  have hne2 := hne
  rw [he] at hne2
  simp only [ringStep, if_neg hx0, if_neg hy0] at hne hne2 he
  obtain ⟨_, _, p3, _, _⟩ := hinv.links x.index ((x.side + k) % 3) hx.1
    (Nat.mod_lt _ (by decide)) hne
  obtain ⟨_, _, q3, _, _⟩ := hinv.links y.index ((y.side + k) % 3) hy.1
    (Nat.mod_lt _ (by decide)) hne2
  rw [he, q3] at p3
  simp only [Link.mk.injEq] at p3
  have sx := hx.2
  have sy := hy.2
  exact link_ext x y p3.1.symm (by omega)

/-- Steps from a corner that meet the same link twice before the sentinel lead back
to the corner. -/
theorem ringStep_collision {n : Nat} {V : Nat → Nat → Nat} (m : Manifold)
    (hinv : MatchInv n V m.m_triangles) (k : Nat) (c : Link)
    (hc : c = InvalidLink ∨ ValidCorner n c) :
    ∀ (i j : Nat), i < j → (∀ t, t ≤ j → (ringStep m k)^[t] c ≠ InvalidLink) →
      (ringStep m k)^[i] c = (ringStep m k)^[j] c → (ringStep m k)^[j - i] c = c := by
  intro i
  induction i with
  | zero =>
    intro j _ _ he
    exact he.symm
  | succ i ih =>
    intro j hij hall he
    obtain ⟨j2, rfl⟩ : ∃ j2, j = j2 + 1 := ⟨j - 1, by omega⟩
    rw [Function.iterate_succ_apply', Function.iterate_succ_apply'] at he
    have vi := (ringStep_iterate_valid m hinv k i c hc).resolve_left (hall i (by omega))
    have vj := (ringStep_iterate_valid m hinv k j2 c hc).resolve_left (hall j2 (by omega))
    have hne : ringStep m k ((ringStep m k)^[i] c) ≠ InvalidLink := by
      have := hall (i + 1) (by omega)
      rw [Function.iterate_succ_apply'] at this
      exact this
    have e := ringStep_inj m hinv k _ _ vi vj hne he
    have := ih j2 (by omega) (fun t ht => hall t (by omega)) e
    rw [show j2 + 1 - (i + 1) = j2 - i by omega]
    exact this

/-- From a corner whose ring is not closed the steps reach the sentinel. -/
theorem reaches_of_not_closedRing {n : Nat} {V : Nat → Nat → Nat} (m : Manifold)
    (hinv : MatchInv n V m.m_triangles) (k : Nat) (c : Link)
    (hc : c = InvalidLink ∨ ValidCorner n c) (hopen : ¬ ClosedRing m k c) :
    ∃ i, (ringStep m k)^[i] c = InvalidLink := by
  by_contra hcon
  push_neg at hcon
  have hc0 : c ≠ InvalidLink := hcon 0
  have hinj : ∀ x ∈ List.range (3 * n + 1), ∀ y ∈ List.range (3 * n + 1),
      (ringStep m k)^[x] c = (ringStep m k)^[y] c → x = y := by
    intro x _ y _ he
    by_contra hxy
    rcases Nat.lt_or_gt_of_ne hxy with hlt | hgt
    · exact hopen ⟨hc0, y - x, by omega,
        ringStep_collision m hinv k c hc x y hlt (fun t _ => hcon t) he⟩
    · exact hopen ⟨hc0, x - y, by omega,
        ringStep_collision m hinv k c hc y x hgt (fun t _ => hcon t) he.symm⟩
  have hnd : ((List.range (3 * n + 1)).map (fun i => (ringStep m k)^[i] c)).Nodup :=
    List.Nodup.map_on hinj (List.nodup_range _)
  have hlen := length_le_of_valid n _ hnd (by
    intro a ha
    obtain ⟨i, _, rfl⟩ := List.mem_map.mp ha
    exact (ringStep_iterate_valid m hinv k i c hc).resolve_left (hcon i))
  rw [List.length_map, List.length_range] at hlen
  omega

/-- A loop on corners of the mesh ends through its condition, returns `true`, or
uses up its steps. -/
theorem walkExit_cases {n : Nat} {V : Nat → Nat → Nat} (m : Manifold)
    (hinv : MatchInv n V m.m_triangles) (k : Nat) (stop : Link) (fuel : Nat) (it : Link)
    (hit : it = InvalidLink ∨ ValidCorner n it) :
    walkExit m k stop fuel it = .done ∨ walkExit m k stop fuel it = .returned true ∨
      walkExit m k stop fuel it = .fault .outOfFuel := by
  have h1 := walkExit_returned m k stop fuel it
  have h2 := walkExit_inBounds m hinv k stop fuel it hit
  cases h : walkExit m k stop fuel it with
  | done => exact Or.inl rfl
  | returned b =>
    cases b
    · exact absurd h h1
    · exact Or.inr (Or.inl rfl)
  | fault f =>
    cases f
    · exact absurd h h2
    · exact Or.inr (Or.inr rfl)

/-- The way a loop on corners of the mesh ends, by the ring it walks: it returns `true`
within `3 n + 1` steps when its steps meet `stop`; otherwise it is left through its
condition within `3 n + 1` steps when the ring is not closed, and never ends when the
ring is closed. -/
theorem walkExit_by_ring {n : Nat} {V : Nat → Nat → Nat} (m : Manifold)
    (hinv : MatchInv n V m.m_triangles) (k : Nat) (stop : Link) (it : Link)
    (hit : it = InvalidLink ∨ ValidCorner n it) :
    (MeetsEnd m k it stop →
      ∀ fuel, 3 * n + 1 ≤ fuel → walkExit m k stop fuel it = .returned true) ∧
    (¬ MeetsEnd m k it stop → ¬ ClosedRing m k it →
      ∀ fuel, 3 * n + 1 ≤ fuel → walkExit m k stop fuel it = .done) ∧
    (¬ MeetsEnd m k it stop → ∀ fuel,
      walkExit m k stop fuel it = .done ∨ walkExit m k stop fuel it = .fault .outOfFuel) ∧
    (¬ MeetsEnd m k it stop → ClosedRing m k it →
      ∀ fuel, walkExit m k stop fuel it = .fault .outOfFuel) := by
  have late : ∀ f, walkExit m k stop f it ≠ .fault .outOfFuel →
      ∀ fuel, 3 * n + 1 ≤ fuel → walkExit m k stop fuel it = walkExit m k stop f it := by
    intro f hf fuel hle
    have hb := walkExit_bound m hinv k stop f it hit hf
    rw [walkExit_le m k stop (3 * n + 1) fuel it hb hle]
    rcases Nat.le_total f (3 * n + 1) with h | h
    · exact walkExit_le m k stop f (3 * n + 1) it hf h
    · exact (walkExit_le m k stop (3 * n + 1) f it hb h).symm
  have nomeet : ¬ MeetsEnd m k it stop → ∀ fuel,
      walkExit m k stop fuel it = .done ∨ walkExit m k stop fuel it = .fault .outOfFuel := by
    intro hm fuel
    rcases walkExit_cases m hinv k stop fuel it hit with h | h | h
    · exact Or.inl h
    · exact absurd ((walkExit_ends m hinv k stop fuel it hit).1 h) hm
    · exact Or.inr h
  refine ⟨?_, ?_, nomeet, ?_⟩
  · rintro ⟨i, a, b⟩ fuel hle
    obtain ⟨f, hf⟩ := walkExit_of_meetsEnd m hinv k stop i it hit a b
    rw [late f (by rw [hf]; simp) fuel hle, hf]
  · intro hm hopen fuel hle
    obtain ⟨i, hi⟩ := reaches_of_not_closedRing m hinv k it hit hopen
    obtain ⟨f, hf⟩ := walkExit_of_reaches m hinv k stop i it hit hi
    rw [late f hf fuel hle]
    exact (nomeet hm f).resolve_right hf
  · intro hm hclosed fuel
    rcases nomeet hm fuel with h | h
    · obtain ⟨i, hi⟩ := (walkExit_ends m hinv k stop fuel it hit).2 h
      exact absurd hi (hclosed.never_invalid i)
    · exact h

theorem not_meetsEnd_sentinel (m : Manifold) (k : Nat) (it : Link) :
    ¬ MeetsEnd m k it InvalidLink := by
  rintro ⟨i, _, h⟩
  exact rotate_ne_invalid _ k h

/-! ## The number of calls of the visitor -/

theorem trianglesClockwiseWalk_length (m : Manifold) (stop : Link) :
    ∀ (fuel : Nat) (it : Link), (trianglesClockwiseWalk m stop fuel it).1.length ≤ fuel := by
  intro fuel
  induction fuel with
  | zero => intro it; rw [trianglesClockwiseWalk]; split <;> simp
  | succ fuel ih =>
    intro it
    rw [trianglesClockwiseWalk]
    by_cases h1 : it = InvalidLink
    · simp [h1]
    · simp only [if_neg h1]
      by_cases h2 : rotate it 2 = stop
      · simp [h2]
      · simp only [if_neg h2]
        cases ht : m.m_triangles[(rotate it 2).index]? with
        | none => simp
        | some t =>
          simp only [List.length_cons]
          exact Nat.succ_le_succ (ih _)

theorem trianglesAnticlockwiseWalk_length (m : Manifold) (stop : Link) :
    ∀ (fuel : Nat) (it : Link),
      (trianglesAnticlockwiseWalk m stop fuel it).1.length ≤ fuel := by
  intro fuel
  induction fuel with
  | zero => intro it; rw [trianglesAnticlockwiseWalk]; split <;> simp
  | succ fuel ih =>
    intro it
    rw [trianglesAnticlockwiseWalk]
    by_cases h1 : it = InvalidLink
    · simp [h1]
    · simp only [if_neg h1]
      by_cases h2 : rotate it 1 = stop
      · simp [h2]
      · simp only [if_neg h2]
        cases ht : m.m_triangles[(rotate it 1).index]? with
        | none => simp
        | some t =>
          simp only [List.length_cons]
          exact Nat.succ_le_succ (ih _)

theorem clockwiseTail_length (m : Manifold) :
    ∀ (fuel : Nat) (it : Link), (clockwiseTail m fuel it).1.length ≤ fuel := by
  intro fuel
  induction fuel with
  | zero => intro it; rw [clockwiseTail]; split <;> simp
  | succ fuel ih =>
    intro it
    rw [clockwiseTail]
    by_cases h1 : it = InvalidLink
    · simp [h1]
    · simp only [if_neg h1]
      cases ht : m.m_triangles[(rotate it 1).index]? with
      | none => simp
      | some t =>
        simp only [List.length_cons]
        exact Nat.succ_le_succ (ih _)

theorem trianglesAnticlockwiseTail_length (m : Manifold) :
    ∀ (fuel : Nat) (it : Link), (trianglesAnticlockwiseTail m fuel it).1.length ≤ fuel := by
  intro fuel
  induction fuel with
  | zero => intro it; rw [trianglesAnticlockwiseTail]; split <;> simp
  | succ fuel ih =>
    intro it
    rw [trianglesAnticlockwiseTail]
    by_cases h1 : it = InvalidLink
    · simp [h1]
    · simp only [if_neg h1]
      cases ht : m.m_triangles[(rotate it 2).index]? with
      | none => simp
      | some t =>
        simp only [List.length_cons]
        exact Nat.succ_le_succ (ih _)

theorem edgesAnticlockwiseTail_length (m : Manifold) (fuel : Nat) (it : Link) :
    (edgesAnticlockwiseTail m fuel it).1.length ≤ fuel := by
  rw [anticlockwiseTail_length]
  exact trianglesAnticlockwiseTail_length m fuel it

theorem edgesWalk_length (m : Manifold) (k : Nat) (stop : Link) :
    ∀ (fuel : Nat) (it : Link), (edgesWalk m k stop fuel it).1.length ≤ fuel := by
  intro fuel
  induction fuel with
  | zero => intro it; rw [edgesWalk]; simp
  | succ fuel ih =>
    intro it
    rw [edgesWalk]
    simp only
    by_cases h2 : rotate it k = stop
    · simp [h2]
    · simp only [if_neg h2]
      cases ht : m.m_triangles[(rotate it k).index]? with
      | none => simp
      | some t =>
        simp only
        by_cases h3 : t.link (rotate it k).side = InvalidLink
        · simp [h3]
        · simp only [if_neg h3, List.length_cons]
          exact Nat.succ_le_succ (ih _)

theorem edgesHead_length (m : Manifold) (k : Nat) (start stop : Link) (fuel : Nat) :
    (edgesHead m k start stop fuel).1.length ≤ fuel + 1 := by
  unfold edgesHead
  by_cases h : start = InvalidLink
  · simp [h]
  · simp only [if_neg h, List.length_cons]
    exact Nat.succ_le_succ (edgesWalk_length m k stop fuel start)

/-- Two loops in sequence on corners of the mesh, the first turning by `k1` sides and
ending at `stop`, the second turning by `k2` sides: whether and with which value the
pair returns, by the rings the loops walk. -/
theorem visitTwoPhase_by_ring {n : Nat} {V : Nat → Nat → Nat} (m : Manifold)
    (hinv : MatchInv n V m.m_triangles) (k1 k2 : Nat) (start stop : Link)
    (hstart : start = InvalidLink ∨ ValidCorner n start)
    (hstop : stop = InvalidLink ∨ ValidCorner n stop)
    (F1 F2 : Nat → List Link × LoopExit)
    (x1 : ∀ f, (F1 f).2 = walkExit m k1 stop f start)
    (x2 : ∀ f, (F2 f).2 = walkExit m k2 InvalidLink f stop)
    (l1 : ∀ f, (F1 f).1.length ≤ f + 1) (l2 : ∀ f, (F2 f).1.length ≤ f) :
    (VisitEnds m k1 k2 start stop →
      ∃ b, (∀ fuel, 3 * n + 1 ≤ fuel → (visitTwoPhase (F1 fuel) (F2 fuel)).2 = .returned b) ∧
        (visitTwoPhase (F1 (3 * n + 1)) (F2 (3 * n + 1))).1.length ≤ 6 * n + 3 ∧
        (b = true ↔ MeetsEnd m k1 start stop)) ∧
    (¬ VisitEnds m k1 k2 start stop →
      ∀ fuel, (visitTwoPhase (F1 fuel) (F2 fuel)).2 = .fault .outOfFuel) := by
  obtain ⟨a1, a2, a3, a4⟩ := walkExit_by_ring m hinv k1 stop start hstart
  obtain ⟨_, b2, b3, b4⟩ := walkExit_by_ring m hinv k2 InvalidLink stop hstop
  have hnm := not_meetsEnd_sentinel m k2 stop
  have hlen : (visitTwoPhase (F1 (3 * n + 1)) (F2 (3 * n + 1))).1.length ≤ 6 * n + 3 := by
    have h1 := l1 (3 * n + 1)
    have h2 := l2 (3 * n + 1)
    rcases visitTwoPhase_items (F1 (3 * n + 1)) (F2 (3 * n + 1)) with e | ⟨_, e⟩
    · rw [e]; omega
    · rw [e, List.length_append]; omega
  constructor
  · intro hends
    by_cases hm : MeetsEnd m k1 start stop
    · refine ⟨true, fun fuel hle => ?_, hlen, ⟨fun _ => hm, fun _ => rfl⟩⟩
      have e1 : (F1 fuel).2 = .returned true := by rw [x1, a1 hm fuel hle]
      simp only [visitTwoPhase, e1]
    · have hopen := hends.resolve_left hm
      refine ⟨false, fun fuel hle => ?_, hlen, ⟨fun e => by simp at e, fun h => absurd h hm⟩⟩
      have e1 : (F1 fuel).2 = .done := by rw [x1, a2 hm hopen.1 fuel hle]
      have e2 : (F2 fuel).2 = .done := by rw [x2, b2 hnm hopen.2 fuel hle]
      simp only [visitTwoPhase, e1, e2]
  · intro hnot fuel
    have hm : ¬ MeetsEnd m k1 start stop := fun h => hnot (Or.inl h)
    have hclosed : ClosedRing m k1 start ∨ ClosedRing m k2 stop := by
      by_contra hc
      push_neg at hc
      exact hnot (Or.inr hc)
    rcases a3 hm fuel with e | e
    · have e1 : (F1 fuel).2 = .done := by rw [x1, e]
      have hc2 : ClosedRing m k2 stop := by
        rcases hclosed with hc | hc
        · have := a4 hm hc fuel
          rw [e] at this
          simp at this
        · exact hc
      have e2 : (F2 fuel).2 = .fault .outOfFuel := by rw [x2, b4 hnm hc2 fuel]
      simp only [visitTwoPhase, e1, e2]
    · have e1 : (F1 fuel).2 = .fault .outOfFuel := by rw [x1, e]
      simp only [visitTwoPhase, e1]

/-- On the manifold `build` leaves, for `start` and `stop` each a corner of the mesh or
the sentinel, no visit reads outside the triangle table, and a visit that returns
within some budget of steps gives the same result within the budget `3 n + 1`. -/
theorem visits_return_within_bound (m0 : Manifold) (wks : BuildWorkspace) (xs : List Nat)
    (r : Bool) (m : Manifold) (wks1 : BuildWorkspace) (h : build m0 wks xs = .ok (r, m, wks1))
    (start stop : Link)
    (hstart : start = InvalidLink ∨ ValidCorner m.m_triangles.length start)
    (hstop : stop = InvalidLink ∨ ValidCorner m.m_triangles.length stop) (fuel : Nat) :
    ((visitTrianglesClockwise m start stop fuel).2 ≠ .fault .outOfBounds ∧
      ∀ b, (visitTrianglesClockwise m start stop fuel).2 = .returned b →
        visitTrianglesClockwise m start stop (3 * m.m_triangles.length + 1) =
          visitTrianglesClockwise m start stop fuel) ∧
    ((visitTrianglesAnticlockwise m start stop fuel).2 ≠ .fault .outOfBounds ∧
      ∀ b, (visitTrianglesAnticlockwise m start stop fuel).2 = .returned b →
        visitTrianglesAnticlockwise m start stop (3 * m.m_triangles.length + 1) =
          visitTrianglesAnticlockwise m start stop fuel) ∧
    ((visitEdgesClockwise m start stop fuel).2 ≠ .fault .outOfBounds ∧
      ∀ b, (visitEdgesClockwise m start stop fuel).2 = .returned b →
        visitEdgesClockwise m start stop (3 * m.m_triangles.length + 1) =
          visitEdgesClockwise m start stop fuel) ∧
    ((visitEdgesAnticlockwise m start stop fuel).2 ≠ .fault .outOfBounds ∧
      ∀ b, (visitEdgesAnticlockwise m start stop fuel).2 = .returned b →
        visitEdgesAnticlockwise m start stop (3 * m.m_triangles.length + 1) =
          visitEdgesAnticlockwise m start stop fuel) := by
  obtain ⟨_, hinv, _, _⟩ := build_spec m0 wks xs r m wks1 h
  rw [hinv.len] at hstart hstop ⊢
  have fix : ∀ (F : Nat → Link → List Link × LoopExit) (k : Nat) (sp : Link),
      (∀ f it, (F f it).2 = walkExit m k sp f it) →
      (∀ f it, (F f it).2 ≠ .fault .outOfFuel → F (f + 1) it = F f it) →
      ∀ it, (it = InvalidLink ∨ ValidCorner (xs.length / 3) it) →
        ((F fuel it).2 ≠ .fault .outOfFuel → F (3 * (xs.length / 3) + 1) it = F fuel it) ∧
        (F fuel it).2 ≠ .fault .outOfBounds := by
    intro F k sp hexit hsucc it hit
    constructor
    · intro hne
      refine loop_stable F hsucc _ fuel it (fun hf => ?_) hne
      rw [hexit] at hf ⊢
      exact walkExit_bound m hinv k sp fuel it hit hf
    · rw [hexit]
      exact walkExit_inBounds m hinv k sp fuel it hit
  have w1 := fix (trianglesClockwiseWalk m stop) 2 stop (trianglesClockwiseWalk_exit m stop)
    (trianglesClockwiseWalk_succ m stop) start hstart
  have w2 := fix (trianglesAnticlockwiseWalk m stop) 1 stop
    (trianglesAnticlockwiseWalk_exit m stop) (trianglesAnticlockwiseWalk_succ m stop) start hstart
  have w3 := fix (fun f it => edgesHead m 2 it stop f) 2 stop
    (fun f it => edgesHead_exit m 2 it stop f) (fun f it => edgesHead_succ m 2 it stop f)
    start hstart
  have w4 := fix (fun f it => edgesHead m 1 it stop f) 1 stop
    (fun f it => edgesHead_exit m 1 it stop f) (fun f it => edgesHead_succ m 1 it stop f)
    start hstart
  have t1 := fix (clockwiseTail m) 1 InvalidLink (clockwiseTail_exit m) (clockwiseTail_succ m)
    stop hstop
  have t2 := fix (trianglesAnticlockwiseTail m) 2 InvalidLink (trianglesAnticlockwiseTail_exit m)
    (trianglesAnticlockwiseTail_succ m) stop hstop
  have t3 := fix (edgesAnticlockwiseTail m) 2 InvalidLink (edgesAnticlockwiseTail_exit m)
    (edgesAnticlockwiseTail_succ m) stop hstop
  exact ⟨visitTwoPhase_stable (fun f => trianglesClockwiseWalk m stop f start)
      (fun f => clockwiseTail m f stop) _ fuel w1.1 t1.1 w1.2 t1.2,
    visitTwoPhase_stable (fun f => trianglesAnticlockwiseWalk m stop f start)
      (fun f => trianglesAnticlockwiseTail m f stop) _ fuel w2.1 t2.1 w2.2 t2.2,
    visitTwoPhase_stable (fun f => edgesHead m 2 start stop f)
      (fun f => clockwiseTail m f stop) _ fuel w3.1 t1.1 w3.2 t1.2,
    visitTwoPhase_stable (fun f => edgesHead m 1 start stop f)
      (fun f => edgesAnticlockwiseTail m f stop) _ fuel w4.1 t3.1 w4.2 t3.2⟩

/-- The same for a pair of loops whose results are known not to depend on the budget
once they return: the pair returns the same value after the same calls of the visitor
within every budget of at least `3 n + 1` steps. -/
theorem visit_by_ring {n : Nat} {V : Nat → Nat → Nat} (m : Manifold)
    (hinv : MatchInv n V m.m_triangles) (k1 k2 : Nat) (start stop : Link)
    (hstart : start = InvalidLink ∨ ValidCorner n start)
    (hstop : stop = InvalidLink ∨ ValidCorner n stop)
    (F1 F2 : Nat → List Link × LoopExit)
    (x1 : ∀ f, (F1 f).2 = walkExit m k1 stop f start)
    (x2 : ∀ f, (F2 f).2 = walkExit m k2 InvalidLink f stop)
    (l1 : ∀ f, (F1 f).1.length ≤ f + 1) (l2 : ∀ f, (F2 f).1.length ≤ f)
    (stable : ∀ fuel b, (visitTwoPhase (F1 fuel) (F2 fuel)).2 = .returned b →
      visitTwoPhase (F1 (3 * n + 1)) (F2 (3 * n + 1)) = visitTwoPhase (F1 fuel) (F2 fuel)) :
    (VisitEnds m k1 k2 start stop →
      ∃ b L, (∀ fuel, 3 * n + 1 ≤ fuel → visitTwoPhase (F1 fuel) (F2 fuel) = (L, .returned b)) ∧
        L.length ≤ 6 * n + 3 ∧ (b = true ↔ MeetsEnd m k1 start stop)) ∧
    (¬ VisitEnds m k1 k2 start stop →
      ∀ fuel, (visitTwoPhase (F1 fuel) (F2 fuel)).2 = .fault .outOfFuel) := by
  obtain ⟨g1, g2⟩ := visitTwoPhase_by_ring m hinv k1 k2 start stop hstart hstop F1 F2 x1 x2 l1 l2
  refine ⟨fun hends => ?_, g2⟩
  obtain ⟨b, r1, r2, r3⟩ := g1 hends
  refine ⟨b, (visitTwoPhase (F1 (3 * n + 1)) (F2 (3 * n + 1))).1, fun fuel hle => ?_, r2, r3⟩
  rw [← stable fuel b (r1 fuel hle)]
  exact Prod.ext rfl (r1 (3 * n + 1) (le_refl _))

/-! ## The scenarios of `manifoldTest.cpp`

The assertions of the unit tests of the repository, evaluated in the model. -/

theorem build_pairInput :
    build empty ⟨[], [], []⟩ pairInput = .ok (true, pairManifold, pairWorkspace) :=
  rfl

/-- The assertion of line 46: `build` succeeds on the grid. -/
theorem build_gridInput :
    build empty ⟨[], [], []⟩ gridInput = .ok (true, gridManifold, gridWorkspace) :=
  rfl

/-- The assertion of line 129: `build` succeeds on the double fan. -/
theorem build_fanInput :
    build empty ⟨[], [], []⟩ fanInput = .ok (true, fanManifold, fanWorkspace) :=
  rfl

/-- The visits of `visitRingTest` (lines 50-112): the number of calls of the visitor
and the vertex at every visited corner are those asserted there. -/
theorem visitRingTest_scenarios :
    visitTrianglesClockwise gridManifold ⟨7, 0⟩ ⟨2, 1⟩ 12 =
      ([⟨7, 0⟩, ⟨6, 0⟩, ⟨5, 1⟩, ⟨0, 1⟩, ⟨1, 2⟩, ⟨2, 2⟩], .returned true) ∧
    visitTrianglesAnticlockwise gridManifold ⟨7, 0⟩ ⟨2, 1⟩ 12 =
      ([⟨7, 1⟩, ⟨8, 0⟩, ⟨9, 0⟩, ⟨4, 2⟩, ⟨3, 2⟩, ⟨2, 1⟩], .returned true) ∧
    visitTrianglesAnticlockwise gridManifold ⟨9, 0⟩ ⟨4, 1⟩ 12 =
      ([⟨9, 1⟩, ⟨11, 0⟩, ⟨4, 1⟩, ⟨10, 2⟩], .returned false) ∧
    visitTrianglesClockwise gridManifold ⟨5, 0⟩ ⟨0, 1⟩ 12 =
      ([⟨5, 0⟩, ⟨0, 2⟩], .returned false) ∧
    visitTrianglesClockwise gridManifold ⟨0, 2⟩ InvalidLink 12 =
      ([⟨0, 2⟩, ⟨5, 0⟩], .returned false) ∧
    visitTrianglesClockwise gridManifold InvalidLink ⟨5, 2⟩ 12 =
      ([⟨5, 0⟩, ⟨0, 2⟩], .returned false) ∧
    visitTrianglesAnticlockwise gridManifold ⟨5, 2⟩ InvalidLink 12 =
      ([⟨5, 0⟩, ⟨0, 2⟩], .returned false) ∧
    visitTrianglesAnticlockwise gridManifold InvalidLink ⟨0, 2⟩ 12 =
      ([⟨0, 2⟩, ⟨5, 0⟩], .returned false) ∧
    [(⟨7, 0⟩ : Link), ⟨6, 0⟩, ⟨5, 1⟩, ⟨0, 1⟩, ⟨1, 2⟩, ⟨2, 2⟩].map
      (fun it => vertexAt gridManifold.m_triangles it.index it.side) = [4, 4, 4, 4, 4, 4] ∧
    [(⟨7, 1⟩ : Link), ⟨8, 0⟩, ⟨9, 0⟩, ⟨4, 2⟩, ⟨3, 2⟩, ⟨2, 1⟩].map
      (fun it => vertexAt gridManifold.m_triangles it.index it.side) = [5, 5, 5, 5, 5, 5] ∧
    [(⟨9, 1⟩ : Link), ⟨11, 0⟩, ⟨4, 1⟩, ⟨10, 2⟩].map
      (fun it => vertexAt gridManifold.m_triangles it.index it.side) = [6, 6, 6, 6] ∧
    [(⟨5, 0⟩ : Link), ⟨0, 2⟩].map
      (fun it => vertexAt gridManifold.m_triangles it.index it.side) = [3, 3] := by
  decide

/-- The visits of `visitEdgesTest` (lines 136-218): the visited sides are those
asserted there. -/
theorem visitEdgesTest_scenarios :
    visitEdgesClockwise fanManifold ⟨7, 0⟩ ⟨2, 1⟩ 12 =
      ([⟨7, 0⟩, ⟨7, 2⟩, ⟨6, 2⟩, ⟨2, 2⟩, ⟨1, 2⟩, ⟨0, 1⟩], .returned false) ∧
    visitEdgesClockwise fanManifold ⟨7, 0⟩ InvalidLink 12 =
      ([⟨7, 0⟩, ⟨7, 2⟩, ⟨6, 2⟩], .returned false) ∧
    visitEdgesClockwise fanManifold InvalidLink ⟨2, 1⟩ 12 =
      ([⟨2, 2⟩, ⟨1, 2⟩, ⟨0, 1⟩], .returned false) ∧
    visitEdgesAnticlockwise fanManifold ⟨2, 1⟩ ⟨7, 0⟩ 12 =
      ([⟨2, 1⟩, ⟨2, 2⟩, ⟨1, 2⟩, ⟨0, 1⟩, ⟨7, 2⟩, ⟨6, 2⟩], .returned false) ∧
    visitEdgesClockwise fanManifold ⟨3, 2⟩ ⟨8, 2⟩ 12 =
      ([⟨3, 2⟩, ⟨3, 1⟩, ⟨4, 1⟩, ⟨5, 1⟩, ⟨10, 2⟩, ⟨9, 2⟩], .returned true) ∧
    visitEdgesAnticlockwise fanManifold ⟨8, 2⟩ ⟨3, 2⟩ 12 =
      ([⟨8, 2⟩, ⟨8, 0⟩, ⟨9, 0⟩, ⟨10, 0⟩, ⟨5, 2⟩, ⟨4, 2⟩], .returned true) := by
  decide

/-! ## The claims about `build` -/

/-- C1 (reciprocity). Whenever `build` returns `true`, a link of side `s` of triangle
`t` that is not the sentinel names a triangle `t2` and a side `s2` whose link is
`(t, s)`. -/
theorem build_reciprocity (m0 : Manifold) (wks : BuildWorkspace) (xs : List Nat) (m : Manifold)
    (wks1 : BuildWorkspace) (h : build m0 wks xs = .ok (true, m, wks1)) (t s : Nat)
    (tri : Triangle) (ht : m.m_triangles[t]? = some tri) (hs : s < 3)
    (hl : tri.link s ≠ InvalidLink) :
    ∃ tri2, m.m_triangles[(tri.link s).index]? = some tri2 ∧
      tri2.link (tri.link s).side = ⟨t, s⟩ := by
  obtain ⟨_, hinv, _, _⟩ := build_spec m0 wks xs true m wks1 h
  have htl : t < xs.length / 3 := by
    rw [← hinv.len]
    exact lt_of_getElem? ht
  have hlink : linkAt m.m_triangles t s = tri.link s := linkAt_of_getElem? ht s
  obtain ⟨q1, _, q3, _, _⟩ := hinv.links t s htl hs (by rw [hlink]; exact hl)
  rw [hlink] at q1 q3
  obtain ⟨tri2, htri2⟩ := exists_getElem? m.m_triangles (tri.link s).index
    (by rw [hinv.len]; exact q1)
  exact ⟨tri2, htri2, by rw [← linkAt_of_getElem? htri2]; exact q3⟩

/-- Witness for C1: on `pairInput`, side 0 of triangle 0 is linked to `(1, 0)` and
side 0 of triangle 1 links back to `(0, 0)`. -/
theorem build_reciprocity_witness :
    build empty ⟨[], [], []⟩ pairInput = .ok (true, pairManifold, pairWorkspace) ∧
    ∃ tri2, pairManifold.m_triangles[1]? = some tri2 ∧ tri2.link 0 = ⟨0, 0⟩ :=
  ⟨rfl, build_reciprocity empty ⟨[], [], []⟩ pairInput pairManifold pairWorkspace rfl 0 0
    ⟨0, 1, 2, ⟨1, 0⟩, InvalidLink, InvalidLink⟩ rfl (by decide) (by decide)⟩

/-- C2 (completeness of adjacency). Whenever `build` returns `true`, two sides of two
distinct triangles that run along the same two vertices in opposite directions are
linked with each other. -/
theorem build_links_shared_edges (m0 : Manifold) (wks : BuildWorkspace) (xs : List Nat)
    (m : Manifold) (wks1 : BuildWorkspace) (h : build m0 wks xs = .ok (true, m, wks1))
    (t1 t2 s1 s2 : Nat) (tri1 tri2 : Triangle) (hne : t1 ≠ t2)
    (ht1 : m.m_triangles[t1]? = some tri1) (ht2 : m.m_triangles[t2]? = some tri2)
    (hs1 : s1 < 3) (hs2 : s2 < 3)
    (hv1 : tri1.vertex s1 = tri2.vertex ((s2 + 1) % 3))
    (hv2 : tri1.vertex ((s1 + 1) % 3) = tri2.vertex s2) :
    tri1.link s1 = ⟨t2, s2⟩ ∧ tri2.link s2 = ⟨t1, s1⟩ := by
  obtain ⟨_, hinv, hcomp, _⟩ := build_spec m0 wks xs true m wks1 h
  have hcomp := hcomp rfl
  have hl1 : t1 < xs.length / 3 := by rw [← hinv.len]; exact lt_of_getElem? ht1
  have hl2 : t2 < xs.length / 3 := by rw [← hinv.len]; exact lt_of_getElem? ht2
  have hV1 : ∀ j, tri1.vertex j = vertexAt (triplesOf xs) t1 j := by
    intro j
    have := hinv.vert t1 j
    rw [vertexAt_of_getElem? ht1, if_pos hl1] at this
    exact this
  have hV2 : ∀ j, tri2.vertex j = vertexAt (triplesOf xs) t2 j := by
    intro j
    have := hinv.vert t2 j
    rw [vertexAt_of_getElem? ht2, if_pos hl2] at this
    exact this
  rw [hV1, hV2] at hv1 hv2
  rw [← linkAt_of_getElem? ht1 s1, ← linkAt_of_getElem? ht2 s2]
  have hm : (s2 + 1) % 3 < 3 := Nat.mod_lt _ (by decide)
  have hm1 : (s1 + 1) % 3 < 3 := Nat.mod_lt _ (by decide)
  have e2 : ((s2 + 1) % 3 + 2) % 3 = s2 := by omega
  have e1 : ((s1 + 1) % 3 + 2) % 3 = s1 := by omega
  rcases Nat.lt_or_gt_of_ne hne with hlt | hgt
  · have := hcomp ⟨t1, s1⟩ ⟨t2, (s2 + 1) % 3⟩ ⟨hl1, hs1⟩ ⟨hl2, hm⟩
      (by intro e; exact hne (congrArg Link.index e)) hv1 (Nat.le_of_lt hlt)
      (by simp only [e2]; exact hv2)
    simp only [e2] at this
    exact this
  · have := hcomp ⟨t2, s2⟩ ⟨t1, (s1 + 1) % 3⟩ ⟨hl2, hs2⟩ ⟨hl1, hm1⟩
      (by intro e; exact hne (congrArg Link.index e).symm) hv2.symm (Nat.le_of_lt hgt)
      (by simp only [e1]; exact hv1.symm)
    simp only [e1] at this
    exact ⟨this.2, this.1⟩

/-- Witness for C2: on `pairInput`, side 0 of triangle 0 runs from vertex 0 to
vertex 1 and side 0 of triangle 1 from vertex 1 to vertex 0; they are linked. -/
theorem build_links_shared_edges_witness :
    build empty ⟨[], [], []⟩ pairInput = .ok (true, pairManifold, pairWorkspace) ∧
    (⟨0, 1, 2, ⟨1, 0⟩, InvalidLink, InvalidLink⟩ : Triangle).link 0 = ⟨1, 0⟩ ∧
    (⟨1, 0, 3, ⟨0, 0⟩, InvalidLink, InvalidLink⟩ : Triangle).link 0 = ⟨0, 0⟩ :=
  ⟨rfl, build_links_shared_edges empty ⟨[], [], []⟩ pairInput pairManifold pairWorkspace rfl
    0 1 0 0 ⟨0, 1, 2, ⟨1, 0⟩, InvalidLink, InvalidLink⟩
    ⟨1, 0, 3, ⟨0, 0⟩, InvalidLink, InvalidLink⟩ (by decide) rfl rfl (by decide) (by decide)
    rfl rfl⟩

/-- C3 (soundness of adjacency). After `build` has returned, with either result, a
link of side `s` of triangle `t` that is not the sentinel names a side `s2` in
`0, 1, 2` of an existing triangle `t2` that runs along the same two vertices in the
opposite direction; hence a side for which no such side exists anywhere in the mesh
keeps the sentinel. -/
theorem build_links_sound (m0 : Manifold) (wks : BuildWorkspace) (xs : List Nat) (r : Bool)
    (m : Manifold) (wks1 : BuildWorkspace) (h : build m0 wks xs = .ok (r, m, wks1)) (t s : Nat)
    (tri : Triangle) (ht : m.m_triangles[t]? = some tri) (hs : s < 3) :
    (tri.link s ≠ InvalidLink →
      (tri.link s).side < 3 ∧
      ∃ tri2, m.m_triangles[(tri.link s).index]? = some tri2 ∧
        tri2.vertex (tri.link s).side = tri.vertex ((s + 1) % 3) ∧
        tri2.vertex (((tri.link s).side + 1) % 3) = tri.vertex s) ∧
    ((∀ (t2 s2 : Nat) (tri2 : Triangle), m.m_triangles[t2]? = some tri2 → s2 < 3 →
        ¬ (tri2.vertex s2 = tri.vertex ((s + 1) % 3) ∧
          tri2.vertex ((s2 + 1) % 3) = tri.vertex s)) →
      tri.link s = InvalidLink) := by
  obtain ⟨_, hinv, _, _⟩ := build_spec m0 wks xs r m wks1 h
  have htl : t < xs.length / 3 := by
    rw [← hinv.len]
    exact lt_of_getElem? ht
  have hlink : linkAt m.m_triangles t s = tri.link s := linkAt_of_getElem? ht s
  have main : tri.link s ≠ InvalidLink →
      (tri.link s).side < 3 ∧
      ∃ tri2, m.m_triangles[(tri.link s).index]? = some tri2 ∧
        tri2.vertex (tri.link s).side = tri.vertex ((s + 1) % 3) ∧
        tri2.vertex (((tri.link s).side + 1) % 3) = tri.vertex s := by
    intro hl
    obtain ⟨q1, q2, _, q4, q5⟩ := hinv.links t s htl hs (by rw [hlink]; exact hl)
    rw [hlink] at q1 q2 q4 q5
    obtain ⟨tri2, htri2⟩ := exists_getElem? m.m_triangles (tri.link s).index
      (by rw [hinv.len]; exact q1)
    have hV : ∀ j, tri.vertex j = vertexAt (triplesOf xs) t j := by
      intro j
      have := hinv.vert t j
      rw [vertexAt_of_getElem? ht, if_pos htl] at this
      exact this
    have hV2 : ∀ j, tri2.vertex j = vertexAt (triplesOf xs) (tri.link s).index j := by
      intro j
      have := hinv.vert (tri.link s).index j
      rw [vertexAt_of_getElem? htri2, if_pos q1] at this
      exact this
    exact ⟨q2, tri2, htri2, by rw [hV2, hV]; exact q4, by rw [hV2, hV]; exact q5⟩
  refine ⟨main, ?_⟩
  intro hnone
  by_contra hl
  obtain ⟨q2, tri2, htri2, q4, q5⟩ := main hl
  exact hnone _ _ tri2 htri2 q2 ⟨q4, q5⟩

/-- Witness for C3: on `pairInput`, side 0 of triangle 0 is linked to side 0 of
triangle 1, which runs from vertex 1 to vertex 0. -/
theorem build_links_sound_witness :
    build empty ⟨[], [], []⟩ pairInput = .ok (true, pairManifold, pairWorkspace) ∧
    ((⟨1, 0⟩ : Link) ≠ InvalidLink →
      (0 : Nat) < 3 ∧
      ∃ tri2, pairManifold.m_triangles[1]? = some tri2 ∧
        tri2.vertex 0 = 1 ∧ tri2.vertex 1 = 0) :=
  ⟨rfl, (build_links_sound empty ⟨[], [], []⟩ pairInput true pairManifold pairWorkspace rfl 0 0
    ⟨0, 1, 2, ⟨1, 0⟩, InvalidLink, InvalidLink⟩ rfl (by decide)).1⟩

/-- Counterexample to C4: three triangles `(0,1,2)`, `(0,1,3)`, `(0,1,4)` whose side 0
joins the vertices 0 and 1, all three from 0 to 1; `build` returns `true` and links
nothing. -/
theorem build_accepts_same_winding :
    build empty ⟨[], [], []⟩ [0, 1, 2, 0, 1, 3, 0, 1, 4] =
      .ok (true,
        ⟨[⟨0, 1, 2, InvalidLink, InvalidLink, InvalidLink⟩,
          ⟨0, 1, 3, InvalidLink, InvalidLink, InvalidLink⟩,
          ⟨0, 1, 4, InvalidLink, InvalidLink, InvalidLink⟩], 5⟩,
        ⟨[⟨2, 0⟩, ⟨2, 1⟩, ⟨0, 2⟩, ⟨1, 2⟩, ⟨2, 2⟩],
         [⟨InvalidLink, InvalidLink, InvalidLink⟩, ⟨⟨0, 0⟩, ⟨0, 1⟩, InvalidLink⟩,
          ⟨⟨1, 0⟩, ⟨1, 1⟩, InvalidLink⟩],
         [⟨2, 2⟩]⟩) :=
  rfl

/-- C4, amended (non-manifold rejection). When every vertex index in a complete
triple is below `2^32 - 1` and three distinct triangles share one edge, one of them
running along it against the direction of the other two, `build` returns `false`. -/
theorem build_rejects_third_triangle (m0 : Manifold) (wks : BuildWorkspace) (xs : List Nat)
    (hb : ∀ v ∈ usedIndices xs, v < 4294967295) (t t1 t2 s s1 s2 : Nat)
    (ht : t < xs.length / 3) (ht1 : t1 < xs.length / 3) (ht2 : t2 < xs.length / 3)
    (hs : s < 3) (hs1 : s1 < 3) (hs2 : s2 < 3)
    (hne1 : t ≠ t1) (hne2 : t ≠ t2) (hne12 : t1 ≠ t2)
    (ho1 : Opposite (triplesOf xs) t s t1 s1) (ho2 : Opposite (triplesOf xs) t s t2 s2) :
    ∃ m wks1, build m0 wks xs = .ok (false, m, wks1) := by
  obtain ⟨r, m, wks1, h⟩ := build_total m0 wks xs hb
  cases r with
  | false => exact ⟨m, wks1, h⟩
  | true =>
    exfalso
    obtain ⟨_, _, hcomp, _⟩ := build_spec m0 wks xs true m wks1 h
    have hcomp := hcomp rfl
    have key : ∀ u su, u < xs.length / 3 → su < 3 → t ≠ u → Opposite (triplesOf xs) t s u su →
        linkAt m.m_triangles t s = ⟨u, su⟩ := by
      intro u su hu hsu hne ho
      have hm : (su + 1) % 3 < 3 := Nat.mod_lt _ (by decide)
      have hm1 : (s + 1) % 3 < 3 := Nat.mod_lt _ (by decide)
      have e2 : ((su + 1) % 3 + 2) % 3 = su := by omega
      have e1 : ((s + 1) % 3 + 2) % 3 = s := by omega
      rcases Nat.lt_or_gt_of_ne hne with hlt | hgt
      · have := hcomp ⟨t, s⟩ ⟨u, (su + 1) % 3⟩ ⟨ht, hs⟩ ⟨hu, hm⟩
          (by intro e; exact hne (congrArg Link.index e)) ho.1 (Nat.le_of_lt hlt)
          (by simp only [e2]; exact ho.2)
        simp only [e2] at this
        exact this.1
      · have := hcomp ⟨u, su⟩ ⟨t, (s + 1) % 3⟩ ⟨hu, hsu⟩ ⟨ht, hm1⟩
          (by intro e; exact hne (congrArg Link.index e).symm) ho.2.symm (Nat.le_of_lt hgt)
          (by simp only [e1]; exact ho.1.symm)
        simp only [e1] at this
        exact this.2
    have k1 := key t1 s1 ht1 hs1 hne1 ho1
    have k2 := key t2 s2 ht2 hs2 hne2 ho2
    rw [k1] at k2
    exact hne12 (congrArg Link.index k2)

/-- Witness for C4, amended: in `(0,1,2)`, `(1,0,3)`, `(1,0,4)` side 0 of the first
triangle runs from 0 to 1 and side 0 of the two others from 1 to 0. -/
theorem build_rejects_third_triangle_witness :
    (∀ v ∈ usedIndices [0, 1, 2, 1, 0, 3, 1, 0, 4], v < 4294967295) ∧
    Opposite (triplesOf [0, 1, 2, 1, 0, 3, 1, 0, 4]) 0 0 1 0 ∧
    Opposite (triplesOf [0, 1, 2, 1, 0, 3, 1, 0, 4]) 0 0 2 0 ∧
    ∃ m wks1, build empty ⟨[], [], []⟩ [0, 1, 2, 1, 0, 3, 1, 0, 4] = .ok (false, m, wks1) :=
  ⟨by decide, ⟨rfl, rfl⟩, ⟨rfl, rfl⟩,
    build_rejects_third_triangle empty ⟨[], [], []⟩ [0, 1, 2, 1, 0, 3, 1, 0, 4] (by decide)
      0 1 2 0 0 0 (by decide) (by decide) (by decide) (by decide) (by decide) (by decide)
      (by decide) (by decide) (by decide) ⟨rfl, rfl⟩ ⟨rfl, rfl⟩⟩

/-- C5. After `build` has returned, with either result, `m_triangles` holds one
triangle per complete triple of the input, `xs.length / 3` of them, and corner `j` of
triangle `k` is element `3k + j`; the call on the input without its one or two
leftover elements is the same call. -/
theorem build_triangles (m0 : Manifold) (wks : BuildWorkspace) (xs : List Nat) (r : Bool)
    (m : Manifold) (wks1 : BuildWorkspace) (h : build m0 wks xs = .ok (r, m, wks1)) :
    m.m_triangles.length = xs.length / 3 ∧
    (∀ k j, k < xs.length / 3 → j < 3 →
      ∃ tri, m.m_triangles[k]? = some tri ∧ xs[3 * k + j]? = some (tri.vertex j)) ∧
    build m0 wks (xs.take (3 * (xs.length / 3))) = build m0 wks xs := by
  obtain ⟨_, hinv, _, _⟩ := build_spec m0 wks xs r m wks1 h
  refine ⟨hinv.len, ?_, ?_⟩
  · intro k j hk hj
    obtain ⟨tri, htri⟩ := exists_getElem? m.m_triangles k (by rw [hinv.len]; exact hk)
    refine ⟨tri, htri, ?_⟩
    have := hinv.vert k j
    rw [vertexAt_of_getElem? htri, if_pos hk] at this
    rw [this]
    exact vertexAt_triplesOf xs k j hk hj
  · have := loadTriangles_usedIndices xs ⟨vecClear m0.m_triangles, 0⟩
    unfold usedIndices at this
    unfold build
    rw [this]

/-- Witness for C5: `pairInput` has seven elements; `build` leaves two triangles and
corner 1 of triangle 1 is element 4. -/
theorem build_triangles_witness :
    build empty ⟨[], [], []⟩ pairInput = .ok (true, pairManifold, pairWorkspace) ∧
    pairManifold.m_triangles.length = pairInput.length / 3 ∧
    (∀ k j, k < pairInput.length / 3 → j < 3 →
      ∃ tri, pairManifold.m_triangles[k]? = some tri ∧
        pairInput[3 * k + j]? = some (tri.vertex j)) ∧
    build empty ⟨[], [], []⟩ (pairInput.take (3 * (pairInput.length / 3))) =
      build empty ⟨[], [], []⟩ pairInput :=
  ⟨rfl, build_triangles empty ⟨[], [], []⟩ pairInput true pairManifold pairWorkspace rfl⟩

/-- Counterexample to C6: for the triple `(4294967295, 0, 0)` the loading loop
leaves `m_maxVertexCount = 1`, not one more than the greatest vertex index, and
`build` then reads `vertexRings` out of bounds. -/
theorem maxVertexCount_wraps :
    (loadTriangles [4294967295, 0, 0] ⟨vecClear [], 0⟩).m_maxVertexCount = 1 ∧
    build empty ⟨[], [], []⟩ [4294967295, 0, 0] = .error .outOfBounds :=
  ⟨rfl, rfl⟩

/-- C6, amended. When every vertex index in a complete triple is below `2^32 - 1`,
`build` returns and leaves `m_maxVertexCount` equal to 0 if the input has no complete
triple, and otherwise to one more than the greatest vertex index in the complete
triples. -/
theorem build_maxVertexCount (m0 : Manifold) (wks : BuildWorkspace) (xs : List Nat)
    (hb : ∀ v ∈ usedIndices xs, v < 4294967295) :
    ∃ r m wks1, build m0 wks xs = .ok (r, m, wks1) ∧
      (xs.length / 3 = 0 → m.m_maxVertexCount = 0) ∧
      (xs.length / 3 ≠ 0 →
        ∃ v ∈ usedIndices xs, m.m_maxVertexCount = v + 1 ∧ ∀ w ∈ usedIndices xs, w ≤ v) := by
  obtain ⟨r, m, wks1, h⟩ := build_total m0 wks xs hb
  obtain ⟨hcount, _, _, _⟩ := build_spec m0 wks xs r m wks1 h
  obtain ⟨c1, _, c3⟩ := loadTriangles_count xs ⟨[], 0⟩ hb
  refine ⟨r, m, wks1, h, ?_, ?_⟩
  · intro hz
    rw [hcount, loadTriangles_short xs _ (by omega)]
  · intro hnz
    have hmem := vertexAt_mem_usedIndices xs 0 0 (by omega) (by decide)
    have hpos := c1 _ hmem
    rcases c3 with e | ⟨v, hv, e⟩
    · simp only at e
      omega
    · refine ⟨v, hv, by rw [hcount, e], ?_⟩
      intro w hw
      have := c1 w hw
      omega

/-- Witness for C6, amended: on `pairInput` the greatest vertex index in the two
complete triples is 3 (the leftover 7 does not count). -/
theorem build_maxVertexCount_witness :
    (∀ v ∈ usedIndices pairInput, v < 4294967295) ∧
    ∃ r m wks1, build empty ⟨[], [], []⟩ pairInput = .ok (r, m, wks1) ∧
      (pairInput.length / 3 = 0 → m.m_maxVertexCount = 0) ∧
      (pairInput.length / 3 ≠ 0 →
        ∃ v ∈ usedIndices pairInput, m.m_maxVertexCount = v + 1 ∧
          ∀ w ∈ usedIndices pairInput, w ≤ v) :=
  ⟨by decide, build_maxVertexCount empty ⟨[], [], []⟩ pairInput (by decide)⟩

/-- Counterexample to C7: for the single triangle `(0, 0, 1)`, whose first two
vertices coincide, `build` returns `true` and links side 0 to itself and sides 1 and 2
to each other. -/
theorem build_links_degenerate_triangle :
    build empty ⟨[], [], []⟩ [0, 0, 1] =
      .ok (true, ⟨[⟨0, 0, 1, ⟨0, 0⟩, ⟨0, 2⟩, ⟨0, 1⟩⟩], 2⟩,
        ⟨[⟨0, 1⟩, ⟨0, 2⟩], [⟨InvalidLink, ⟨0, 0⟩, InvalidLink⟩], [⟨0, 2⟩]⟩) :=
  rfl

/-- C7, amended (boundary correctness). For a single triangle with three distinct
vertex indices below `2^32 - 1`, `build` returns `true` and all three links of the
triangle are the sentinel. -/
theorem build_single_triangle (m0 : Manifold) (wks : BuildWorkspace) (a b c : Nat)
    (hab : a ≠ b) (hbc : b ≠ c) (hac : a ≠ c)
    (ha : a < 4294967295) (hb : b < 4294967295) (hc : c < 4294967295) :
    ∃ m wks1, build m0 wks [a, b, c] = .ok (true, m, wks1) ∧
      m.m_triangles = [⟨a, b, c, InvalidLink, InvalidLink, InvalidLink⟩] := by
  have hused : usedIndices [a, b, c] = [a, b, c] := by
    rw [usedIndices_cons3, usedIndices_short [] (by simp)]
  have hbound : ∀ v ∈ usedIndices [a, b, c], v < 4294967295 := by
    intro v hv
    rw [hused] at hv
    simp only [List.mem_cons, List.mem_singleton, List.not_mem_nil, or_false] at hv
    rcases hv with rfl | rfl | rfl <;> assumption
  obtain ⟨r, m, wks1, h⟩ := build_total m0 wks [a, b, c] hbound
  obtain ⟨_, hinv, _, hfalse⟩ := build_spec m0 wks [a, b, c] r m wks1 h
  have hlen1 : [a, b, c].length / 3 = 1 := by simp
  rw [hlen1] at hinv hfalse
  have hV0 : vertexAt (triplesOf [a, b, c]) 0 0 = a := rfl
  have hV1 : vertexAt (triplesOf [a, b, c]) 0 1 = b := rfl
  have hV2 : vertexAt (triplesOf [a, b, c]) 0 2 = c := rfl
  have hVinj : ∀ i j, i < 3 → j < 3 →
      vertexAt (triplesOf [a, b, c]) 0 i = vertexAt (triplesOf [a, b, c]) 0 j → i = j := by
    intro i j hi hj e
    have hi' : i = 0 ∨ i = 1 ∨ i = 2 := by omega
    have hj' : j = 0 ∨ j = 1 ∨ j = 2 := by omega
    rcases hi' with rfl | rfl | rfl <;> rcases hj' with rfl | rfl | rfl <;>
      simp only [hV0, hV1, hV2] at e <;> first | rfl | (exfalso; omega)
  have hfree : ∀ s, s < 3 → linkAt m.m_triangles 0 s = InvalidLink := by
    intro s hs
    by_contra hne
    obtain ⟨q1, q2, _, q4, q5⟩ := hinv.links 0 s (by decide) hs hne
    have e0 : (linkAt m.m_triangles 0 s).index = 0 := by omega
    rw [e0] at q4 q5
    have e1 := hVinj _ _ q2 (Nat.mod_lt _ (by decide)) q4
    have e2 := hVinj _ _ (Nat.mod_lt _ (by decide)) hs q5
    omega
  have hr : r = true := by
    cases r with
    | true => rfl
    | false =>
      exfalso
      obtain ⟨c1, c2, v1, v2, hne, hsame, _⟩ := hfalse rfl
      have i1 : c1.index = 0 := by have := v1.1; omega
      have i2 : c2.index = 0 := by have := v2.1; omega
      rw [i1, i2] at hsame
      have hside := hVinj _ _ v1.2 v2.2 hsame
      apply hne
      obtain ⟨x1, y1⟩ := c1
      obtain ⟨x2, y2⟩ := c2
      simp only at i1 i2 hside
      rw [i1, i2, hside]
  subst hr
  refine ⟨m, wks1, h, ?_⟩
  obtain ⟨tri, htri, hl, hv⟩ := getElem?_of_lt_links m.m_triangles 0
    (by rw [hinv.len]; decide)
  have hvert : ∀ j, tri.vertex j = vertexAt (triplesOf [a, b, c]) 0 j := by
    intro j
    have := hinv.vert 0 j
    rw [hv, if_pos (by decide)] at this
    exact this
  have hm : m.m_triangles = [tri] := by
    have hlen := hinv.len
    match hmt : m.m_triangles, hlen with
    | [x], _ =>
      rw [hmt] at htri
      simp only [List.getElem?_cons_zero, Option.some.injEq] at htri
      rw [htri]
  rw [hm]
  have l0 := hl 0
  have l1 := hl 1
  have l2 := hl 2
  rw [hfree 0 (by decide)] at l0
  rw [hfree 1 (by decide)] at l1
  rw [hfree 2 (by decide)] at l2
  have w0 := hvert 0
  have w1 := hvert 1
  have w2 := hvert 2
  rw [hV0] at w0
  rw [hV1] at w1
  rw [hV2] at w2
  obtain ⟨x0, x1, x2, y0, y1, y2⟩ := tri
  simp only [Triangle.vertex, Triangle.link] at l0 l1 l2 w0 w1 w2
  rw [w0, w1, w2, ← l0, ← l1, ← l2]

/-- Witness for C7, amended: the single triangle `(3, 5, 9)`. -/
theorem build_single_triangle_witness :
    ∃ m wks1, build empty ⟨[], [], []⟩ [3, 5, 9] = .ok (true, m, wks1) ∧
      m.m_triangles = [⟨3, 5, 9, InvalidLink, InvalidLink, InvalidLink⟩] :=
  build_single_triangle empty ⟨[], [], []⟩ 3 5 9 (by decide) (by decide) (by decide)
    (by decide) (by decide) (by decide)

/-- C8 (idempotent rebuild). The value `build` returns and the manifold it leaves
depend on the input sequence only: whatever the manifold and the workspace held before
the call, the result is the same; in particular a second call on the manifold and
workspace left by a first call returns the same value and leaves the same triangles. -/
theorem build_independent (m0 : Manifold) (wks : BuildWorkspace) (m0' : Manifold)
    (wks' : BuildWorkspace) (xs : List Nat) (r : Bool) (m : Manifold) (wks1 : BuildWorkspace)
    (h : build m0 wks xs = .ok (r, m, wks1)) :
    (∃ wks2, build m0' wks' xs = .ok (r, m, wks2)) ∧
    ∃ wks2, build m wks1 xs = .ok (r, m, wks2) := by
  rw [build_eq] at h
  constructor
  · rw [build_eq]
    exact buildWks_workspace _ wks wks' r m wks1 h
  · rw [build_eq]
    exact buildWks_workspace _ wks wks1 r m wks1 h

/-- Witness for C8: `build` on `pairInput`, first on an empty manifold and workspace,
then on the grid's manifold and workspace, then again on its own result. -/
theorem build_independent_witness :
    build empty ⟨[], [], []⟩ pairInput = .ok (true, pairManifold, pairWorkspace) ∧
    (∃ wks2, build gridManifold gridWorkspace pairInput = .ok (true, pairManifold, wks2)) ∧
    ∃ wks2, build pairManifold pairWorkspace pairInput = .ok (true, pairManifold, wks2) :=
  ⟨rfl, build_independent empty ⟨[], [], []⟩ gridManifold gridWorkspace pairInput true
    pairManifold pairWorkspace rfl⟩

/-! ## The claims about the visits -/

/-- C9 (phase-1 success of `visitTrianglesClockwise`). Let `p 0 = start` and
`p (i+1) = nextClockwise (p i)`. If `p 0, ..., p k` are not the sentinel, `p k` turned
by two sides is `stop`, and no earlier `p i` turned by two sides is `stop`, then with a
budget of more than `k` steps the call returns `true` from its first loop, having
passed exactly the `k + 1` links `p 0, ..., p k` to the visitor, in this order. -/
theorem visitTrianglesClockwise_reaches_stop (m : Manifold) (start stop : Link) (k : Nat)
    (p : Nat → Link) (h0 : p 0 = start)
    (hstep : ∀ i, i < k → nextClockwise m (p i) = some (p (i + 1)))
    (hvalid : ∀ i, i ≤ k → p i ≠ InvalidLink)
    (hend : rotate (p k) 2 = stop) (hfirst : ∀ i, i < k → rotate (p i) 2 ≠ stop)
    (fuel : Nat) (hfuel : k < fuel) :
    visitTrianglesClockwise m start stop fuel = ((List.range (k + 1)).map p, .returned true) ∧
    trianglesClockwiseWalk m stop fuel start = ((List.range (k + 1)).map p, .returned true) ∧
    ((List.range (k + 1)).map p).length = k + 1 := by
  have hwalk := trianglesClockwiseWalk_path m stop k p fuel hstep hvalid hend hfirst hfuel
  rw [h0] at hwalk
  refine ⟨?_, hwalk, by simp⟩
  unfold visitTrianglesClockwise
  rw [visitTwoPhase_returned _ _ true (by rw [hwalk]), hwalk]

/-- Witness for C9: on the 12-triangle grid, from `(7, 0)` to `(2, 1)` the visitor is
called six times, on the corners around vertex 4, and the call returns `true`. -/
theorem visitTrianglesClockwise_reaches_stop_witness :
    build empty ⟨[], [], []⟩ gridInput = .ok (true, gridManifold, gridWorkspace) ∧
    visitTrianglesClockwise gridManifold ⟨7, 0⟩ ⟨2, 1⟩ 6 =
      ((List.range (5 + 1)).map gridRing, .returned true) ∧
    trianglesClockwiseWalk gridManifold ⟨2, 1⟩ 6 ⟨7, 0⟩ =
      ((List.range (5 + 1)).map gridRing, .returned true) ∧
    ((List.range (5 + 1)).map gridRing).length = 5 + 1 :=
  ⟨rfl, visitTrianglesClockwise_reaches_stop gridManifold ⟨7, 0⟩ ⟨2, 1⟩ 5 gridRing rfl
    (by decide) (by decide) rfl (by decide) 6 (by decide)⟩

/-- C10 (visited items are corners at the pivot vertex). On a manifold left by
`build`, with `start` and `stop` each a corner of the mesh or the sentinel, every link
passed to the visitor by the first loop of `visitTrianglesClockwise` is a corner of the
mesh at the vertex of corner `start`, every link passed by its second loop is a corner at the
vertex that follows corner `stop`; for `visitTrianglesAnticlockwise` the first loop
stays at the vertex that follows corner `start` and the second at the vertex of corner
`stop`. The links a call passes are those of its first loop, followed by those of its
second loop when the first is left through its condition. -/
theorem triangle_visits_stay_at_vertex (m0 : Manifold) (wks : BuildWorkspace) (xs : List Nat)
    (r : Bool) (m : Manifold) (wks1 : BuildWorkspace) (h : build m0 wks xs = .ok (r, m, wks1))
    (start stop : Link)
    (hstart : start = InvalidLink ∨ ValidCorner m.m_triangles.length start)
    (hstop : stop = InvalidLink ∨ ValidCorner m.m_triangles.length stop) (fuel : Nat) :
    (∀ it ∈ (trianglesClockwiseWalk m stop fuel start).1,
      ValidCorner m.m_triangles.length it ∧
      vertexAt m.m_triangles it.index it.side = vertexAt m.m_triangles start.index start.side) ∧
    (∀ it ∈ (clockwiseTail m fuel stop).1,
      ValidCorner m.m_triangles.length it ∧
      vertexAt m.m_triangles it.index it.side =
        vertexAt m.m_triangles stop.index ((stop.side + 1) % 3)) ∧
    ((visitTrianglesClockwise m start stop fuel).1 = (trianglesClockwiseWalk m stop fuel start).1 ∨
      (visitTrianglesClockwise m start stop fuel).1 =
        (trianglesClockwiseWalk m stop fuel start).1 ++ (clockwiseTail m fuel stop).1) ∧
    (∀ it ∈ (trianglesAnticlockwiseWalk m stop fuel start).1,
      ValidCorner m.m_triangles.length it ∧
      vertexAt m.m_triangles it.index it.side =
        vertexAt m.m_triangles start.index ((start.side + 1) % 3)) ∧
    (∀ it ∈ (trianglesAnticlockwiseTail m fuel stop).1,
      ValidCorner m.m_triangles.length it ∧
      vertexAt m.m_triangles it.index it.side = vertexAt m.m_triangles stop.index stop.side) ∧
    ((visitTrianglesAnticlockwise m start stop fuel).1 =
        (trianglesAnticlockwiseWalk m stop fuel start).1 ∨
      (visitTrianglesAnticlockwise m start stop fuel).1 =
        (trianglesAnticlockwiseWalk m stop fuel start).1 ++
          (trianglesAnticlockwiseTail m fuel stop).1) := by
  obtain ⟨_, hinv, _, _⟩ := build_spec m0 wks xs r m wks1 h
  rw [hinv.len] at hstart hstop ⊢
  have hV : ∀ c : Link, ValidCorner (xs.length / 3) c → ∀ j,
      vertexAt m.m_triangles c.index j = vertexAt (triplesOf xs) c.index j := by
    intro c hc j
    rw [hinv.vert, if_pos hc.1]
  have lift : ∀ (l : List Link) (c : Link) (j : Nat),
      (c = InvalidLink → l = []) →
      (ValidCorner (xs.length / 3) c →
        ∀ x ∈ l, ValidCorner (xs.length / 3) x ∧
          vertexAt (triplesOf xs) x.index x.side = vertexAt (triplesOf xs) c.index j) →
      (c = InvalidLink ∨ ValidCorner (xs.length / 3) c) →
      ∀ it ∈ l, ValidCorner (xs.length / 3) it ∧
        vertexAt m.m_triangles it.index it.side = vertexAt m.m_triangles c.index j := by
    intro l c j hnil hval hc it hit
    rcases hc with hc | hc
    · rw [hnil hc] at hit
      simp at hit
    · obtain ⟨v1, v2⟩ := hval hc it hit
      exact ⟨v1, by rw [hV it v1, hV c hc, v2]⟩
  have nilWalk : ∀ (f : Nat), (trianglesClockwiseWalk m stop f InvalidLink).1 = [] := by
    intro f; cases f <;> simp [trianglesClockwiseWalk]
  have nilTail : ∀ (f : Nat), (clockwiseTail m f InvalidLink).1 = [] := by
    intro f; cases f <;> simp [clockwiseTail]
  have nilAWalk : ∀ (f : Nat), (trianglesAnticlockwiseWalk m stop f InvalidLink).1 = [] := by
    intro f; cases f <;> simp [trianglesAnticlockwiseWalk]
  have nilATail : ∀ (f : Nat), (trianglesAnticlockwiseTail m f InvalidLink).1 = [] := by
    intro f; cases f <;> simp [trianglesAnticlockwiseTail]
  refine ⟨?_, ?_, ?_, ?_, ?_, ?_⟩
  · exact lift _ start start.side (fun e => by rw [e]; exact nilWalk fuel)
      (fun hc => trianglesClockwiseWalk_vertex m hinv stop _ fuel start (Or.inr ⟨hc, rfl⟩)) hstart
  · exact lift _ stop ((stop.side + 1) % 3) (fun e => by rw [e]; exact nilTail fuel)
      (fun hc => clockwiseTail_vertex m hinv _ fuel stop (Or.inr ⟨hc, rfl⟩)) hstop
  · rcases visitTwoPhase_items (trianglesClockwiseWalk m stop fuel start)
      (clockwiseTail m fuel stop) with e | e
    · exact Or.inl e
    · exact Or.inr e.2
  · exact lift _ start ((start.side + 1) % 3) (fun e => by rw [e]; exact nilAWalk fuel)
      (fun hc => trianglesAnticlockwiseWalk_vertex m hinv stop _ fuel start (Or.inr ⟨hc, rfl⟩))
      hstart
  · exact lift _ stop stop.side (fun e => by rw [e]; exact nilATail fuel)
      (fun hc => trianglesAnticlockwiseTail_vertex m hinv _ fuel stop (Or.inr ⟨hc, rfl⟩)) hstop
  · rcases visitTwoPhase_items (trianglesAnticlockwiseWalk m stop fuel start)
      (trianglesAnticlockwiseTail m fuel stop) with e | e
    · exact Or.inl e
    · exact Or.inr e.2

/-- Witness for C10: on the 12-triangle grid, the visits from `(5, 0)` to `(0, 1)`
with a budget of 8 steps; clockwise, the second loop passes the corner `(0, 2)`, which
lies at vertex 3 as corner 2 of triangle 0 does. -/
theorem triangle_visits_stay_at_vertex_witness :
    build empty ⟨[], [], []⟩ gridInput = .ok (true, gridManifold, gridWorkspace) ∧
    (clockwiseTail gridManifold 8 ⟨0, 1⟩).1 = [⟨0, 2⟩] ∧
    (∀ it ∈ (clockwiseTail gridManifold 8 ⟨0, 1⟩).1,
      ValidCorner gridManifold.m_triangles.length it ∧
      vertexAt gridManifold.m_triangles it.index it.side =
        vertexAt gridManifold.m_triangles 0 ((1 + 1) % 3)) :=
  ⟨rfl, by decide, (triangle_visits_stay_at_vertex empty ⟨[], [], []⟩ gridInput true gridManifold
    gridWorkspace rfl ⟨5, 0⟩ ⟨0, 1⟩ (Or.inr ⟨by decide, by decide⟩)
    (Or.inr ⟨by decide, by decide⟩) 8).2.1⟩

/-- C11 (sentinel arguments never yield success). For every manifold, when `start` or
`stop` is the sentinel, a value returned by any of the four visits is `false`; and
when `start` is the sentinel the links passed to the visitor are exactly those of the
second loop, which walks from `stop`. -/
theorem visits_with_sentinel (m : Manifold) (start stop : Link) (fuel : Nat)
    (h : start = InvalidLink ∨ stop = InvalidLink) :
    (∀ b, (visitTrianglesClockwise m start stop fuel).2 = .returned b → b = false) ∧
    (∀ b, (visitTrianglesAnticlockwise m start stop fuel).2 = .returned b → b = false) ∧
    (∀ b, (visitEdgesClockwise m start stop fuel).2 = .returned b → b = false) ∧
    (∀ b, (visitEdgesAnticlockwise m start stop fuel).2 = .returned b → b = false) ∧
    (start = InvalidLink →
      (visitTrianglesClockwise m start stop fuel).1 = (clockwiseTail m fuel stop).1 ∧
      (visitTrianglesAnticlockwise m start stop fuel).1 =
        (trianglesAnticlockwiseTail m fuel stop).1 ∧
      (visitEdgesClockwise m start stop fuel).1 = (clockwiseTail m fuel stop).1 ∧
      (visitEdgesAnticlockwise m start stop fuel).1 = (edgesAnticlockwiseTail m fuel stop).1) := by
  have first : ∀ k, walkExit m k stop fuel start ≠ .returned true := by
    intro k
    rcases h with h | h
    · rw [h, walkExit_invalid]; simp
    · rw [h]; exact walkExit_sentinel m k fuel start true
  have t1 : ∀ b, (clockwiseTail m fuel stop).2 ≠ .returned b := fun b => by
    rw [clockwiseTail_exit]; exact walkExit_sentinel m 1 fuel stop b
  have t2 : ∀ b, (trianglesAnticlockwiseTail m fuel stop).2 ≠ .returned b := fun b => by
    rw [trianglesAnticlockwiseTail_exit]; exact walkExit_sentinel m 2 fuel stop b
  have t3 : ∀ b, (edgesAnticlockwiseTail m fuel stop).2 ≠ .returned b := fun b => by
    rw [edgesAnticlockwiseTail_exit]; exact walkExit_sentinel m 2 fuel stop b
  refine ⟨?_, ?_, ?_, ?_, ?_⟩
  · exact visitTwoPhase_false _ _ (by rw [trianglesClockwiseWalk_exit]; exact first 2) t1
  · exact visitTwoPhase_false _ _ (by rw [trianglesAnticlockwiseWalk_exit]; exact first 1) t2
  · exact visitTwoPhase_false _ _ (by rw [edgesHead_exit]; exact first 2) t1
  · exact visitTwoPhase_false _ _ (by rw [edgesHead_exit]; exact first 1) t3
  · intro hs
    subst hs
    unfold visitTrianglesClockwise visitTrianglesAnticlockwise visitEdgesClockwise
      visitEdgesAnticlockwise
    rw [trianglesClockwiseWalk_invalid, trianglesAnticlockwiseWalk_invalid, edgesHead_invalid,
      edgesHead_invalid]
    exact ⟨visitTwoPhase_skip _, visitTwoPhase_skip _, visitTwoPhase_skip _,
      visitTwoPhase_skip _⟩

/-- Witness for C11: on the 12-triangle grid, `visitTrianglesClockwise` from `(0, 2)`
with the sentinel as `stop` passes two links and returns `false`. -/
theorem visits_with_sentinel_witness :
    ((⟨0, 2⟩ : Link) = InvalidLink ∨ InvalidLink = InvalidLink) ∧
    visitTrianglesClockwise gridManifold ⟨0, 2⟩ InvalidLink 12 =
      ([⟨0, 2⟩, ⟨5, 0⟩], .returned false) ∧
    (∀ b, (visitTrianglesClockwise gridManifold ⟨0, 2⟩ InvalidLink 12).2 = .returned b →
      b = false) :=
  ⟨Or.inr rfl, by decide, (visits_with_sentinel gridManifold ⟨0, 2⟩ InvalidLink 12 (Or.inr rfl)).1⟩

/-- C12 (duality of the triangle visits). After `build` has returned, for every
corner `b` of the mesh and every link `a`: when `visitTrianglesClockwise` from `b` to
`a` returns `true` having passed the links `L` to the visitor, `visitTrianglesAnticlockwise`
from `a` to `b` returns `true` within the same budget of steps, having passed the links
of `L` in reverse order. -/
theorem triangle_visits_dual (m0 : Manifold) (wks : BuildWorkspace) (xs : List Nat) (r : Bool)
    (m : Manifold) (wks1 : BuildWorkspace) (h : build m0 wks xs = .ok (r, m, wks1))
    (a b : Link) (hb : ValidCorner m.m_triangles.length b) (fuel : Nat) (L : List Link)
    (hcw : visitTrianglesClockwise m b a fuel = (L, .returned true)) :
    visitTrianglesAnticlockwise m a b fuel = (L.reverse, .returned true) := by
  obtain ⟨_, hinv, _, _⟩ := build_spec m0 wks xs r m wks1 h
  rw [hinv.len] at hb
  have hw := visitTwoPhase_true _ _ L hcw (fun c => by
    rw [clockwiseTail_exit]; exact walkExit_sentinel m 1 fuel a c)
  have hrev := trianglesClockwiseWalk_reverse m hinv a fuel b L hb hw
  unfold visitTrianglesAnticlockwise
  rw [visitTwoPhase_returned _ _ true (by rw [hrev]), hrev]

/-- Witness for C12: on the 12-triangle grid, the clockwise visit from `(7, 0)` to
`(2, 1)` passes six links and returns `true`; the anticlockwise visit from `(2, 1)` to
`(7, 0)` passes them in reverse order. -/
theorem triangle_visits_dual_witness :
    build empty ⟨[], [], []⟩ gridInput = .ok (true, gridManifold, gridWorkspace) ∧
    ValidCorner gridManifold.m_triangles.length ⟨7, 0⟩ ∧
    visitTrianglesClockwise gridManifold ⟨7, 0⟩ ⟨2, 1⟩ 6 =
      ([⟨7, 0⟩, ⟨6, 0⟩, ⟨5, 1⟩, ⟨0, 1⟩, ⟨1, 2⟩, ⟨2, 2⟩], .returned true) ∧
    visitTrianglesAnticlockwise gridManifold ⟨2, 1⟩ ⟨7, 0⟩ 6 =
      ([⟨2, 2⟩, ⟨1, 2⟩, ⟨0, 1⟩, ⟨5, 1⟩, ⟨6, 0⟩, ⟨7, 0⟩], .returned true) :=
  ⟨rfl, ⟨by decide, by decide⟩, by decide,
    triangle_visits_dual empty ⟨[], [], []⟩ gridInput true gridManifold gridWorkspace rfl
      ⟨2, 1⟩ ⟨7, 0⟩ ⟨by decide, by decide⟩ 6
      [⟨7, 0⟩, ⟨6, 0⟩, ⟨5, 1⟩, ⟨0, 1⟩, ⟨1, 2⟩, ⟨2, 2⟩] (by decide)⟩

/-- Counterexample to C13: on the double fan, `visitEdgesClockwise` from `(3, 2)` to
`(8, 2)` and `visitEdgesAnticlockwise` from `(8, 2)` to `(3, 2)` both return `true`, after
six calls of the visitor each; the link `(3, 2)` is passed by the first and not by the
second, and the links of the second are not those of the first in reverse order. -/
theorem edge_visits_not_mirrored :
    build empty ⟨[], [], []⟩ fanInput = .ok (true, fanManifold, fanWorkspace) ∧
    ValidCorner fanManifold.m_triangles.length ⟨8, 2⟩ ∧
    ValidCorner fanManifold.m_triangles.length ⟨3, 2⟩ ∧
    visitEdgesClockwise fanManifold ⟨3, 2⟩ ⟨8, 2⟩ 12 =
      ([⟨3, 2⟩, ⟨3, 1⟩, ⟨4, 1⟩, ⟨5, 1⟩, ⟨10, 2⟩, ⟨9, 2⟩], .returned true) ∧
    visitEdgesAnticlockwise fanManifold ⟨8, 2⟩ ⟨3, 2⟩ 12 =
      ([⟨8, 2⟩, ⟨8, 0⟩, ⟨9, 0⟩, ⟨10, 0⟩, ⟨5, 2⟩, ⟨4, 2⟩], .returned true) ∧
    (⟨3, 2⟩ : Link) ∈ (visitEdgesClockwise fanManifold ⟨3, 2⟩ ⟨8, 2⟩ 12).1 ∧
    (⟨3, 2⟩ : Link) ∉ (visitEdgesAnticlockwise fanManifold ⟨8, 2⟩ ⟨3, 2⟩ 12).1 ∧
    (visitEdgesAnticlockwise fanManifold ⟨8, 2⟩ ⟨3, 2⟩ 12).1 ≠
      (visitEdgesClockwise fanManifold ⟨3, 2⟩ ⟨8, 2⟩ 12).1.reverse :=
  ⟨rfl, ⟨by decide, by decide⟩, ⟨by decide, by decide⟩, by decide, by decide, by decide,
    by decide, by decide⟩

/-- C13, amended (mirror property of the edge visits). After `build` has returned, for
every corner `b` of the mesh and every link `a`: when `visitEdgesClockwise` from `b` to
`a` returns `true` having passed the links `L` to the visitor, the first link of `L` is
`b`, and `visitEdgesAnticlockwise` from `a` to `b` returns `true` within the same budget
of steps, having passed `a` first and then, in reverse order, the links stored at the
sides that follow `b` in `L`, which are the opposite links of those sides. Both calls
pass the same number of links. -/
theorem edge_visits_mirror (m0 : Manifold) (wks : BuildWorkspace) (xs : List Nat) (r : Bool)
    (m : Manifold) (wks1 : BuildWorkspace) (h : build m0 wks xs = .ok (r, m, wks1))
    (a b : Link) (hb : ValidCorner m.m_triangles.length b) (fuel : Nat) (L : List Link)
    (hcw : visitEdgesClockwise m b a fuel = (L, .returned true)) :
    L.head? = some b ∧
    visitEdgesAnticlockwise m a b fuel =
      (a :: (L.tail.map (fun l => linkAt m.m_triangles l.index l.side)).reverse,
        .returned true) ∧
    (visitEdgesAnticlockwise m a b fuel).1.length = L.length := by
  obtain ⟨_, hinv, _, _⟩ := build_spec m0 wks xs r m wks1 h
  rw [hinv.len] at hb
  have hw := visitTwoPhase_true _ _ L hcw (fun c => by
    rw [clockwiseTail_exit]; exact walkExit_sentinel m 1 fuel a c)
  have hbne : b ≠ InvalidLink := by
    intro e
    rw [e, edgesHead_invalid] at hw
    simp at hw
  unfold edgesHead at hw
  simp only [if_neg hbne, Prod.mk.injEq] at hw
  obtain ⟨hL, hr⟩ := hw
  have htri := edgesWalk_clockwise_triangles m a fuel b _ hbne (Prod.ext rfl hr)
  have hrev := trianglesClockwiseWalk_reverse m hinv a fuel b _ hb htri
  have hane : a ≠ InvalidLink := by
    intro e
    rw [e, trianglesAnticlockwiseWalk_invalid] at hrev
    simp at hrev
  obtain ⟨_, hedges⟩ := trianglesAnticlockwiseWalk_edges m b fuel a _ hane hrev
  rw [List.reverse_cons, List.dropLast_concat] at hedges
  have hres : visitEdgesAnticlockwise m a b fuel =
      (a :: (L.tail.map (fun l => linkAt m.m_triangles l.index l.side)).reverse,
        .returned true) := by
    unfold visitEdgesAnticlockwise
    have hhead : edgesHead m 1 a b fuel =
        (a :: (L.tail.map (fun l => linkAt m.m_triangles l.index l.side)).reverse,
          .returned true) := by
      unfold edgesHead
      rw [if_neg hane, hedges, ← hL]
      rfl
    rw [visitTwoPhase_returned _ _ true (by rw [hhead]), hhead]
  refine ⟨by rw [← hL]; rfl, hres, ?_⟩
  rw [hres, ← hL]
  simp

/-- Witness for C13, amended: on the double fan, the clockwise edge visit from `(3, 2)`
to `(8, 2)` and the anticlockwise edge visit from `(8, 2)` to `(3, 2)`. -/
theorem edge_visits_mirror_witness :
    build empty ⟨[], [], []⟩ fanInput = .ok (true, fanManifold, fanWorkspace) ∧
    ValidCorner fanManifold.m_triangles.length ⟨3, 2⟩ ∧
    visitEdgesClockwise fanManifold ⟨3, 2⟩ ⟨8, 2⟩ 12 =
      ([⟨3, 2⟩, ⟨3, 1⟩, ⟨4, 1⟩, ⟨5, 1⟩, ⟨10, 2⟩, ⟨9, 2⟩], .returned true) ∧
    ([⟨3, 1⟩, ⟨4, 1⟩, ⟨5, 1⟩, ⟨10, 2⟩, ⟨9, 2⟩].map
      (fun l : Link => linkAt fanManifold.m_triangles l.index l.side)).reverse =
        [⟨8, 0⟩, ⟨9, 0⟩, ⟨10, 0⟩, ⟨5, 2⟩, ⟨4, 2⟩] ∧
    visitEdgesAnticlockwise fanManifold ⟨8, 2⟩ ⟨3, 2⟩ 12 =
      (⟨8, 2⟩ :: (([⟨3, 2⟩, ⟨3, 1⟩, ⟨4, 1⟩, ⟨5, 1⟩, ⟨10, 2⟩, ⟨9, 2⟩] : List Link).tail.map
        (fun l => linkAt fanManifold.m_triangles l.index l.side)).reverse, .returned true) :=
  ⟨rfl, ⟨by decide, by decide⟩, by decide, by decide,
    (edge_visits_mirror empty ⟨[], [], []⟩ fanInput true fanManifold fanWorkspace rfl
      ⟨8, 2⟩ ⟨3, 2⟩ ⟨by decide, by decide⟩ 12
      [⟨3, 2⟩, ⟨3, 1⟩, ⟨4, 1⟩, ⟨5, 1⟩, ⟨10, 2⟩, ⟨9, 2⟩] (by decide)).2.1⟩

/-- C14 (edge count against triangle count). For every manifold, every `start` other
than the sentinel, every `stop` and either direction, the edge visit and the triangle
visit end alike, so one returns a boolean exactly when the other returns the same
boolean; when they return `true` the visitor has been called equally often, and when
they return `false` the edge visit has called it exactly once more. -/
theorem edge_visits_count (m : Manifold) (start stop : Link) (fuel : Nat)
    (h : start ≠ InvalidLink) :
    ((visitEdgesClockwise m start stop fuel).2 = (visitTrianglesClockwise m start stop fuel).2 ∧
      ((visitTrianglesClockwise m start stop fuel).2 = .returned true →
        (visitEdgesClockwise m start stop fuel).1.length =
          (visitTrianglesClockwise m start stop fuel).1.length) ∧
      ((visitTrianglesClockwise m start stop fuel).2 = .returned false →
        (visitEdgesClockwise m start stop fuel).1.length =
          (visitTrianglesClockwise m start stop fuel).1.length + 1)) ∧
    ((visitEdgesAnticlockwise m start stop fuel).2 =
        (visitTrianglesAnticlockwise m start stop fuel).2 ∧
      ((visitTrianglesAnticlockwise m start stop fuel).2 = .returned true →
        (visitEdgesAnticlockwise m start stop fuel).1.length =
          (visitTrianglesAnticlockwise m start stop fuel).1.length) ∧
      ((visitTrianglesAnticlockwise m start stop fuel).2 = .returned false →
        (visitEdgesAnticlockwise m start stop fuel).1.length =
          (visitTrianglesAnticlockwise m start stop fuel).1.length + 1)) := by
  have hd : ∀ k, (edgesHead m k start stop fuel).1.length =
      (edgesWalk m k stop fuel start).1.length + 1 := by
    intro k; simp [edgesHead, h]
  have he : ∀ k, (edgesHead m k start stop fuel).2 = (edgesWalk m k stop fuel start).2 := by
    intro k; simp [edgesHead, h]
  constructor
  · unfold visitEdgesClockwise visitTrianglesClockwise
    have hl := edgesWalk_length_clockwise m stop fuel start h
    have hx : (edgesWalk m 2 stop fuel start).2 = (trianglesClockwiseWalk m stop fuel start).2 := by
      rw [edgesWalk_exit m 2 stop fuel start h, trianglesClockwiseWalk_exit]
    refine visitTwoPhase_compare _ _ _ _ ?_ rfl rfl ?_ ?_ ?_ ?_
    · rw [he, hx]
    · intro e; rw [hd]; exact hl.1 (by rw [hx, e])
    · intro e; rw [hd, hl.2 (by rw [hx, e])]
    · rw [trianglesClockwiseWalk_exit]; exact walkExit_returned m 2 stop fuel start
    · intro b; rw [clockwiseTail_exit]; exact walkExit_sentinel m 1 fuel stop b
  · unfold visitEdgesAnticlockwise visitTrianglesAnticlockwise
    have hl := edgesWalk_length_anticlockwise m stop fuel start h
    have hx : (edgesWalk m 1 stop fuel start).2 =
        (trianglesAnticlockwiseWalk m stop fuel start).2 := by
      rw [edgesWalk_exit m 1 stop fuel start h, trianglesAnticlockwiseWalk_exit]
    refine visitTwoPhase_compare _ _ _ _ ?_ ?_ (anticlockwiseTail_length m fuel stop) ?_ ?_ ?_ ?_
    · rw [he, hx]
    · rw [edgesAnticlockwiseTail_exit, trianglesAnticlockwiseTail_exit]
    · intro e; rw [hd]; exact hl.1 (by rw [hx, e])
    · intro e; rw [hd, hl.2 (by rw [hx, e])]
    · rw [trianglesAnticlockwiseWalk_exit]; exact walkExit_returned m 1 stop fuel start
    · intro b; rw [trianglesAnticlockwiseTail_exit]; exact walkExit_sentinel m 2 fuel stop b

/-- Witness for C14: on the double fan, the clockwise visits from `(7, 0)` with the
sentinel as `stop` both return `false`, the triangle visit after two calls of the
visitor and the edge visit after three. -/
theorem edge_visits_count_witness :
    (⟨7, 0⟩ : Link) ≠ InvalidLink ∧
    visitTrianglesClockwise fanManifold ⟨7, 0⟩ InvalidLink 12 =
      ([⟨7, 0⟩, ⟨6, 0⟩], .returned false) ∧
    (visitEdgesClockwise fanManifold ⟨7, 0⟩ InvalidLink 12).2 =
      (visitTrianglesClockwise fanManifold ⟨7, 0⟩ InvalidLink 12).2 ∧
    (visitEdgesClockwise fanManifold ⟨7, 0⟩ InvalidLink 12).1.length =
      (visitTrianglesClockwise fanManifold ⟨7, 0⟩ InvalidLink 12).1.length + 1 :=
  ⟨by decide, by decide,
    (edge_visits_count fanManifold ⟨7, 0⟩ InvalidLink 12 (by decide)).1.1,
    (edge_visits_count fanManifold ⟨7, 0⟩ InvalidLink 12 (by decide)).1.2.2 (by decide)⟩

/-- C15 (edge visits begin with `start`). For every manifold and every `start` other
than the sentinel, `visitEdgesClockwise` and `visitEdgesAnticlockwise` pass at least one
link to the visitor and the first one is `start` itself, whatever `stop` is; when
`start` is the sentinel the links passed are exactly those of the second loop, which
walks from `stop`. -/
theorem edge_visits_begin_with_start (m : Manifold) (start stop : Link) (fuel : Nat) :
    (start ≠ InvalidLink →
      (visitEdgesClockwise m start stop fuel).1.head? = some start ∧
      (visitEdgesAnticlockwise m start stop fuel).1.head? = some start ∧
      1 ≤ (visitEdgesClockwise m start stop fuel).1.length ∧
      1 ≤ (visitEdgesAnticlockwise m start stop fuel).1.length) ∧
    (start = InvalidLink →
      (visitEdgesClockwise m start stop fuel).1 = (clockwiseTail m fuel stop).1 ∧
      (visitEdgesAnticlockwise m start stop fuel).1 = (edgesAnticlockwiseTail m fuel stop).1) := by
  constructor
  · intro h
    have h1 : (visitEdgesClockwise m start stop fuel).1.head? = some start :=
      visitTwoPhase_head _ _ start (edgesHead_head m 2 start stop fuel h)
    have h2 : (visitEdgesAnticlockwise m start stop fuel).1.head? = some start :=
      visitTwoPhase_head _ _ start (edgesHead_head m 1 start stop fuel h)
    refine ⟨h1, h2, ?_, ?_⟩
    · cases hl : (visitEdgesClockwise m start stop fuel).1 with
      | nil => rw [hl] at h1; simp at h1
      | cons a l => simp
    · cases hl : (visitEdgesAnticlockwise m start stop fuel).1 with
      | nil => rw [hl] at h2; simp at h2
      | cons a l => simp
  · intro h
    subst h
    unfold visitEdgesClockwise visitEdgesAnticlockwise
    rw [edgesHead_invalid, edgesHead_invalid]
    exact ⟨visitTwoPhase_skip _, visitTwoPhase_skip _⟩

/-- Witness for C15: on the double fan, `visitEdgesClockwise` from `(7, 0)` with the
sentinel as `stop` passes three links, the first of which is `(7, 0)`. -/
theorem edge_visits_begin_with_start_witness :
    (⟨7, 0⟩ : Link) ≠ InvalidLink ∧
    visitEdgesClockwise fanManifold ⟨7, 0⟩ InvalidLink 12 =
      ([⟨7, 0⟩, ⟨7, 2⟩, ⟨6, 2⟩], .returned false) ∧
    (visitEdgesClockwise fanManifold ⟨7, 0⟩ InvalidLink 12).1.head? = some ⟨7, 0⟩ :=
  ⟨by decide, by decide,
    ((edge_visits_begin_with_start fanManifold ⟨7, 0⟩ InvalidLink 12).1 (by decide)).1⟩


/-! ## The claims about the edge key and the single steps -/

/-- Counterexample to C16: for the single triangle `(0, 0, 1)` `build` returns `true`
and links side 1 to side 2 of the same triangle; `getEdgeKey` is 2 for the link
`(0, 1)` and 1 for its opposite link `(0, 2)`. -/
theorem getEdgeKey_differs_within_triangle :
    build empty ⟨[], [], []⟩ foldInput = .ok (true, foldManifold, foldWorkspace) ∧
    foldManifold.m_triangles[0]? = some ⟨0, 0, 1, ⟨0, 0⟩, ⟨0, 2⟩, ⟨0, 1⟩⟩ ∧
    (⟨0, 0, 1, ⟨0, 0⟩, ⟨0, 2⟩, ⟨0, 1⟩⟩ : Triangle).link 1 = ⟨0, 2⟩ ∧
    (⟨0, 2⟩ : Link) ≠ InvalidLink ∧
    getEdgeKey foldManifold ⟨0, 1⟩ = some 2 ∧ getEdgeKey foldManifold ⟨0, 2⟩ = some 1 :=
  ⟨rfl, rfl, rfl, by decide, rfl, rfl⟩

/-- C16, amended (edge key from both sides). After `build` has returned, for every
link `l` that is a side of a triangle of the mesh and whose opposite link, the one
stored at that side, is not the sentinel and names another triangle, `getEdgeKey` has
the same value for `l` and for its opposite link. -/
theorem getEdgeKey_opposite (m0 : Manifold) (wks : BuildWorkspace) (xs : List Nat) (r : Bool)
    (m : Manifold) (wks1 : BuildWorkspace) (h : build m0 wks xs = .ok (r, m, wks1))
    (l : Link) (tri : Triangle) (ht : m.m_triangles[l.index]? = some tri) (hs : l.side < 3)
    (hl : tri.link l.side ≠ InvalidLink) (hd : (tri.link l.side).index ≠ l.index) :
    getEdgeKey m l = getEdgeKey m (tri.link l.side) ∧
    ∃ key, getEdgeKey m l = some key := by
  obtain ⟨_, hinv, _, _⟩ := build_spec m0 wks xs r m wks1 h
  have htl : l.index < xs.length / 3 := by
    rw [← hinv.len]
    exact lt_of_getElem? ht
  have hlink : linkAt m.m_triangles l.index l.side = tri.link l.side := linkAt_of_getElem? ht _
  obtain ⟨q1, q2, q3, _, _⟩ := hinv.links l.index l.side htl hs (by rw [hlink]; exact hl)
  rw [hlink] at q1 q2 q3
  obtain ⟨tri2, htri2⟩ := exists_getElem? m.m_triangles (tri.link l.side).index
    (by rw [hinv.len]; exact q1)
  have hback : tri2.link (tri.link l.side).side = ⟨l.index, l.side⟩ := by
    rw [← linkAt_of_getElem? htri2]; exact q3
  have hne : (⟨l.index, l.side⟩ : Link) ≠ InvalidLink := by
    intro e
    have e2 : l.side = 3 := congrArg Link.side e
    omega
  have k1 : getEdgeKey m l = some (if (tri.link l.side).index > l.index then
      l.index * 3 + l.side else (tri.link l.side).index * 3 + (tri.link l.side).side) := by
    unfold getEdgeKey
    rw [ht]
    simp only [if_pos hs, hl, false_or]
    split <;> rfl
  have k2 : getEdgeKey m (tri.link l.side) = some (if l.index > (tri.link l.side).index then
      (tri.link l.side).index * 3 + (tri.link l.side).side else l.index * 3 + l.side) := by
    unfold getEdgeKey
    rw [htri2]
    simp only [if_pos q2, hback, hne, false_or]
    split <;> rfl
  refine ⟨?_, _, k1⟩
  rw [k1, k2]
  by_cases hlt : (tri.link l.side).index > l.index
  · rw [if_pos hlt, if_neg (by omega)]
  · rw [if_neg hlt, if_pos (by omega)]

/-- Witness for C16, amended: on `pairInput`, side 0 of triangle 0 and its opposite
link `(1, 0)` both have the key 0. -/
theorem getEdgeKey_opposite_witness :
    build empty ⟨[], [], []⟩ pairInput = .ok (true, pairManifold, pairWorkspace) ∧
    getEdgeKey pairManifold ⟨0, 0⟩ = some 0 ∧ getEdgeKey pairManifold ⟨1, 0⟩ = some 0 ∧
    (getEdgeKey pairManifold ⟨0, 0⟩ = getEdgeKey pairManifold ⟨1, 0⟩ ∧
      ∃ key, getEdgeKey pairManifold ⟨0, 0⟩ = some key) :=
  ⟨rfl, rfl, rfl, getEdgeKey_opposite empty ⟨[], [], []⟩ pairInput true pairManifold
    pairWorkspace rfl ⟨0, 0⟩ ⟨0, 1, 2, ⟨1, 0⟩, InvalidLink, InvalidLink⟩ rfl (by decide)
    (by decide) (by decide)⟩

/-- Counterexample to C17: on the 12-triangle grid, `nextClockwise` of the link `(1, 2)`
is `(2, 2)` and `nextAnticlockwise` of `(2, 2)` is `(3, 2)`; neither is the sentinel,
and `(3, 2)` is not `(1, 2)`. -/
theorem nextAnticlockwise_nextClockwise_differs :
    build empty ⟨[], [], []⟩ gridInput = .ok (true, gridManifold, gridWorkspace) ∧
    nextClockwise gridManifold ⟨1, 2⟩ = some ⟨2, 2⟩ ∧
    nextAnticlockwise gridManifold ⟨2, 2⟩ = some ⟨3, 2⟩ ∧
    (⟨2, 2⟩ : Link) ≠ InvalidLink ∧ (⟨3, 2⟩ : Link) ≠ InvalidLink ∧
    (⟨3, 2⟩ : Link) ≠ ⟨1, 2⟩ :=
  ⟨rfl, rfl, rfl, by decide, by decide, by decide⟩

/-- C17, amended (single steps undo each other up to a turn). After `build` has
returned, for every link `l` that is a side of a triangle of the mesh: `nextClockwise l`
is defined, and when it is a link `l1` other than the sentinel, `nextAnticlockwise` of
`l1` turned by two sides is `l` turned by two sides; `nextAnticlockwise l` is defined,
and when it is a link `l2` other than the sentinel, `nextClockwise` of `l2` turned by
one side is `l` turned by one side. -/
theorem next_steps_undo (m0 : Manifold) (wks : BuildWorkspace) (xs : List Nat) (r : Bool)
    (m : Manifold) (wks1 : BuildWorkspace) (h : build m0 wks xs = .ok (r, m, wks1))
    (l : Link) (hl : ValidCorner m.m_triangles.length l) :
    (∃ l1, nextClockwise m l = some l1 ∧
      (l1 ≠ InvalidLink → nextAnticlockwise m (rotate l1 2) = some (rotate l 2))) ∧
    (∃ l2, nextAnticlockwise m l = some l2 ∧
      (l2 ≠ InvalidLink → nextClockwise m (rotate l2 1) = some (rotate l 1))) := by
  obtain ⟨_, hinv, _, _⟩ := build_spec m0 wks xs r m wks1 h
  rw [hinv.len] at hl
  obtain ⟨tri, ht⟩ := exists_getElem? m.m_triangles l.index (by rw [hinv.len]; exact hl.1)
  have step : ∀ j, j < 3 → tri.link j ≠ InvalidLink →
      ∃ tri2, m.m_triangles[(tri.link j).index]? = some tri2 ∧ (tri.link j).side < 3 ∧
        tri2.link (tri.link j).side = ⟨l.index, j⟩ := by
    intro j hj hne
    have hlink : linkAt m.m_triangles l.index j = tri.link j := linkAt_of_getElem? ht _
    obtain ⟨q1, q2, q3, _, _⟩ := hinv.links l.index j hl.1 hj (by rw [hlink]; exact hne)
    rw [hlink] at q1 q2 q3
    obtain ⟨tri2, htri2⟩ := exists_getElem? m.m_triangles (tri.link j).index
      (by rw [hinv.len]; exact q1)
    exact ⟨tri2, htri2, q2, by rw [← linkAt_of_getElem? htri2]; exact q3⟩
  constructor
  · refine ⟨tri.link ((l.side + 2) % 3), by simp [nextClockwise, ht], fun hne => ?_⟩
    obtain ⟨tri2, h1, h2, h3⟩ := step _ (Nat.mod_lt _ (by decide)) hne
    have e : (((tri.link ((l.side + 2) % 3)).side + 2) % 3 + 1) % 3 =
        (tri.link ((l.side + 2) % 3)).side := by omega
    simp only [nextAnticlockwise, rotate, h1, e, h3]
  · refine ⟨tri.link ((l.side + 1) % 3), by simp [nextAnticlockwise, ht], fun hne => ?_⟩
    obtain ⟨tri2, h1, h2, h3⟩ := step _ (Nat.mod_lt _ (by decide)) hne
    have e : (((tri.link ((l.side + 1) % 3)).side + 1) % 3 + 2) % 3 =
        (tri.link ((l.side + 1) % 3)).side := by omega
    simp only [nextClockwise, rotate, h1, e, h3]

/-- Witness for C17, amended: on the 12-triangle grid, `nextClockwise` of `(1, 2)` is
`(2, 2)`, and `nextAnticlockwise` of `(2, 1)` is `(1, 1)`. -/
theorem next_steps_undo_witness :
    build empty ⟨[], [], []⟩ gridInput = .ok (true, gridManifold, gridWorkspace) ∧
    ValidCorner gridManifold.m_triangles.length ⟨1, 2⟩ ∧
    nextClockwise gridManifold ⟨1, 2⟩ = some ⟨2, 2⟩ ∧
    nextAnticlockwise gridManifold ⟨2, 1⟩ = some ⟨1, 1⟩ ∧
    (∃ l1, nextClockwise gridManifold ⟨1, 2⟩ = some l1 ∧
      (l1 ≠ InvalidLink →
        nextAnticlockwise gridManifold (rotate l1 2) = some (rotate ⟨1, 2⟩ 2))) :=
  ⟨rfl, ⟨by decide, by decide⟩, rfl, rfl,
    (next_steps_undo empty ⟨[], [], []⟩ gridInput true gridManifold gridWorkspace rfl ⟨1, 2⟩
      ⟨by decide, by decide⟩).1⟩


/-! ## The claims about the visits, continued -/

/-- Counterexample to C18: on the 12-triangle grid, whose vertex 4 lies inside the
mesh, `visitTrianglesClockwise` from the corner `(7, 0)` at vertex 4 with the sentinel as
`stop` does not return: its first loop goes around the six triangles at vertex 4
again and again, so that within any budget of steps it has taken every step allowed
and has called the visitor in each. -/
theorem visitTrianglesClockwise_runs_forever :
    build empty ⟨[], [], []⟩ gridInput = .ok (true, gridManifold, gridWorkspace) ∧
    ValidCorner gridManifold.m_triangles.length ⟨7, 0⟩ ∧
    (∀ fuel, (visitTrianglesClockwise gridManifold ⟨7, 0⟩ InvalidLink fuel).2 =
        .fault .outOfFuel ∧
      (visitTrianglesClockwise gridManifold ⟨7, 0⟩ InvalidLink fuel).1.length = fuel) ∧
    ¬ ∃ fuel b, (visitTrianglesClockwise gridManifold ⟨7, 0⟩ InvalidLink fuel).2 =
      .returned b := by
  have key : ∀ fuel, (visitTrianglesClockwise gridManifold ⟨7, 0⟩ InvalidLink fuel).2 =
        .fault .outOfFuel ∧
      (visitTrianglesClockwise gridManifold ⟨7, 0⟩ InvalidLink fuel).1.length = fuel := by
    intro fuel
    obtain ⟨h1, h2⟩ := trianglesClockwiseWalk_cycle gridManifold InvalidLink
      [⟨7, 0⟩, ⟨6, 0⟩, ⟨5, 1⟩, ⟨0, 1⟩, ⟨1, 2⟩, ⟨2, 2⟩] (by decide) fuel ⟨7, 0⟩ (by decide)
    unfold visitTrianglesClockwise visitTwoPhase
    rw [h1]
    exact ⟨rfl, h2⟩
  refine ⟨rfl, ⟨by decide, by decide⟩, key, ?_⟩
  rintro ⟨fuel, b, hb⟩
  rw [(key fuel).1] at hb
  simp at hb

/-- C18, amended (termination of the visits). After `build` has returned with `n`
triangles, let `start` and `stop` each be a corner of the mesh or the sentinel. The
first loop of a clockwise visit steps by `nextClockwise` and its second loop by
`nextAnticlockwise`, and the other way round for an anticlockwise visit (`ringStep`
with 2 and 1). Each of the four visits returns when the steps of its first loop from
`start` meet `stop`, or when neither the ring of triangles walked from `start` by the
first loop nor the ring walked from `stop` by the second loop is closed: it then
returns the same value after the same calls of the visitor within every budget of at
least `3 n + 1` steps per loop, the calls number at most `6 n + 3`, and the value is
`true` exactly when the steps from `start` meet `stop`. In the remaining case, when
the steps from `start` do not meet `stop` and one of the two rings is closed, the
visit does not return within any budget. -/
theorem visits_return (m0 : Manifold) (wks : BuildWorkspace) (xs : List Nat)
    (r : Bool) (m : Manifold) (wks1 : BuildWorkspace) (h : build m0 wks xs = .ok (r, m, wks1))
    (start stop : Link)
    (hstart : start = InvalidLink ∨ ValidCorner m.m_triangles.length start)
    (hstop : stop = InvalidLink ∨ ValidCorner m.m_triangles.length stop) :
    (∀ c, ValidCorner m.m_triangles.length c →
      nextClockwise m c = some (ringStep m 2 c) ∧
      nextAnticlockwise m c = some (ringStep m 1 c)) ∧
    ((VisitEnds m 2 1 start stop →
        ∃ b L, (∀ fuel, 3 * m.m_triangles.length + 1 ≤ fuel →
            visitTrianglesClockwise m start stop fuel = (L, .returned b)) ∧
          L.length ≤ 6 * m.m_triangles.length + 3 ∧ (b = true ↔ MeetsEnd m 2 start stop)) ∧
      (¬ VisitEnds m 2 1 start stop →
        ∀ fuel, (visitTrianglesClockwise m start stop fuel).2 = .fault .outOfFuel)) ∧
    ((VisitEnds m 1 2 start stop →
        ∃ b L, (∀ fuel, 3 * m.m_triangles.length + 1 ≤ fuel →
            visitTrianglesAnticlockwise m start stop fuel = (L, .returned b)) ∧
          L.length ≤ 6 * m.m_triangles.length + 3 ∧ (b = true ↔ MeetsEnd m 1 start stop)) ∧
      (¬ VisitEnds m 1 2 start stop →
        ∀ fuel, (visitTrianglesAnticlockwise m start stop fuel).2 = .fault .outOfFuel)) ∧
    ((VisitEnds m 2 1 start stop →
        ∃ b L, (∀ fuel, 3 * m.m_triangles.length + 1 ≤ fuel →
            visitEdgesClockwise m start stop fuel = (L, .returned b)) ∧
          L.length ≤ 6 * m.m_triangles.length + 3 ∧ (b = true ↔ MeetsEnd m 2 start stop)) ∧
      (¬ VisitEnds m 2 1 start stop →
        ∀ fuel, (visitEdgesClockwise m start stop fuel).2 = .fault .outOfFuel)) ∧
    ((VisitEnds m 1 2 start stop →
        ∃ b L, (∀ fuel, 3 * m.m_triangles.length + 1 ≤ fuel →
            visitEdgesAnticlockwise m start stop fuel = (L, .returned b)) ∧
          L.length ≤ 6 * m.m_triangles.length + 3 ∧ (b = true ↔ MeetsEnd m 1 start stop)) ∧
      (¬ VisitEnds m 1 2 start stop →
        ∀ fuel, (visitEdgesAnticlockwise m start stop fuel).2 = .fault .outOfFuel)) := by
  have hold := fun fuel =>
    visits_return_within_bound m0 wks xs r m wks1 h start stop hstart hstop fuel
  obtain ⟨_, hinv, _, _⟩ := build_spec m0 wks xs r m wks1 h
  rw [hinv.len] at hstart hstop hold ⊢
  have le1 : ∀ {a f : Nat}, a ≤ f → a ≤ f + 1 := fun hle => Nat.le_succ_of_le hle
  refine ⟨fun c hc => ?_, ?_, ?_, ?_, ?_⟩
  · exact ringStep_eq_next m c (fun e => by
      have := hc.2
      rw [e] at this
      exact absurd this (by decide)) (by rw [hinv.len]; exact hc.1)
  · exact visit_by_ring m hinv 2 1 start stop hstart hstop
      (fun f => trianglesClockwiseWalk m stop f start) (fun f => clockwiseTail m f stop)
      (fun f => trianglesClockwiseWalk_exit m stop f start) (fun f => clockwiseTail_exit m f stop)
      (fun f => le1 (trianglesClockwiseWalk_length m stop f start))
      (fun f => clockwiseTail_length m f stop) (fun fuel b => (hold fuel).1.2 b)
  · exact visit_by_ring m hinv 1 2 start stop hstart hstop
      (fun f => trianglesAnticlockwiseWalk m stop f start)
      (fun f => trianglesAnticlockwiseTail m f stop)
      (fun f => trianglesAnticlockwiseWalk_exit m stop f start)
      (fun f => trianglesAnticlockwiseTail_exit m f stop)
      (fun f => le1 (trianglesAnticlockwiseWalk_length m stop f start))
      (fun f => trianglesAnticlockwiseTail_length m f stop) (fun fuel b => (hold fuel).2.1.2 b)
  · exact visit_by_ring m hinv 2 1 start stop hstart hstop
      (fun f => edgesHead m 2 start stop f) (fun f => clockwiseTail m f stop)
      (fun f => edgesHead_exit m 2 start stop f) (fun f => clockwiseTail_exit m f stop)
      (fun f => edgesHead_length m 2 start stop f)
      (fun f => clockwiseTail_length m f stop) (fun fuel b => (hold fuel).2.2.1.2 b)
  · exact visit_by_ring m hinv 1 2 start stop hstart hstop
      (fun f => edgesHead m 1 start stop f) (fun f => edgesAnticlockwiseTail m f stop)
      (fun f => edgesHead_exit m 1 start stop f) (fun f => edgesAnticlockwiseTail_exit m f stop)
      (fun f => edgesHead_length m 1 start stop f)
      (fun f => edgesAnticlockwiseTail_length m f stop) (fun fuel b => (hold fuel).2.2.2.2 b)

/-- Witness for C18, amended: on the 12-triangle grid, the steps of
`visitTrianglesClockwise` from `(7, 0)` meet `(2, 1)` after five steps, and the visit
returns `true` after six calls of the visitor; with the sentinel as `stop` the steps
meet nothing, the ring at `(7, 0)` is closed after six steps, and the visit does not
return within any budget. -/
theorem visits_return_witness :
    build empty ⟨[], [], []⟩ gridInput = .ok (true, gridManifold, gridWorkspace) ∧
    ValidCorner gridManifold.m_triangles.length ⟨7, 0⟩ ∧
    ValidCorner gridManifold.m_triangles.length ⟨2, 1⟩ ∧
    VisitEnds gridManifold 2 1 ⟨7, 0⟩ ⟨2, 1⟩ ∧
    visitTrianglesClockwise gridManifold ⟨7, 0⟩ ⟨2, 1⟩ (3 * 12 + 1) =
      ([⟨7, 0⟩, ⟨6, 0⟩, ⟨5, 1⟩, ⟨0, 1⟩, ⟨1, 2⟩, ⟨2, 2⟩], .returned true) ∧
    (∃ b L, (∀ fuel, 3 * gridManifold.m_triangles.length + 1 ≤ fuel →
        visitTrianglesClockwise gridManifold ⟨7, 0⟩ ⟨2, 1⟩ fuel = (L, .returned b)) ∧
      L.length ≤ 6 * gridManifold.m_triangles.length + 3 ∧
      (b = true ↔ MeetsEnd gridManifold 2 ⟨7, 0⟩ ⟨2, 1⟩)) ∧
    ¬ VisitEnds gridManifold 2 1 ⟨7, 0⟩ InvalidLink ∧
    (∀ fuel, (visitTrianglesClockwise gridManifold ⟨7, 0⟩ InvalidLink fuel).2 =
      .fault .outOfFuel) :=
  have hclosed : ClosedRing gridManifold 2 ⟨7, 0⟩ := ⟨by decide, 6, by decide, by decide⟩
  have hnot : ¬ VisitEnds gridManifold 2 1 ⟨7, 0⟩ InvalidLink := fun hv =>
    hv.elim (not_meetsEnd_sentinel gridManifold 2 ⟨7, 0⟩) (fun hopen => hopen.1 hclosed)
  ⟨rfl, ⟨by decide, by decide⟩, ⟨by decide, by decide⟩,
    Or.inl ⟨5, by decide, by decide⟩, by decide,
    (visits_return empty ⟨[], [], []⟩ gridInput true gridManifold gridWorkspace rfl
      ⟨7, 0⟩ ⟨2, 1⟩ (Or.inr ⟨by decide, by decide⟩) (Or.inr ⟨by decide, by decide⟩)).2.1.1
      (Or.inl ⟨5, by decide, by decide⟩),
    hnot,
    (visits_return empty ⟨[], [], []⟩ gridInput true gridManifold gridWorkspace rfl
      ⟨7, 0⟩ InvalidLink (Or.inr ⟨by decide, by decide⟩) (Or.inl rfl)).2.1.2 hnot⟩

/-- Counterexample to C19: on the 12-triangle grid, the first link that
`visitTrianglesClockwise` from `(7, 0)` to `(2, 1)` passes to the visitor is `(7, 0)`,
which is `start` itself. -/
theorem visitTrianglesClockwise_first_is_start :
    (⟨7, 0⟩ : Link) ≠ InvalidLink ∧
    (visitTrianglesClockwise gridManifold ⟨7, 0⟩ ⟨2, 1⟩ 6).1.head? = some ⟨7, 0⟩ := by
  decide

/-- C19, amended (first link of the triangle visits). For every manifold, every
`start` other than the sentinel and a budget of at least one step, the first link
`visitTrianglesAnticlockwise` passes to the visitor is `start` turned by one side, which
is not `start`; the first link `visitTrianglesClockwise` passes is `start` itself, as in
the edge visits. -/
theorem triangle_visits_first_link (m : Manifold) (start stop : Link) (fuel : Nat)
    (h : start ≠ InvalidLink) (hfuel : 0 < fuel) :
    (visitTrianglesAnticlockwise m start stop fuel).1.head? = some (rotate start 1) ∧
    rotate start 1 ≠ start ∧
    (visitTrianglesClockwise m start stop fuel).1.head? = some start := by
  obtain ⟨f, rfl⟩ : ∃ f, fuel = f + 1 := ⟨fuel - 1, by omega⟩
  exact ⟨visitTwoPhase_head _ _ _ (trianglesAnticlockwiseWalk_head m start stop f h),
    rotate_one_ne start,
    visitTwoPhase_head _ _ _ (trianglesClockwiseWalk_head m start stop f h)⟩

/-- Witness for C19, amended: on the 12-triangle grid, the visits from `(7, 0)` to
`(2, 1)`; anticlockwise the first link is `(7, 1)`. -/
theorem triangle_visits_first_link_witness :
    (⟨7, 0⟩ : Link) ≠ InvalidLink ∧ 0 < 6 ∧
    (visitTrianglesAnticlockwise gridManifold ⟨7, 0⟩ ⟨2, 1⟩ 6).1.head? = some ⟨7, 1⟩ ∧
    rotate ⟨7, 0⟩ 1 ≠ (⟨7, 0⟩ : Link) ∧
    (visitTrianglesClockwise gridManifold ⟨7, 0⟩ ⟨2, 1⟩ 6).1.head? = some ⟨7, 0⟩ :=
  ⟨by decide, by decide,
    triangle_visits_first_link gridManifold ⟨7, 0⟩ ⟨2, 1⟩ 6 (by decide) (by decide)⟩

/-! ## The claim about the failure of `build` -/

/-- Counterexample to C20: in `(0, 1, 4294967295)`, `(1, 0, 3)`, `(1, 0, 4)` side 0 of
the first triangle, from vertex 0 to vertex 1, has the two distinct opposite sides
`(1, 0)` and `(2, 0)`; the count of vertices is left at 5 by the vertex index
`4294967295`, and `build` reads `vertexRings` out of bounds without returning a value. -/
theorem build_no_result_past_count :
    (loadTriangles [0, 1, 4294967295, 1, 0, 3, 1, 0, 4] ⟨vecClear [], 0⟩).m_maxVertexCount = 5 ∧
    ValidCorner ([0, 1, 4294967295, 1, 0, 3, 1, 0, 4].length / 3) ⟨0, 0⟩ ∧
    ValidCorner ([0, 1, 4294967295, 1, 0, 3, 1, 0, 4].length / 3) ⟨1, 0⟩ ∧
    ValidCorner ([0, 1, 4294967295, 1, 0, 3, 1, 0, 4].length / 3) ⟨2, 0⟩ ∧
    (⟨1, 0⟩ : Link) ≠ ⟨2, 0⟩ ∧
    Opposite (triplesOf [0, 1, 4294967295, 1, 0, 3, 1, 0, 4]) 0 0 1 0 ∧
    Opposite (triplesOf [0, 1, 4294967295, 1, 0, 3, 1, 0, 4]) 0 0 2 0 ∧
    build empty ⟨[], [], []⟩ [0, 1, 4294967295, 1, 0, 3, 1, 0, 4] = .error .outOfBounds :=
  ⟨rfl, ⟨by decide, by decide⟩, ⟨by decide, by decide⟩, ⟨by decide, by decide⟩, by decide,
    ⟨rfl, rfl⟩, ⟨rfl, rfl⟩, rfl⟩

/-- C20, amended (exact condition of failure). Call side `(t2, s2)` opposite to side
`(t1, s1)` when it runs along the same two vertices in the opposite direction. For
every input whose vertex indices in complete triples are below `2^32 - 1`, `build`
returns, and it returns `false` if and only if some side of a triangle of the input has
two distinct opposite sides; when no side has an opposite side at all, as for
triangles that repeat an edge in the same direction, it returns `true`. -/
theorem build_false_iff (m0 : Manifold) (wks : BuildWorkspace) (xs : List Nat)
    (hb : ∀ v ∈ usedIndices xs, v < 4294967295) :
    (∃ r m wks1, build m0 wks xs = .ok (r, m, wks1)) ∧
    ((∃ m wks1, build m0 wks xs = .ok (false, m, wks1)) ↔
      ∃ a b c : Link, ValidCorner (xs.length / 3) a ∧ ValidCorner (xs.length / 3) b ∧
        ValidCorner (xs.length / 3) c ∧ b ≠ c ∧
        Opposite (triplesOf xs) a.index a.side b.index b.side ∧
        Opposite (triplesOf xs) a.index a.side c.index c.side) ∧
    ((∀ a b : Link, ValidCorner (xs.length / 3) a → ValidCorner (xs.length / 3) b →
        ¬ Opposite (triplesOf xs) a.index a.side b.index b.side) →
      ∃ m wks1, build m0 wks xs = .ok (true, m, wks1)) := by
  obtain ⟨r, m, wks1, h⟩ := build_total m0 wks xs hb
  have main : (∃ m wks1, build m0 wks xs = .ok (false, m, wks1)) ↔
      ∃ a b c : Link, ValidCorner (xs.length / 3) a ∧ ValidCorner (xs.length / 3) b ∧
        ValidCorner (xs.length / 3) c ∧ b ≠ c ∧
        Opposite (triplesOf xs) a.index a.side b.index b.side ∧
        Opposite (triplesOf xs) a.index a.side c.index c.side := by
    constructor
    · rintro ⟨m2, wks2, h2⟩
      exact build_twoOpposites m0 wks xs m2 wks2 h2
    · rintro ⟨a, b, c, ha, hb2, hc, hne, hob, hoc⟩
      cases r with
      | false => exact ⟨m, wks1, h⟩
      | true =>
        exfalso
        have k1 := build_links_opposite m0 wks xs m wks1 h a b ha hb2 hob
        have k2 := build_links_opposite m0 wks xs m wks1 h a c ha hc hoc
        rw [k1] at k2
        exact hne k2
  refine ⟨⟨r, m, wks1, h⟩, main, ?_⟩
  intro hnone
  cases r with
  | true => exact ⟨m, wks1, h⟩
  | false =>
    obtain ⟨a, b, _, ha, hb2, _, _, hob, _⟩ := main.mp ⟨m, wks1, h⟩
    exact absurd hob (hnone a b ha hb2)

/-- Witness for C20, amended: for `(0,1,2)`, `(1,0,3)`, `(1,0,4)`, where side 0 of the
first triangle has the opposite sides `(1, 0)` and `(2, 0)`, `build` returns `false`. -/
theorem build_false_iff_witness :
    (∀ v ∈ usedIndices [0, 1, 2, 1, 0, 3, 1, 0, 4], v < 4294967295) ∧
    Opposite (triplesOf [0, 1, 2, 1, 0, 3, 1, 0, 4]) 0 0 1 0 ∧
    Opposite (triplesOf [0, 1, 2, 1, 0, 3, 1, 0, 4]) 0 0 2 0 ∧
    ∃ m wks1, build empty ⟨[], [], []⟩ [0, 1, 2, 1, 0, 3, 1, 0, 4] = .ok (false, m, wks1) :=
  ⟨by decide, ⟨rfl, rfl⟩, ⟨rfl, rfl⟩,
    (build_false_iff empty ⟨[], [], []⟩ [0, 1, 2, 1, 0, 3, 1, 0, 4] (by decide)).2.1.mpr
      ⟨⟨0, 0⟩, ⟨1, 0⟩, ⟨2, 0⟩, ⟨by decide, by decide⟩, ⟨by decide, by decide⟩,
        ⟨by decide, by decide⟩, by decide, ⟨rfl, rfl⟩, ⟨rfl, rfl⟩⟩⟩

/-! ## The claim about equal edge keys -/

/-- C21 (edge keys separate distinct edges). After `build` has returned, for all
links `l1` and `l2` that are sides of triangles of the mesh, `getEdgeKey` has a value
for both, and when the two values are equal, `l1` is `l2` or `l2` is the opposite link of
`l1`, the link stored at side `l1.side` of triangle `l1.index`. -/
theorem getEdgeKey_separates (m0 : Manifold) (wks : BuildWorkspace) (xs : List Nat) (r : Bool)
    (m : Manifold) (wks1 : BuildWorkspace) (h : build m0 wks xs = .ok (r, m, wks1))
    (l1 l2 : Link) (h1 : ValidCorner m.m_triangles.length l1)
    (h2 : ValidCorner m.m_triangles.length l2) :
    (∃ k1 k2, getEdgeKey m l1 = some k1 ∧ getEdgeKey m l2 = some k2) ∧
    (getEdgeKey m l1 = getEdgeKey m l2 →
      l1 = l2 ∨ ∃ tri, m.m_triangles[l1.index]? = some tri ∧ l2 = tri.link l1.side) := by
  obtain ⟨_, hinv, _, _⟩ := build_spec m0 wks xs r m wks1 h
  rw [hinv.len] at h1 h2
  obtain ⟨t1, ht1, hl1, _⟩ := getElem?_of_lt_links m.m_triangles l1.index
    (by rw [hinv.len]; exact h1.1)
  obtain ⟨t2, ht2, hl2, _⟩ := getElem?_of_lt_links m.m_triangles l2.index
    (by rw [hinv.len]; exact h2.1)
  have k1 := getEdgeKey_of_getElem? m l1 t1 ht1 h1.2
  have k2 := getEdgeKey_of_getElem? m l2 t2 ht2 h2.2
  have back : ∀ (l : Link) (t : Triangle), ValidCorner (xs.length / 3) l →
      (∀ s, linkAt m.m_triangles l.index s = t.link s) → t.link l.side ≠ InvalidLink →
      (t.link l.side).side < 3 ∧
        linkAt m.m_triangles (t.link l.side).index (t.link l.side).side = l := by
    intro l t hv hl hne
    obtain ⟨_, q2, q3, _, _⟩ := hinv.links l.index l.side hv.1 hv.2 (by rw [hl]; exact hne)
    rw [hl] at q2 q3
    exact ⟨q2, q3⟩
  refine ⟨⟨_, _, k1, k2⟩, fun hkey => ?_⟩
  rw [k1, k2, Option.some.injEq] at hkey
  have s1 := h1.2
  have s2 := h2.2
  by_cases c1 : t1.link l1.side = InvalidLink ∨ (t1.link l1.side).index > l1.index
  · rw [if_pos c1] at hkey
    by_cases c2 : t2.link l2.side = InvalidLink ∨ (t2.link l2.side).index > l2.index
    · rw [if_pos c2] at hkey
      exact Or.inl (link_ext l1 l2 (by omega) (by omega))
    · rw [if_neg c2] at hkey
      obtain ⟨q2, q3⟩ := back l2 t2 h2 hl2 (fun e => c2 (Or.inl e))
      have e : t2.link l2.side = l1 := link_ext _ _ (by omega) (by omega)
      rw [e, hl1] at q3
      exact Or.inr ⟨t1, ht1, q3.symm⟩
  · rw [if_neg c1] at hkey
    obtain ⟨p2, p3⟩ := back l1 t1 h1 hl1 (fun e => c1 (Or.inl e))
    by_cases c2 : t2.link l2.side = InvalidLink ∨ (t2.link l2.side).index > l2.index
    · rw [if_pos c2] at hkey
      exact Or.inr ⟨t1, ht1, link_ext _ _ (by omega) (by omega)⟩
    · rw [if_neg c2] at hkey
      obtain ⟨q2, q3⟩ := back l2 t2 h2 hl2 (fun e => c2 (Or.inl e))
      have e : t1.link l1.side = t2.link l2.side := link_ext _ _ (by omega) (by omega)
      rw [e, q3] at p3
      exact Or.inl p3.symm

/-- Witness for C21: on `pairInput`, side 0 of triangle 0 and side 0 of triangle 1
both have the key 0, and `(1, 0)` is the link stored at side 0 of triangle 0. -/
theorem getEdgeKey_separates_witness :
    build empty ⟨[], [], []⟩ pairInput = .ok (true, pairManifold, pairWorkspace) ∧
    ValidCorner pairManifold.m_triangles.length ⟨0, 0⟩ ∧
    ValidCorner pairManifold.m_triangles.length ⟨1, 0⟩ ∧
    getEdgeKey pairManifold ⟨0, 0⟩ = getEdgeKey pairManifold ⟨1, 0⟩ ∧
    ((⟨0, 0⟩ : Link) = ⟨1, 0⟩ ∨
      ∃ tri, pairManifold.m_triangles[0]? = some tri ∧ (⟨1, 0⟩ : Link) = tri.link 0) :=
  ⟨rfl, ⟨by decide, by decide⟩, ⟨by decide, by decide⟩, rfl,
    (getEdgeKey_separates empty ⟨[], [], []⟩ pairInput true pairManifold pairWorkspace rfl
      ⟨0, 0⟩ ⟨1, 0⟩ ⟨by decide, by decide⟩ ⟨by decide, by decide⟩).2 rfl⟩

end Manifold

end GeomLib
